import Mathlib

/-!
Multi-attribute linear-hashed files: a verification development.

A shallow embedding of `reln.c`, `tuple.c`, `1.c`, `select.c` and `project.c`.

Conventions of the embedding.

* A C string is the list of its bytes before the terminating NUL (`Tuple`).
* Values of the types `Count`, `Offset`, `PageID` and `Bits` are natural
  numbers (`Nat`); shifts `1 << n` are `2 ^ n`.  A hash word only ever has bits `0 .. MAXBITS-1` set.
  The candidate enumeration of `select.c` computes `1 << unknownCount` in an
  `int`; `genCandidatesInt`, `mergeCandidatesInt` and `startSelectionInt` keep
  that width and return `none` from 31 unknown bits on.
* `NO_PAGE` and `NULL` results are `none`.
* A function returns `Option`; the outer `none` stands for a run that does not
  return normally: a failed `assert`, a read of a page that is not in the
  file, a division by zero, an access outside an array, or a loop that runs
  out of the fuel `length of the overflow file + 1` (a chain that long
  revisits a page, and the loop of the source never ends on it).
* The data file and the overflow file are lists of pages indexed by `PageID`.
* `hash_any`, `PAGESIZE` and the page header size are parameters.
-/

set_option autoImplicit false

namespace MALH

/-! ## Types -/

/-- A tuple or attribute value: the bytes of the C string. -/
abbrev Tuple := List Char

/-- Modelled from the spec: the width `MAXBITS = 32` of a hash word (`defs.h`
is not among the sources). -/
def MAXBITS : Nat := 32

/-- One entry of the choice vector. -/
structure ChVecItem where
  att : Nat
  bit : Nat
deriving DecidableEq, Repr

/-- Modelled from the spec: a page (`page.c` is not among the sources).  The
payload is the list of packed tuples in storage order, `ovflow` is the forward
overflow pointer (`none` for `NO_PAGE`). -/
structure Page where
  tuples : List Tuple
  ovflow : Option Nat
deriving DecidableEq, Repr

/-- The relation descriptor `struct RelnRep` together with the contents of
its data file and its overflow file. -/
structure Reln where
  nattrs : Nat
  depth : Nat
  sp : Nat
  npages : Nat
  ntups : Nat
  cv : List ChVecItem
  data : List Page
  ovflow : List Page
deriving DecidableEq, Repr

/-! ## Bits (modelled from the spec) -/

/-- Modelled from the spec: `bitIsSet` of `bits.c`, test bit `i` of a word. -/
def bitIsSet (h : Nat) (i : Nat) : Bool := h.testBit i

/-- Modelled from the spec: `setBit` of `bits.c`, set bit `i` of a word. -/
def setBit (h : Nat) (i : Nat) : Nat := h ||| (2 ^ i)

/-- Modelled from the spec: `getLower` of `bits.c`, the low `n` bits. -/
def getLower (h : Nat) (n : Nat) : Nat := h % 2 ^ n

/-! ## Pages and files (modelled from the spec) -/

/-- Modelled from the spec: `newPage` of `page.c`, an empty page with no
overflow page. -/
def newPage : Page := ⟨[], none⟩

/-- Modelled from the spec: `pageNTuples` of `page.c`. -/
def pageNTuples (p : Page) : Nat := p.tuples.length

/-- Modelled from the spec: `pageOvflow` of `page.c`. -/
def pageOvflow (p : Page) : Option Nat := p.ovflow

/-- Modelled from the spec: `pageSetOvflow` of `page.c`. -/
def pageSetOvflow (p : Page) (q : Option Nat) : Page := { p with ovflow := q }

/-- Bytes taken by the packed tuples of a page, each with its NUL. -/
def pageUsed (p : Page) : Nat := (p.tuples.map (fun t => t.length + 1)).sum

/-- Modelled from the spec: `pageFreeSpace` of `page.c`; `free` is the header
size plus the bytes of the packed tuples. -/
def pageFreeSpace (PAGESIZE HDR : Nat) (p : Page) : Nat := PAGESIZE - (HDR + pageUsed p)

/-- Modelled from the spec: `addToPage` of `page.c`; appending a tuple of
length `L` requires `PAGESIZE - free ≥ L + 1`; `none` when the page is full. -/
def addToPage (PAGESIZE HDR : Nat) (p : Page) (t : Tuple) : Option Page :=
  if t.length + 1 ≤ pageFreeSpace PAGESIZE HDR p then
    some { p with tuples := p.tuples ++ [t] }
  else none

/-- Modelled from the spec: `getPage` of `page.c`; a page outside the file
cannot be read. -/
def getPage (f : List Page) (id : Nat) : Option Page := f[id]?

/-- Modelled from the spec: `putPage` of `page.c`; writes a page of the file,
or the page right after its end.  A write further out is not modelled. -/
def putPage (f : List Page) (id : Nat) (p : Page) : Option (List Page) :=
  if id < f.length then some (f.set id p)
  else if id = f.length then some (f ++ [p])
  else none

/-- Modelled from the spec: `addPage` of `page.c`; appends an empty page and
returns its id. -/
def addPage (f : List Page) : List Page × Nat := (f ++ [newPage], f.length)

/-! ## tuple.c -/

/-- The fields of a tuple: `tupleVals` splits at every comma. -/
def tupleVals : Tuple → List Tuple
  | [] => [[]]
  | c :: cs =>
    if c = ',' then [] :: tupleVals cs
    else
      match tupleVals cs with
      | [] => [[c]]
      | f :: fs => (c :: f) :: fs

/-- The second loop of `tupleHash`: positions `i, i+1, ..` (`n` of them) of
the composite hash.  `h` holds the hashes of the attributes. -/
def tupleHashLoop (cv : List ChVecItem) (h : List Nat) : Nat → Nat → Nat → Option Nat
  | 0, _, hash => some hash
  | n + 1, i, hash =>
    match cv[i]? with
    | none => none
    | some item =>
      match h[item.att]? with
      | none => none
      | some ha =>
        tupleHashLoop cv h n (i + 1) (if bitIsSet ha item.bit then setBit hash i else hash)

/-- Composite hash `tupleHash` of `tuple.c`.  `tupleVals` fills an array of
`nattrs` entries, so the tuple must have exactly `nattrs` fields. -/
def tupleHash (hash_any : Tuple → Nat) (r : Reln) (t : Tuple) : Option Nat :=
  let vals := tupleVals t
  if vals.length = r.nattrs then
    tupleHashLoop r.cv (vals.map hash_any) MAXBITS 0 0
  else none

/-! ## 1.c -/

/-- The second loop of `tupleHash` in `1.c`. -/
def tupleHashLoop1 (cv : List ChVecItem) (h : List Nat) : Nat → Nat → Nat → Option Nat
  | 0, _, hash => some hash
  | n + 1, i, hash =>
    match cv[i]? with
    | none => none
    | some item =>
      match h[item.att]? with
      | none => none
      | some ha =>
        if bitIsSet ha item.bit then tupleHashLoop1 cv h n (i + 1) (setBit hash i)
        else tupleHashLoop1 cv h n (i + 1) hash

/-- Composite hash `tupleHash` of `1.c` (the debugging output is left out). -/
def tupleHash1 (hash_any : Tuple → Nat) (r : Reln) (t : Tuple) : Option Nat :=
  let vals := tupleVals t
  if vals.length = r.nattrs then
    tupleHashLoop1 r.cv (vals.map hash_any) MAXBITS 0 0
  else none

/-! ## reln.c -/

/-- What the scan loop of `insertTupleIntoPageChain` ends with. -/
inductive ScanResult where
  /-- the tuple went into a page of the chain; the new overflow file -/
  | placed (ov : List Page)
  /-- every page of the chain is full; the last page and its id -/
  | full (prevp : Nat) (prevpg : Page)
deriving DecidableEq, Repr

/-- The loop `while (ovp != NO_PAGE)` of `insertTupleIntoPageChain`, entered
at the overflow page `ovp`. -/
def scanOvflow (PAGESIZE HDR : Nat) (ov : List Page) (t : Tuple) :
    Nat → Nat → Option ScanResult
  | 0, _ => none
  | fuel + 1, ovp =>
    match getPage ov ovp with
    | none => none
    | some ovpg =>
      match addToPage PAGESIZE HDR ovpg t with
      | none =>
        match pageOvflow ovpg with
        | none => some (ScanResult.full ovp ovpg)
        | some nxt => scanOvflow PAGESIZE HDR ov t fuel nxt
      | some ovpg1 =>
        match putPage ov ovp ovpg1 with
        | none => none
        | some ov1 => some (ScanResult.placed ov1)

/-- The function `insertTupleIntoPageChain` of `reln.c`.  The result is the new
relation state and the returned page id (`none` for `NO_PAGE`). -/
def insertTupleIntoPageChain (PAGESIZE HDR : Nat) (r : Reln) (p : Nat) (t : Tuple) :
    Option (Reln × Option Nat) :=
  match getPage r.data p with
  | none => none
  | some pg =>
    match addToPage PAGESIZE HDR pg t with
    | some pg1 =>
      match putPage r.data p pg1 with
      | none => none
      | some data1 => some ({ r with data := data1 }, some p)
    | none =>
      match pageOvflow pg with
      | none =>
        -- add first overflow page in chain
        let (ov1, newp) := addPage r.ovflow
        match putPage r.data p (pageSetOvflow pg (some newp)) with
        | none => none
        | some data1 =>
          match getPage ov1 newp with
          | none => none
          | some newpg =>
            match addToPage PAGESIZE HDR newpg t with
            | none => some ({ r with data := data1, ovflow := ov1 }, none)
            | some newpg1 =>
              match putPage ov1 newp newpg1 with
              | none => none
              | some ov2 => some ({ r with data := data1, ovflow := ov2 }, some p)
      | some ovp =>
        -- scan overflow chain until we find space
        match scanOvflow PAGESIZE HDR r.ovflow t (r.ovflow.length + 1) ovp with
        | none => none
        | some (ScanResult.placed ov1) => some ({ r with ovflow := ov1 }, some p)
        | some (ScanResult.full prevp prevpg) =>
          let (ov1, newp) := addPage r.ovflow
          match getPage ov1 newp with
          | none => none
          | some newpg =>
            match addToPage PAGESIZE HDR newpg t with
            | none => some ({ r with ovflow := ov1 }, none)
            | some newpg1 =>
              match putPage ov1 newp newpg1 with
              | none => none
              | some ov2 =>
                match putPage ov2 prevp (pageSetOvflow prevpg (some newp)) with
                | none => none
                | some ov3 => some ({ r with ovflow := ov3 }, some p)

/-- The bucket computed at the start of `addToRelation` from the hash `h`. -/
def addToRelation_bucket (r : Reln) (h : Nat) : Nat :=
  if r.depth = 0 then 0
  else
    let p := getLower h r.depth
    if p < r.sp then getLower h (r.depth + 1) else p

/-- The loop of the split that adds up `pageNTuples` along the overflow chain. -/
def countOvflow (ov : List Page) : Nat → Option Nat → Nat → Option Nat
  | _, none, n => some n
  | 0, some _, _ => none
  | fuel + 1, some q, n =>
    match getPage ov q with
    | none => none
    | some pg => countOvflow ov fuel (pageOvflow pg) (n + pageNTuples pg)

/-- The loop of the split that copies the tuples of the overflow chain. -/
def collectOvflow (ov : List Page) : Nat → Option Nat → List Tuple → Option (List Tuple)
  | _, none, acc => some acc
  | 0, some _, _ => none
  | fuel + 1, some q, acc =>
    match getPage ov q with
    | none => none
    | some pg => collectOvflow ov fuel (pageOvflow pg) (acc ++ pg.tuples)

/-- The loop of the split that overwrites every overflow page of the old
chain by an empty page without a successor. -/
def resetOvflow : Nat → List Page → Option Nat → Option (List Page)
  | _, ov, none => some ov
  | 0, _, some _ => none
  | fuel + 1, ov, some q =>
    match getPage ov q with
    | none => none
    | some pg =>
      match putPage ov q (pageSetOvflow newPage none) with
      | none => none
      | some ov1 => resetOvflow fuel ov1 (pageOvflow pg)

/-- The loop of the split that puts the collected tuples back, each into the
bucket given by the low `depth + 1` bits of its hash. -/
def reinsertTuples (hash_any : Tuple → Nat) (PAGESIZE HDR : Nat) :
    Reln → List Tuple → Option Reln
  | r, [] => some r
  | r, t :: ts =>
    match tupleHash hash_any r t with
    | none => none
    | some h =>
      match insertTupleIntoPageChain PAGESIZE HDR r (getLower h (r.depth + 1)) t with
      | none => none
      | some (r1, _) => reinsertTuples hash_any PAGESIZE HDR r1 ts

/-- The body of `if (r->ntups > 0 && r->ntups % c == 0)` in `addToRelation`:
one split of bucket `sp`. -/
def splitBucket (hash_any : Tuple → Nat) (PAGESIZE HDR : Nat) (r : Reln) : Option Reln :=
  let newPageId := r.sp + 2 ^ r.depth
  let oldPageId := r.sp
  -- creating a new bucket
  let r1 := { r with npages := r.npages + 1 }
  match putPage r1.data newPageId newPage with
  | none => none
  | some data1 =>
    match getPage data1 oldPageId with
    | none => none
    | some oldPageObj =>
      let ovflowID := pageOvflow oldPageObj
      let fuel := r1.ovflow.length + 1
      match countOvflow r1.ovflow fuel ovflowID (pageNTuples oldPageObj) with
      | none => none
      | some _ =>
        match collectOvflow r1.ovflow fuel ovflowID oldPageObj.tuples with
        | none => none
        | some tuples =>
          match putPage data1 oldPageId (pageSetOvflow newPage ovflowID) with
          | none => none
          | some data2 =>
            match resetOvflow fuel r1.ovflow ovflowID with
            | none => none
            | some ov1 =>
              match reinsertTuples hash_any PAGESIZE HDR
                  { r1 with data := data2, ovflow := ov1 } tuples with
              | none => none
              | some r2 =>
                let r3 := { r2 with sp := r2.sp + 1 }
                if r3.sp = 2 ^ r3.depth then
                  some { r3 with depth := r3.depth + 1, sp := 0 }
                else some r3

/-- The function `addToRelation` of `reln.c`. -/
def addToRelation (hash_any : Tuple → Nat) (PAGESIZE HDR : Nat) (r : Reln) (t : Tuple) :
    Option (Reln × Option Nat) :=
  match tupleHash hash_any r t with
  | none => none
  | some h =>
    match insertTupleIntoPageChain PAGESIZE HDR r (addToRelation_bucket r h) t with
    | none => none
    | some (r1, none) => some (r1, none)
    | some (r1, some p) =>
      let r2 := { r1 with ntups := r1.ntups + 1 }
      if 10 * r2.nattrs = 0 then none
      else
        let c := 1024 / (10 * r2.nattrs)
        if 0 < r2.ntups then
          if c = 0 then none
          else if r2.ntups % c = 0 then
            match splitBucket hash_any PAGESIZE HDR r2 with
            | none => none
            | some r3 => some (r3, some p)
          else some (r2, some p)
        else some (r2, some p)

/-! ## select.c -/

/-- The state `struct SelectionRep` of a selection scan. -/
structure Selection where
  rel : Reln
  known : Nat
  unknown : Nat
  curpage : Option Page
  is_ovflow : Nat
  curtupOffset : Nat
  curtupIndex : Nat
  curPageId : Nat
  curScanPageId : Nat
  queryString : Tuple
  queryValues : List Tuple
  nattrs : Nat
  candidates : List Nat
  ncandidates : Nat
  currCandidate : Nat
deriving DecidableEq, Repr

/-- The `while (*t)` loop of `matchPattern`.  `p` and `t` are the rests of
the pattern and of the text, `tag` holds `pTag` (the rest of the pattern from
the recorded `%` on) and `tTag`. -/
def matchLoop : Nat → List Char → List Char → Option (List Char × List Char) → Option Bool
  | 0, _, _, _ => none
  | fuel + 1, p, t, tag =>
    match t with
    | [] =>
      -- after the loop: the rest of the pattern may only be '%'
      some (p.dropWhile (fun c => c = '%')).isEmpty
    | tc :: t1 =>
      if p.head? = some '%' then
        let p2 := p.tail.dropWhile (fun c => c = '%')
        if p2 = [] then some true
        else matchLoop fuel p2 t (some (p, t))
      else if p.head? = some tc then matchLoop fuel p.tail t1 tag
      else
        match tag with
        | some (pTag, tTag) => matchLoop fuel pTag.tail tTag.tail (some (pTag, tTag.tail))
        | none => some false

/-- Number of loop iterations granted to `matchLoop`. -/
def matchFuel (tupleValue queryValue : Tuple) : Nat :=
  tupleValue.length * (queryValue.length + 1) + queryValue.length + 1

/-- The function `matchPattern` of `select.c`. -/
def matchPattern (tupleValue queryValue : Tuple) : Bool :=
  if queryValue = ['?'] then true
  else if '%' ∈ queryValue then
    match matchLoop (matchFuel tupleValue queryValue) queryValue tupleValue none with
    | some b => b
    | none => false
  else if tupleValue = queryValue then true else false

/-- The loop of `matchTuple` over the attributes. -/
def matchTupleLoop : List Tuple → List Tuple → Bool
  | v :: vs, q :: qs => if matchPattern v q then matchTupleLoop vs qs else false
  | _, _ => true

/-- The function `matchTuple` of `select.c`.  `tupleVals` fills an array of
`nattrs` entries, all of which are released afterwards. -/
def matchTuple (s : Selection) (t : Tuple) : Option Bool :=
  let tupleValues := tupleVals t
  if tupleValues.length = s.nattrs ∧ s.queryValues.length = s.nattrs then
    some (matchTupleLoop tupleValues s.queryValues)
  else none

/-- The part of `genCandidates` that overwrites the unknown positions by the
bits of the combination number `c`: position `pos[i]` gets bit `i` of `c`. -/
def setUnknownBits (c : Nat) : List Nat → Nat → List Bool → List Bool
  | [], _, bits => bits
  | q :: pos, i, bits => setUnknownBits c pos (i + 1) (bits.set q (c.testBit i))

/-- The part of `genCandidates` that assembles the page id from the bits. -/
def assembleBits : List Bool → Nat → Nat → Nat
  | [], _, cand => cand
  | b :: bits, i, cand => assembleBits bits (i + 1) (if b then setBit cand i else cand)

/-- The enumeration of `genCandidates` of `select.c`, with `total = 1 <<
unknownCount` taken in the natural numbers; `genCandidatesInt` below is the
function with the `int` arithmetic of the source, which produces this list as
long as fewer than 31 bits are unknown. -/
def genCandidates (known unknown : Nat) (numBits : Nat) : List Nat :=
  let pos := (List.range numBits).filter (fun i => bitIsSet unknown i)
  let total := 2 ^ pos.length
  (List.range total).map (fun c =>
    let bits := (List.range numBits).map (fun i => bitIsSet known i)
    assembleBits (setUnknownBits c pos 0 bits) 0 0)

/-- The tokens `strtok` cuts out of a string with the delimiter `,`: the
maximal runs of other characters. -/
def strtokComma (s : List Char) : List (List Char) :=
  (tupleVals s).filter (fun tok => tok ≠ [])

/-- The query values of `startSelection`: at most `nattrs` tokens of the
query, padded with `?`. -/
def parseQuery (nattrs : Nat) (q : Tuple) : List Tuple :=
  let toks := (strtokComma q).take nattrs
  toks ++ List.replicate (nattrs - toks.length) ['?']

/-- The array `vals` of `startSelection`: `*` marks an unknown attribute. -/
def queryVals (queryValues : List Tuple) : List Tuple :=
  queryValues.map (fun qv => if qv = ['?'] ∨ '%' ∈ qv then ['*'] else qv)

/-- The loop of `startSelection` that computes `known` and `unknown`. -/
def maskLoop (hash_any : Tuple → Nat) (cv : List ChVecItem) (vals : List Tuple) :
    Nat → Nat → Nat → Nat → Option (Nat × Nat)
  | 0, _, known, unknown => some (known, unknown)
  | n + 1, i, known, unknown =>
    match cv[i]? with
    | none => none
    | some item =>
      match vals[item.att]? with
      | none => none
      | some v =>
        if v ≠ ['*'] then
          maskLoop hash_any cv vals n (i + 1)
            (if bitIsSet (hash_any v) item.bit then setBit known i else known) unknown
        else maskLoop hash_any cv vals n (i + 1) known (setBit unknown i)

/-- The merged candidate list of `startSelection`, over the enumeration in
the natural numbers (`mergeCandidatesInt` has the `int` arithmetic). -/
def mergeCandidates (known unknown : Nat) (depthVal : Nat) (sp : Nat) : List Nat :=
  let candD := genCandidates known unknown depthVal
  let candDplus := genCandidates known unknown (depthVal + 1)
  let mask := 2 ^ depthVal - 1
  candD.filter (fun x => sp ≤ x) ++ candDplus.filter (fun x => x &&& mask < sp)

/-- The function `startSelection` of `select.c`. -/
def startSelection (hash_any : Tuple → Nat) (r : Reln) (q : Tuple) : Option Selection :=
  let queryValues := parseQuery r.nattrs q
  match maskLoop hash_any r.cv (queryVals queryValues) MAXBITS 0 0 0 with
  | none => none
  | some (known, unknown) =>
    let candidates := mergeCandidates known unknown r.depth r.sp
    let new : Selection :=
      { rel := r, known := known, unknown := unknown, curpage := none, is_ovflow := 0,
        curtupOffset := 0, curtupIndex := 0, curPageId := 0, curScanPageId := 0,
        queryString := q, queryValues := queryValues, nattrs := r.nattrs,
        candidates := candidates, ncandidates := candidates.length, currCandidate := 0 }
    match candidates with
    | [] => some new
    | c0 :: _ =>
      match getPage r.data c0 with
      | none => none
      | some pg => some { new with curPageId := c0, curScanPageId := c0, curpage := some pg }

/-- The loops of `getNextTuple`; one unit of fuel is one pass through the
inner loop body (or the loading of a candidate page). -/
def getNextTupleLoop : Nat → Selection → Option (Selection × Option Tuple)
  | 0, _ => none
  | fuel + 1, s =>
    if s.currCandidate < s.ncandidates then
      match s.curpage with
      | none =>
        match s.candidates[s.currCandidate]? with
        | none => none
        | some cid =>
          match getPage s.rel.data cid with
          | none => none
          | some pg =>
            getNextTupleLoop fuel
              { s with curPageId := cid, curScanPageId := cid, is_ovflow := 0,
                       curtupIndex := 0, curtupOffset := 0, curpage := some pg }
      | some pg =>
        if s.curtupIndex < pageNTuples pg then
          match pg.tuples[s.curtupIndex]? with
          | none => none
          | some tuple =>
            let s1 := { s with curtupOffset := s.curtupOffset + (tuple.length + 1),
                               curtupIndex := s.curtupIndex + 1 }
            match matchTuple s1 tuple with
            | none => none
            | some true => some (s1, some tuple)
            | some false => getNextTupleLoop fuel s1
        else
          match pageOvflow pg with
          | some nextPageId =>
            match getPage s.rel.ovflow nextPageId with
            | none => none
            | some npg =>
              getNextTupleLoop fuel
                { s with is_ovflow := 1, curScanPageId := nextPageId, curtupIndex := 0,
                         curtupOffset := 0, curpage := some npg }
          | none =>
            getNextTupleLoop fuel { s with curpage := none, currCandidate := s.currCandidate + 1 }
    else some (s, none)

/-- Calls `getNextTuple` until it returns `NULL` and lists the tuples it
returned; `calls` bounds the number of calls, `fuel` the work of one call. -/
def selectAll (fuel : Nat) : Nat → Selection → Option (List Tuple)
  | 0, _ => none
  | calls + 1, s =>
    match getNextTupleLoop fuel s with
    | none => none
    | some (_, none) => some []
    | some (s1, some t) =>
      match selectAll fuel calls s1 with
      | none => none
      | some ts => some (t :: ts)

/-! ## Specification-level definitions -/

/-- Validity of the choice vector: all `MAXBITS` entries are present and name
an attribute and a bit of its hash. -/
def ValidCV (r : Reln) : Prop :=
  ∀ i, i < MAXBITS → ∃ item, r.cv[i]? = some item ∧ item.att < r.nattrs ∧ item.bit < 32

/-- Bit `i` of the composite hash, read off the choice vector. -/
def cvBit (hash_any : Tuple → Nat) (r : Reln) (t : Tuple) (i : Nat) : Bool :=
  (hash_any ((tupleVals t).getD (r.cv.getD i ⟨0, 0⟩).att [])).testBit (r.cv.getD i ⟨0, 0⟩).bit

/-- The state after the tuple count was incremented. -/
def bumpNtups (r : Reln) : Reln := { r with ntups := r.ntups + 1 }

/-- The split threshold `c` of `addToRelation`. -/
def splitThreshold (r : Reln) : Nat := 1024 / (10 * r.nattrs)

/-- Declarative reading of a query value as a pattern, anchored at both ends
of the value: `%` stands for an arbitrary (possibly empty) string, every other
character for itself. -/
def WildMatches : List Char → List Char → Prop
  | [], v => v = []
  | c :: p, v =>
    if c = '%' then ∃ s t, v = s ++ t ∧ WildMatches p t
    else ∃ t, v = c :: t ∧ WildMatches p t

/-- The alternative kept by the backtracking tag. -/
def tagAlt : Option (List Char × List Char) → Prop
  | none => False
  | some (pTag, tTag) => tTag ≠ [] ∧ WildMatches pTag tTag.tail

/-- Loop invariant that ties the tag to the current position. -/
def tagOK (p t : List Char) : Option (List Char × List Char) → Prop
  | none => True
  | some (pTag, tTag) =>
    pTag.head? = some '%' ∧ t.length ≤ tTag.length ∧ p.length ≤ pTag.tail.length ∧
      (tTag ≠ [] → WildMatches pTag tTag.tail → WildMatches ('%' :: p) t)

/-- Bound on the number of iterations left. -/
def loopBound (p t : List Char) : Option (List Char × List Char) → Nat
  | none => t.length * (p.length + 1) + p.length + 1
  | some (pTag, tTag) => tTag.length * (pTag.tail.length + 1) + p.length + 1

/-- `IsChain ov l s`: following the overflow pointers from `s` through the
overflow file `ov` visits exactly the pages `l`, in this order, and then
reaches `NO_PAGE`. -/
def IsChain (ov : List Page) : List Nat → Option Nat → Prop
  | [], s => s = none
  | q :: l, s => s = some q ∧ ∃ pg, ov[q]? = some pg ∧ IsChain ov l pg.ovflow

/-- The tuples of page `q` of a file (none when the page does not exist). -/
def pageTuplesAt (f : List Page) (q : Nat) : List Tuple :=
  match f[q]? with
  | some pg => pg.tuples
  | none => []

/-- The tuples of the overflow pages `l`, in order. -/
def chainTuples (ov : List Page) (l : List Nat) : List Tuple :=
  l.flatMap (pageTuplesAt ov)

/-- The tuples stored in bucket `B`: those of its primary page followed by
those of its overflow chain `ch B`. -/
def bucketTuples (r : Reln) (ch : Nat → List Nat) (B : Nat) : List Tuple :=
  pageTuplesAt r.data B ++ chainTuples r.ovflow (ch B)

/-- All tuples held by the pages of the two files. -/
def allTuples (r : Reln) : List Tuple :=
  (r.data ++ r.ovflow).flatMap Page.tuples

/-- Every primary page has a well-formed overflow chain, listed by `ch`, and
no overflow page belongs to the chains of two buckets. -/
structure ChainsOK (r : Reln) (ch : Nat → List Nat) : Prop where
  chain : ∀ B, B < r.data.length →
    ∃ pg, r.data[B]? = some pg ∧ IsChain r.ovflow (ch B) pg.ovflow
  disjoint : ∀ B B', B < r.data.length → B' < r.data.length → B ≠ B' →
    ∀ q, q ∈ ch B → q ∉ ch B'

/-- The two relation states agree on everything but the files. -/
def SameHeader (r r' : Reln) : Prop :=
  r'.nattrs = r.nattrs ∧ r'.depth = r.depth ∧ r'.sp = r.sp ∧ r'.npages = r.npages ∧
    r'.ntups = r.ntups ∧ r'.cv = r.cv

/-- One step on bucket `B`: the bucket gains the tuples `added`, every other
bucket keeps its tuples, the counters stay, and the chains stay well formed. -/
structure BucketStep (r : Reln) (ch : Nat → List Nat) (r' : Reln) (ch' : Nat → List Nat)
    (B : Nat) (added : List Tuple) : Prop where
  header : SameHeader r r'
  data_len : r'.data.length = r.data.length
  ov_len : r.ovflow.length ≤ r'.ovflow.length
  chains : ChainsOK r' ch'
  others : ∀ B', B' < r.data.length → B' ≠ B → bucketTuples r' ch' B' = bucketTuples r ch B'
  bucket : (bucketTuples r' ch' B).Perm (added ++ bucketTuples r ch B)
  all : (allTuples r').Perm (added ++ allTuples r)

/-- Bucket address rule of the specification: with `p = h mod 2^d`, the bucket
is `h mod 2^(d+1)` if `p < sp` and `p` otherwise. -/
def bucketAddr (h d sp : Nat) : Nat :=
  if h % 2 ^ d < sp then h % 2 ^ (d + 1) else h % 2 ^ d

/-- Every tuple stored in a bucket hashes to the bucket `f` assigns to it. -/
def PlacedBy (hash_any : Tuple → Nat) (r : Reln) (ch : Nat → List Nat) (f : Nat → Nat) : Prop :=
  ∀ B, B < r.data.length → ∀ u ∈ bucketTuples r ch B,
    ∃ h, tupleHash hash_any r u = some h ∧ f h = B

/-- Counter invariant, one primary page per bucket, and well-formed overflow
chains (listed by `ch`). -/
structure WellFormed (r : Reln) (ch : Nat → List Nat) : Prop where
  sp_lt : r.sp < 2 ^ r.depth
  npages_eq : r.npages = 2 ^ r.depth + r.sp
  data_len : r.data.length = r.npages
  chains : ChainsOK r ch

/-- The tuples stored in the buckets: those of bucket 0, then bucket 1, ... -/
def storedTuples (r : Reln) (ch : Nat → List Nat) : List Tuple :=
  (List.range r.data.length).flatMap (bucketTuples r ch)

/-- Depth after a split at split pointer `sp`. -/
def nextDepth (d sp : Nat) : Nat := if sp + 1 = 2 ^ d then d + 1 else d

/-- Split pointer after a split at split pointer `sp`. -/
def nextSp (d sp : Nat) : Nat := if sp + 1 = 2 ^ d then 0 else sp + 1

/-- The overflow chains right after the old bucket was emptied: the old
bucket keeps its first overflow page, the new bucket has none. -/
def midChains (r : Reln) (ch : Nat → List Nat) : Nat → List Nat :=
  fun B => if B = r.sp then (ch r.sp).take 1 else if B = r.data.length then [] else ch B

/-- The state of the split right before the tuples are put back. -/
def midState (r : Reln) (old : Page) (ov1 : List Page) : Reln :=
  { r with npages := r.npages + 1,
           data := (r.data ++ [newPage]).set r.sp (pageSetOvflow newPage (pageOvflow old)),
           ovflow := ov1 }

/-- The counters after a split. -/
def afterSplit (r2 : Reln) : Reln :=
  if r2.sp + 1 = 2 ^ r2.depth then { r2 with depth := r2.depth + 1, sp := 0 }
  else { r2 with sp := r2.sp + 1 }

/-- The invariants of a linear-hashed file: counters, one primary page per
bucket, well-formed chains, every stored tuple in the bucket of its hash, every
tuple small enough for an empty page, and `ntups` the number of tuples. -/
structure Invariant (hash_any : Tuple → Nat) (PAGESIZE HDR : Nat) (r : Reln)
    (ch : Nat → List Nat) : Prop where
  wf : WellFormed r ch
  placed : PlacedBy hash_any r ch (fun h => bucketAddr h r.depth r.sp)
  fits : ∀ u ∈ allTuples r, u.length + 1 ≤ PAGESIZE - HDR
  count : (allTuples r).length = r.ntups
  stored : (storedTuples r ch).length = r.ntups

/-- A freshly created relation: split pointer 0, `2^depth` empty primary
pages, no overflow page, no tuple. -/
def Fresh (r : Reln) : Prop :=
  r.sp = 0 ∧ r.npages = 2 ^ r.depth ∧ r.ntups = 0 ∧
    r.data = List.replicate r.npages newPage ∧ r.ovflow = []

/-- `Reaches r0 K r`: the state `r` is reached from `r0` by calls of
`addToRelation` that return, `K` of them with a page id and the others with
`NO_PAGE`. -/
inductive Reaches (hash_any : Tuple → Nat) (PAGESIZE HDR : Nat) (r0 : Reln) :
    Nat → Reln → Prop where
  | start : Reaches hash_any PAGESIZE HDR r0 0 r0
  | failed (K : Nat) (r r' : Reln) (t : Tuple) :
      Reaches hash_any PAGESIZE HDR r0 K r →
      addToRelation hash_any PAGESIZE HDR r t = some (r', none) →
      Reaches hash_any PAGESIZE HDR r0 K r'
  | inserted (K : Nat) (r r' : Reln) (t : Tuple) (p : Nat) :
      Reaches hash_any PAGESIZE HDR r0 K r →
      addToRelation hash_any PAGESIZE HDR r t = some (r', some p) →
      Reaches hash_any PAGESIZE HDR r0 (K + 1) r'

/-- Example hash function: the sum of the character codes. -/
def exHash (t : Tuple) : Nat := (t.map Char.toNat).sum

/-- Example choice vector: bit `i` of the composite hash is bit `i / 2` of
the hash of attribute `i % 2`. -/
def exCV : List ChVecItem := (List.range 32).map (fun i => ⟨i % 2, i / 2⟩)

/-- Example relation: 52 attributes (split threshold 1), one empty bucket. -/
def exReln : Reln := ⟨52, 0, 0, 1, 0, exCV, [newPage], []⟩

/-- Example tuple with 52 fields, the first is `a`, the others are empty. -/
def exTuple : Tuple := 'a' :: List.replicate 51 ','

/-- The example relation after `exTuple` was inserted and bucket 0 split. -/
def exReln1 : Reln := ⟨52, 1, 0, 2, 1, exCV, [newPage, ⟨[exTuple], none⟩], []⟩

/-- The number whose bit `i` is the `i`-th entry of the list. -/
def packBits : List Bool → Nat
  | [] => 0
  | b :: bs => (if b then 1 else 0) + 2 * packBits bs

/-- The candidate that `genCandidates` builds for the combination number `c`. -/
def candidateOf (known unknown numBits c : Nat) : Nat :=
  assembleBits
    (setUnknownBits c ((List.range numBits).filter (fun i => bitIsSet unknown i)) 0
      ((List.range numBits).map (fun i => bitIsSet known i))) 0 0

/-- The position of bit `j` among the unknown bits below `numBits`. -/
def unknownIndex (unknown numBits j : Nat) : Nat :=
  ((List.range numBits).filter (fun i => bitIsSet unknown i)).indexOf j

/-- The value that the array `vals` of `startSelection` holds for the
attribute that the choice vector names at position `j`. -/
def valAt (cv : List ChVecItem) (vals : List Tuple) (j : Nat) : Tuple :=
  vals.getD (cv.getD j ⟨0, 0⟩).att []

/-- A tuple matches the query values on every attribute. -/
def MatchesQuery (queryValues : List Tuple) (t : Tuple) : Prop :=
  ∀ i, i < queryValues.length →
    matchPattern ((tupleVals t).getD i []) (queryValues.getD i []) = true

/-- Where a selection scan stands: at tuple `i` of a page `pg` of candidate
number `c`, with the overflow pages `l` of the bucket still ahead, or between
two candidates, before candidate number `c` is loaded. -/
inductive ScanPos where
  | atPage (c : Nat) (pg : Page) (i : Nat) (l : List Nat)
  | between (c : Nat)

/-- The tuples of the candidates from number `c` on. -/
def restTuples (r : Reln) (ch : Nat → List Nat) (cands : List Nat) (c : Nat) : List Tuple :=
  (cands.drop c).flatMap (bucketTuples r ch)

/-- The tuples the scan still has to look at. -/
def ScanPos.stream (r : Reln) (ch : Nat → List Nat) (cands : List Nat) : ScanPos → List Tuple
  | ScanPos.atPage c pg i l =>
    pg.tuples.drop i ++ (chainTuples r.ovflow l ++ restTuples r ch cands (c + 1))
  | ScanPos.between c => restTuples r ch cands c

/-- Loop iterations needed to scan one bucket. -/
def bucketWork (r : Reln) (ch : Nat → List Nat) (B : Nat) : Nat :=
  1 + ((pageTuplesAt r.data B).length + 1) +
    ((ch B).map (fun q => (pageTuplesAt r.ovflow q).length + 1)).sum

/-- Loop iterations needed for the candidates from number `c` on. -/
def restWork (r : Reln) (ch : Nat → List Nat) (cands : List Nat) (c : Nat) : Nat :=
  ((cands.drop c).map (bucketWork r ch)).sum

/-- Loop iterations the scan still needs to reach the end. -/
def ScanPos.work (r : Reln) (ch : Nat → List Nat) (cands : List Nat) : ScanPos → Nat
  | ScanPos.atPage c pg i l =>
    (pg.tuples.length - i) + 1 + (l.map (fun q => (pageTuplesAt r.ovflow q).length + 1)).sum +
      restWork r ch cands (c + 1)
  | ScanPos.between c => restWork r ch cands c

/-- The selection state `s` stands at the position `pos`. -/
def Abstracts (s : Selection) : ScanPos → Prop
  | ScanPos.atPage c pg i l =>
    s.currCandidate = c ∧ c < s.ncandidates ∧ s.curpage = some pg ∧ s.curtupIndex = i ∧
      IsChain s.rel.ovflow l pg.ovflow
  | ScanPos.between c => s.currCandidate = c ∧ s.curpage = none

/-- What `getNextTuple` never changes in a selection. -/
structure SameQuery (s s' : Selection) : Prop where
  rel : s'.rel = s.rel
  queryValues : s'.queryValues = s.queryValues
  nattrs : s'.nattrs = s.nattrs
  candidates : s'.candidates = s.candidates
  ncandidates : s'.ncandidates = s.ncandidates

/-- The selection belongs to the relation `r` with chains `ch`: its candidates
are buckets of `r`, and its query has `nattrs` values. -/
structure SelOK (s : Selection) (r : Reln) (ch : Nat → List Nat) : Prop where
  rel : s.rel = r
  ncand : s.ncandidates = s.candidates.length
  nquery : s.queryValues.length = s.nattrs
  cands : ∀ B ∈ s.candidates, B < r.data.length
  chains : ChainsOK r ch

/-- The first tuple of a list that satisfies `m`, and the tuples after it. -/
def firstMatch (m : Tuple → Bool) : List Tuple → Option (Tuple × List Tuple)
  | [] => none
  | u :: rest => if m u then some (u, rest) else firstMatch m rest

/-- The test of `matchTuple`, for a tuple with the right number of fields. -/
def matchesValues (queryValues : List Tuple) (t : Tuple) : Bool :=
  matchTupleLoop (tupleVals t) queryValues

instance decMatchesQuery (queryValues : List Tuple) (t : Tuple) :
    Decidable (MatchesQuery queryValues t) := by
  unfold MatchesQuery
  infer_instance

/-- A relation with two attributes, one empty bucket, and no tuple. -/
def exReln2 : Reln := ⟨2, 0, 0, 1, 0, exCV, [newPage], []⟩

/-- A tuple with two fields, the first of them empty. -/
def exEmptyField : Tuple := [',', 'b']

/-- The relation `exReln2` after `exEmptyField` was inserted. -/
def exReln2a : Reln := ⟨2, 0, 0, 1, 1, exCV, [⟨[exEmptyField], none⟩], []⟩

/-- Inserts the tuples of a list one after the other with `addToRelation`;
`none` when a call does not return or returns `NO_PAGE`. -/
def insertAll (hash_any : Tuple → Nat) (PAGESIZE HDR : Nat) : Reln → List Tuple → Option Reln
  | r, [] => some r
  | r, t :: ts =>
    match addToRelation hash_any PAGESIZE HDR r t with
    | some (r1, some _) => insertAll hash_any PAGESIZE HDR r1 ts
    | _ => none

/-- The number of splits that lead from the state `r0` to the state `r`: a
split is the only step that changes `npages`, and it adds one. -/
def splitsSince (r0 r : Reln) : Nat := r.npages - r0.npages

/-- The relation of the scenario: three attributes, depth 2, four buckets. -/
def exReln3 : Reln := ⟨3, 2, 0, 4, 0, exCV, List.replicate 4 newPage, []⟩

/-- The tuple of the scenario. -/
def exTuple3 : Tuple := "alpha,beta,gamma".toList

/-- A tuple with 52 fields that is longer than a page of 128 bytes. -/
def exBigTuple : Tuple := List.replicate 70 'a' ++ List.replicate 51 ','

/-- The relation `exReln` after the failed insertion of `exBigTuple`: an
empty overflow page was added to bucket 0. -/
def exRelnFull : Reln := ⟨52, 0, 0, 1, 0, exCV, [⟨[], some 0⟩], [newPage]⟩

/-- A relation with 103 attributes, one empty bucket, and no tuple. -/
def exReln103 : Reln := ⟨103, 0, 0, 1, 0, exCV, [newPage], []⟩

/-- A tuple with 103 empty fields. -/
def exTuple103 : Tuple := List.replicate 102 ','

/-- The loop `for (i = 0; i < npages; i++) addPage(r->data)` of `newRelation`. -/
def newRelationPages : Nat → List Page → List Page
  | 0, f => f
  | n + 1, f => newRelationPages n (addPage f).1

/-- The function `newRelation` of `reln.c`: the relation that it leaves in the
three files, `none` when `parseChVec` rejects the choice vector (status `~OK`).
`parseChVec` of `chvec.c` is a parameter; it is called with the descriptor
whose counters are set and whose choice vector is not.  The name of the
relation only names the files. -/
def newRelation (parseChVec : Reln → Tuple → Option (List ChVecItem))
    (nattrs npages d : Nat) (cv : Tuple) : Option Reln :=
  let r : Reln := ⟨nattrs, d, 0, npages, 0, [], [], []⟩
  match parseChVec r cv with
  | none => none
  | some cvv => some { r with cv := cvv, data := newRelationPages npages r.data }

/-- The text of a list of terms: the terms separated by single commas. -/
def joinComma : List Tuple → Tuple
  | [] => []
  | [a] => a
  | a :: b :: rest => a ++ ',' :: joinComma (b :: rest)

/-- The C library function `isspace` in the C locale: the space and the
control characters 9 to 13. -/
def isspace (c : Char) : Bool := decide (c.toNat = 32 ∨ (9 ≤ c.toNat ∧ c.toNat ≤ 13))

/-- The digits loop of the C library function `atoi`: the value of the longest
prefix of decimal digits, on top of `acc`. -/
def atoiDigits : List Char → Nat → Nat
  | [], acc => acc
  | c :: cs, acc =>
    if 48 ≤ c.toNat ∧ c.toNat ≤ 57 then atoiDigits cs (acc * 10 + (c.toNat - 48)) else acc

/-- The C library function `atoi`: white space, an optional sign, decimal
digits (values that do not fit an `int` are not modelled). -/
def atoi (s : List Char) : Int :=
  match s.dropWhile isspace with
  | [] => 0
  | c :: cs =>
    if c = '-' then -(atoiDigits cs 0 : Int)
    else if c = '+' then (atoiDigits cs 0 : Int)
    else (atoiDigits (c :: cs) 0 : Int)

/-- The state `struct ProjectionRep` of a projection. -/
structure Projection where
  rel : Reln
  nattrs : Nat
  attrList : List Int
  projCount : Nat
  allAttrs : Bool
deriving DecidableEq, Repr

/-- The function `startProjection` of `project.c`. -/
def startProjection (r : Reln) (attrstr : List Char) : Projection :=
  if attrstr = ['*'] then
    { rel := r, nattrs := r.nattrs, attrList := (List.range r.nattrs).map Int.ofNat,
      projCount := r.nattrs, allAttrs := true }
  else
    let toks := strtokComma attrstr
    { rel := r, nattrs := r.nattrs, attrList := toks.map (fun tok => atoi tok - 1),
      projCount := toks.length, allAttrs := false }

/-- The loop of `projectTuple` over the projected attributes: `n` rounds are
left, `i` is the loop counter, `buf` the text built so far.  Reading `attrList`
or `values` outside their bounds gives `none`. -/
def projectLoop (values : List Tuple) (attrList : List Int) : Nat → Nat → Tuple → Option Tuple
  | 0, _, buf => some buf
  | n + 1, i, buf =>
    match attrList[i]? with
    | none => none
    | some attrIndex =>
      if attrIndex < 0 then none
      else
        match values[attrIndex.toNat]? with
        | none => none
        | some v => projectLoop values attrList n (i + 1) ((if 0 < i then buf ++ [','] else buf) ++ v)

/-- The function `projectTuple` of `project.c`; the result is the text left in
`buf`.  `tupleVals` fills an array of `nattrs` entries, so the tuple must have
`nattrs` fields. -/
def projectTuple (p : Projection) (t : Tuple) : Option Tuple :=
  if p.allAttrs then some t
  else
    let values := tupleVals t
    if values.length = p.nattrs then projectLoop values p.attrList p.projCount 0 []
    else none

/-- The decimal digits of `n`, most significant first, in front of `ds`;
`fuel` bounds the number of digits. -/
def decimalCore : Nat → Nat → List Char → List Char
  | 0, _, ds => ds
  | fuel + 1, n, ds =>
    if n / 10 = 0 then Char.ofNat (48 + n % 10) :: ds
    else decimalCore fuel (n / 10) (Char.ofNat (48 + n % 10) :: ds)

/-- The decimal numeral of a natural number. -/
def decimal (n : Nat) : List Char := decimalCore (n + 1) n []

/-- Every character of the text is a decimal digit. -/
def IsDigits (l : List Char) : Prop := ∀ c ∈ l, 48 ≤ c.toNat ∧ c.toNat ≤ 57

/-- The reading loop of the C library function `fgets`: at most `k` characters
are stored, and reading stops after a newline or at the end of the input.  The
result is the stored text and the rest of the input. -/
def fgetsLoop : Nat → List Char → List Char × List Char
  | 0, input => ([], input)
  | _ + 1, [] => ([], [])
  | k + 1, c :: cs =>
    if c = Char.ofNat 10 then ([c], cs)
    else ((c :: (fgetsLoop k cs).1), (fgetsLoop k cs).2)

/-- The C library function `fgets(line, n, in)` on an input without NUL bytes:
`none` (`NULL`) at the end of the input, else the text stored in `line` and the
rest of the input. -/
def fgets (n : Nat) (input : List Char) : Option (List Char × List Char) :=
  if input = [] then none else some (fgetsLoop (n - 1) input)

/-- The loop of `readTuple` that counts the fields: one more than the number
of commas. -/
def countFields : List Char → Nat → Nat
  | [], nf => nf
  | c :: cs, nf => countFields cs (if c = ',' then nf + 1 else nf)

/-- The function `readTuple` of `tuple.c`: the tuple returned (`none` for
`NULL`) and the rest of the input.  `MAXTUPLEN` of `defs.h` is a parameter.
The outer `none` stands for the write to `line[-1]` when `fgets` stored the
empty text. -/
def readTuple (MAXTUPLEN : Nat) (r : Reln) (input : List Char) :
    Option (Option Tuple × List Char) :=
  match fgets (MAXTUPLEN - 1) input with
  | none => some (none, input)
  | some (line, rest) =>
    if line = [] then none
    else
      -- line[strlen(line)-1] = 0
      let line1 := line.dropLast
      if countFields line1 1 ≠ r.nattrs then some (none, rest)
      else some (some line1, rest)

/-- The page has room for the tuple: its free space is at least the length of
the tuple plus one. -/
def HasRoom (PAGESIZE HDR : Nat) (pg : Page) (t : Tuple) : Prop :=
  t.length + 1 ≤ pageFreeSpace PAGESIZE HDR pg

instance decHasRoom (PAGESIZE HDR : Nat) (pg : Page) (t : Tuple) :
    Decidable (HasRoom PAGESIZE HDR pg t) := by
  unfold HasRoom
  infer_instance

/-- The tuples of a list that `f` sends to bucket `B`. -/
def tuplesFor (hash_any : Tuple → Nat) (r : Reln) (f : Nat → Nat) (B : Nat)
    (ts : List Tuple) : List Tuple :=
  ts.filter (fun u => decide ((tupleHash hash_any r u).map f = some B))

/-- Every overflow pointer of the pages `f` is `NO_PAGE` or less than `n`. -/
def PagesOK (n : Nat) (f : List Page) : Prop :=
  ∀ pg ∈ f, ∀ q, pg.ovflow = some q → q < n

/-- Every overflow pointer of a primary page or of an overflow page is
`NO_PAGE` or the id of a page of the overflow file. -/
def PtrsOK (r : Reln) : Prop :=
  PagesOK r.ovflow.length r.data ∧ PagesOK r.ovflow.length r.ovflow

/-- The count `unknownCount` of `genCandidates`: the number of unknown bits
among the low `numBits` bits. -/
def unknownCount (unknown numBits : Nat) : Nat :=
  ((List.range numBits).filter (fun i => bitIsSet unknown i)).length

/-- The function `genCandidates` of `select.c` with the `int` arithmetic of the
source: `int total = 1 << unknownCount` is a value of type `int` only for
`unknownCount < 31`; from 31 unknown bits on the shift overflows and no list is
produced (`none`). -/
def genCandidatesInt (known unknown : Nat) (numBits : Nat) : Option (List Nat) :=
  let pos := (List.range numBits).filter (fun i => bitIsSet unknown i)
  if pos.length < 31 then
    let total := 2 ^ pos.length
    some ((List.range total).map (fun c =>
      let bits := (List.range numBits).map (fun i => bitIsSet known i)
      assembleBits (setUnknownBits c pos 0 bits) 0 0))
  else none

/-- The merged candidate list of `startSelection` with the `int` arithmetic of
the source: both calls of `genCandidates` must produce a list, and
`int mask = (1 << depthVal) - 1` needs `depthVal < 31`. -/
def mergeCandidatesInt (known unknown : Nat) (depthVal : Nat) (sp : Nat) : Option (List Nat) :=
  match genCandidatesInt known unknown depthVal with
  | none => none
  | some candD =>
    match genCandidatesInt known unknown (depthVal + 1) with
    | none => none
    | some candDplus =>
      if depthVal < 31 then
        let mask := 2 ^ depthVal - 1
        some (candD.filter (fun x => sp ≤ x) ++ candDplus.filter (fun x => x &&& mask < sp))
      else none

/-- The function `startSelection` of `select.c` with the `int` arithmetic of
the candidate enumeration. -/
def startSelectionInt (hash_any : Tuple → Nat) (r : Reln) (q : Tuple) : Option Selection :=
  let queryValues := parseQuery r.nattrs q
  match maskLoop hash_any r.cv (queryVals queryValues) MAXBITS 0 0 0 with
  | none => none
  | some (known, unknown) =>
    match mergeCandidatesInt known unknown r.depth r.sp with
    | none => none
    | some candidates =>
      let new : Selection :=
        { rel := r, known := known, unknown := unknown, curpage := none, is_ovflow := 0,
          curtupOffset := 0, curtupIndex := 0, curPageId := 0, curScanPageId := 0,
          queryString := q, queryValues := queryValues, nattrs := r.nattrs,
          candidates := candidates, ncandidates := candidates.length, currCandidate := 0 }
      match candidates with
      | [] => some new
      | c0 :: _ =>
        match getPage r.data c0 with
        | none => none
        | some pg => some { new with curPageId := c0, curScanPageId := c0, curpage := some pg }

/-! # Theorems -/

/-! ## Bits -/

theorem testBit_setBit (h i j : Nat) : (setBit h i).testBit j = (h.testBit j || decide (i = j)) := by
  simp [setBit, Nat.testBit_or, Nat.testBit_two_pow]

theorem testBit_getLower (h n j : Nat) :
    (getLower h n).testBit j = (decide (j < n) && h.testBit j) := by
  simp [getLower, Nat.testBit_mod_two_pow]

/-! ## The composite hash -/

theorem tupleHashLoop_spec (cv : List ChVecItem) (h : List Nat) :
    ∀ (n i : Nat) (hash : Nat),
      (∀ j, i ≤ j → j < i + n → ∃ item, cv[j]? = some item ∧ item.att < h.length) →
      ∃ H, tupleHashLoop cv h n i hash = some H ∧
        ∀ j, H.testBit j =
          if i ≤ j ∧ j < i + n then
            (hash.testBit j ||
              (h.getD (cv.getD j ⟨0, 0⟩).att 0).testBit (cv.getD j ⟨0, 0⟩).bit)
          else hash.testBit j := by
  intro n
  induction n with
  | zero =>
    intro i hash _
    refine ⟨hash, rfl, ?_⟩
    intro j
    have : ¬ (i ≤ j ∧ j < i + 0) := by omega
    rw [if_neg this]
  | succ n ih =>
    intro i hash hcv
    obtain ⟨item, hitem, hatt⟩ := hcv i (le_refl _) (by omega)
    obtain ⟨ha, hha⟩ : ∃ ha, h[item.att]? = some ha := by
      rw [List.getElem?_eq_getElem hatt]; exact ⟨_, rfl⟩
    obtain ⟨H, hH, hbits⟩ := ih (i + 1)
      (if bitIsSet ha item.bit then setBit hash i else hash)
      (fun j h1 h2 => hcv j (by omega) (by omega))
    refine ⟨H, ?_, ?_⟩
    · simp only [tupleHashLoop, hitem, hha]; exact hH
    · intro j
      rw [hbits j]
      by_cases hj : i + 1 ≤ j ∧ j < i + 1 + n
      · have h2 : i ≤ j ∧ j < i + (n + 1) := by omega
        have h3 : i ≠ j := by omega
        simp only [hj, h2, and_self, if_true]
        split <;> simp [testBit_setBit, h3]
      · rw [if_neg hj]
        by_cases hij : i = j
        · subst hij
          have h2 : i ≤ i ∧ i < i + (n + 1) := by omega
          rw [if_pos h2]
          have e1 : cv.getD i ⟨0, 0⟩ = item := by
            simp [List.getD_eq_getElem?_getD, hitem]
          have e2 : h.getD item.att 0 = ha := by
            simp [List.getD_eq_getElem?_getD, hha]
          rw [e1, e2]
          by_cases hb : bitIsSet ha item.bit
          · have hb2 : ha.testBit item.bit = true := hb
            simp [hb, testBit_setBit, hb2]
          · have hb2 : ha.testBit item.bit = false := by
              simpa [bitIsSet] using hb
            simp [hb, hb2]
        · have h2 : ¬ (i ≤ j ∧ j < i + (n + 1)) := by omega
          rw [if_neg h2]
          split <;> simp [testBit_setBit, hij]

theorem tupleHashLoop1_eq (cv : List ChVecItem) (h : List Nat) :
    ∀ (n i : Nat) (hash : Nat), tupleHashLoop1 cv h n i hash = tupleHashLoop cv h n i hash := by
  intro n
  induction n with
  | zero => intro i hash; rfl
  | succ n ih =>
    intro i hash
    simp only [tupleHashLoop1, tupleHashLoop]
    rcases cv[i]? with _ | item
    · rfl
    · simp only []
      rcases h[item.att]? with _ | ha
      · rfl
      · simp only []
        by_cases hb : bitIsSet ha item.bit = true <;> simp [hb, ih]

theorem tupleHash1_eq (hash_any : Tuple → Nat) (r : Reln) (t : Tuple) :
    tupleHash1 hash_any r t = tupleHash hash_any r t := by
  simp [tupleHash1, tupleHash, tupleHashLoop1_eq]

theorem tupleHash_spec (hash_any : Tuple → Nat) (r : Reln) (t : Tuple)
    (hcv : ValidCV r) (ht : (tupleVals t).length = r.nattrs) :
    ∃ H, tupleHash hash_any r t = some H ∧
      ∀ i, H.testBit i = (decide (i < MAXBITS) && cvBit hash_any r t i) := by
  obtain ⟨H, hH, hbits⟩ := tupleHashLoop_spec r.cv ((tupleVals t).map hash_any) MAXBITS 0 0
    (fun j _ h2 => by
      obtain ⟨item, h3, h4, _⟩ := hcv j (by omega)
      exact ⟨item, h3, by simpa [ht] using h4⟩)
  refine ⟨H, by simp [tupleHash, ht, hH], ?_⟩
  intro i
  rw [hbits i]
  by_cases hi : i < MAXBITS
  · have h2 : 0 ≤ i ∧ i < 0 + MAXBITS := by omega
    obtain ⟨item, h3, h4, _⟩ := hcv i hi
    have e1 : r.cv.getD i ⟨0, 0⟩ = item := by simp [List.getD_eq_getElem?_getD, h3]
    have h5 : item.att < (tupleVals t).length := by omega
    simp only [h2, and_self, if_true, hi, decide_True, Bool.true_and, Nat.zero_testBit,
      Bool.false_or, cvBit, e1]
    congr 1
    simp [List.getD_eq_getElem?_getD, List.getElem?_eq_getElem h5, List.getElem?_map]
  · have h2 : ¬ (0 ≤ i ∧ i < 0 + MAXBITS) := by omega
    simp [h2, hi]

/-- C9: under a valid choice vector and for a tuple with exactly `nattrs`
fields, `tupleHash` returns a word whose bit `i` (for `i < 32`) is set iff bit
`CV[i].bit` of `hash_any` of field `CV[i].att` is set, and the versions of
`tuple.c` and `1.c` return the same word. -/
theorem tupleHash_bits (hash_any : Tuple → Nat) (r : Reln) (t : Tuple)
    (hcv : ValidCV r) (ht : (tupleVals t).length = r.nattrs) :
    ∃ H, tupleHash hash_any r t = some H ∧ tupleHash1 hash_any r t = some H ∧
      ∀ i, i < 32 →
        (H.testBit i = true ↔
          (hash_any ((tupleVals t).getD (r.cv.getD i ⟨0, 0⟩).att [])).testBit
            (r.cv.getD i ⟨0, 0⟩).bit = true) := by
  obtain ⟨H, hH, hbits⟩ := tupleHash_spec hash_any r t hcv ht
  refine ⟨H, hH, by rw [tupleHash1_eq]; exact hH, ?_⟩
  intro i hi
  have : i < MAXBITS := hi
  rw [hbits i]
  simp [this, cvBit]

/-! ## The bucket address -/

theorem insertTupleIntoPageChain_result (PAGESIZE HDR : Nat) (r r1 : Reln) (p q : Nat)
    (t : Tuple) (h : insertTupleIntoPageChain PAGESIZE HDR r p t = some (r1, some q)) :
    q = p := by
  unfold insertTupleIntoPageChain at h
  simp only [addPage] at h
  repeat' split at h
  all_goals first
    | (simp only [Option.some.injEq, Prod.mk.injEq] at h; exact h.2.symm)
    | simp at h

/-- The ways a call of `addToRelation` can return. -/
theorem addToRelation_cases (hash_any : Tuple → Nat) (PAGESIZE HDR : Nat)
    (r r' : Reln) (t : Tuple) (res : Option Nat)
    (hadd : addToRelation hash_any PAGESIZE HDR r t = some (r', res)) :
    ∃ h r1, tupleHash hash_any r t = some h ∧
      ((insertTupleIntoPageChain PAGESIZE HDR r (addToRelation_bucket r h) t = some (r1, none) ∧
          res = none ∧ r' = r1) ∨
       (insertTupleIntoPageChain PAGESIZE HDR r (addToRelation_bucket r h) t =
            some (r1, some (addToRelation_bucket r h)) ∧
          res = some (addToRelation_bucket r h) ∧ splitThreshold r1 ≠ 0 ∧
          (((r1.ntups + 1) % splitThreshold r1 = 0 ∧
              splitBucket hash_any PAGESIZE HDR (bumpNtups r1) = some r') ∨
            ((r1.ntups + 1) % splitThreshold r1 ≠ 0 ∧ r' = bumpNtups r1)))) := by
  unfold addToRelation at hadd
  rcases hh : tupleHash hash_any r t with _ | h
  · simp [hh] at hadd
  rw [hh] at hadd
  simp only [] at hadd
  rcases hins : insertTupleIntoPageChain PAGESIZE HDR r (addToRelation_bucket r h) t
    with _ | ⟨r2, _ | q⟩
  · simp [hins] at hadd
  · rw [hins] at hadd
    simp only [Option.some.injEq, Prod.mk.injEq] at hadd
    exact ⟨h, r2, rfl, Or.inl ⟨hins, hadd.2.symm, hadd.1.symm⟩⟩
  · have hq := insertTupleIntoPageChain_result PAGESIZE HDR r r2 _ q t hins
    subst hq
    rw [hins] at hadd
    simp only [] at hadd
    refine ⟨h, r2, rfl, Or.inr ⟨hins, ?_⟩⟩
    by_cases h10 : 10 * r2.nattrs = 0
    · simp [h10] at hadd
    rw [if_neg h10] at hadd
    have hpos : 0 < r2.ntups + 1 := by omega
    rw [if_pos hpos] at hadd
    by_cases hc : 1024 / (10 * r2.nattrs) = 0
    · simp [hc] at hadd
    rw [if_neg hc] at hadd
    by_cases hm : (r2.ntups + 1) % (1024 / (10 * r2.nattrs)) = 0
    · rw [if_pos hm] at hadd
      rcases hs : splitBucket hash_any PAGESIZE HDR
          { r2 with ntups := r2.ntups + 1 } with _ | r3
      · simp [hs] at hadd
      · rw [hs] at hadd
        simp only [Option.some.injEq, Prod.mk.injEq] at hadd
        exact ⟨hadd.2.symm, hc, Or.inl ⟨hm, by rw [← hadd.1]; exact hs⟩⟩
    · rw [if_neg hm] at hadd
      simp only [Option.some.injEq, Prod.mk.injEq] at hadd
      exact ⟨hadd.2.symm, hc, Or.inr ⟨hm, hadd.1.symm⟩⟩

theorem addToRelation_result (hash_any : Tuple → Nat) (PAGESIZE HDR : Nat)
    (r r1 : Reln) (t : Tuple) (h : Nat) (p : Nat)
    (hh : tupleHash hash_any r t = some h)
    (hadd : addToRelation hash_any PAGESIZE HDR r t = some (r1, some p)) :
    p = addToRelation_bucket r h := by
  obtain ⟨h', r2, hh', hc⟩ := addToRelation_cases hash_any PAGESIZE HDR r r1 t _ hadd
  rw [hh] at hh'
  cases hh'
  rcases hc with ⟨_, h2, _⟩ | ⟨_, h2, _⟩
  · cases h2
  · cases h2; rfl

/-- C8: with `sp < 2^depth` the bucket that `addToRelation` computes from the
hash `h` is `h mod 2^depth` when that is at least `sp` and `h mod 2^(depth+1)`
otherwise; it is bucket 0 when `depth = 0`; and it is the bucket the tuple is
first inserted into, the page id that a successful call returns. -/
theorem addToRelation_bucket_rule (hash_any : Tuple → Nat) (PAGESIZE HDR : Nat)
    (r : Reln) (h : Nat) (hsp : r.sp < 2 ^ r.depth) :
    addToRelation_bucket r h =
        (if r.sp ≤ h % 2 ^ r.depth then h % 2 ^ r.depth else h % 2 ^ (r.depth + 1)) ∧
      (r.depth = 0 → addToRelation_bucket r h = 0) ∧
      (∀ t r1 p, tupleHash hash_any r t = some h →
        addToRelation hash_any PAGESIZE HDR r t = some (r1, some p) →
        p = (if r.sp ≤ h % 2 ^ r.depth then h % 2 ^ r.depth else h % 2 ^ (r.depth + 1))) := by
  have key : addToRelation_bucket r h =
      (if r.sp ≤ h % 2 ^ r.depth then h % 2 ^ r.depth else h % 2 ^ (r.depth + 1)) := by
    unfold addToRelation_bucket getLower
    by_cases hd : r.depth = 0
    · rw [hd] at hsp ⊢
      simp at hsp
      simp [hsp, Nat.mod_one]
    · simp only [hd, if_false]
      by_cases hp : h % 2 ^ r.depth < r.sp
      · have : ¬ r.sp ≤ h % 2 ^ r.depth := by omega
        simp [hp, this]
      · have : r.sp ≤ h % 2 ^ r.depth := by omega
        simp [hp, this]
  refine ⟨key, ?_, ?_⟩
  · intro hd; simp [addToRelation_bucket, hd]
  · intro t r1 p hh hadd
    rw [← key]
    exact addToRelation_result hash_any PAGESIZE HDR r r1 t h p hh hadd

theorem wild_nil (v : List Char) : WildMatches [] v ↔ v = [] := by
  simp [WildMatches]

theorem wild_percent (p v : List Char) :
    WildMatches ('%' :: p) v ↔ ∃ s t, v = s ++ t ∧ WildMatches p t := by
  simp [WildMatches]

theorem wild_char (c : Char) (p v : List Char) (hc : c ≠ '%') :
    WildMatches (c :: p) v ↔ ∃ t, v = c :: t ∧ WildMatches p t := by
  simp [WildMatches, hc]

theorem wild_char_cons (c x : Char) (p t : List Char) (hc : c ≠ '%') :
    WildMatches (c :: p) (x :: t) ↔ c = x ∧ WildMatches p t := by
  rw [wild_char c p _ hc]
  constructor
  · rintro ⟨u, hu, hm⟩
    simp only [List.cons.injEq] at hu
    exact ⟨hu.1.symm, hu.2 ▸ hm⟩
  · rintro ⟨rfl, hm⟩
    exact ⟨t, rfl, hm⟩

theorem wild_char_nil (c : Char) (p : List Char) (hc : c ≠ '%') :
    ¬ WildMatches (c :: p) [] := by
  rw [wild_char c p _ hc]
  rintro ⟨u, hu, _⟩
  simp at hu

theorem wild_percent_nil (p : List Char) :
    WildMatches ('%' :: p) [] ↔ WildMatches p [] := by
  rw [wild_percent]
  constructor
  · rintro ⟨s, t, h, hm⟩
    have : t = [] := by
      have := congrArg List.length h
      simp at this
      exact List.length_eq_zero.mp (by omega)
    exact this ▸ hm
  · intro hm
    exact ⟨[], [], rfl, hm⟩

theorem wild_percent_cons (p : List Char) (x : Char) (v : List Char) :
    WildMatches ('%' :: p) (x :: v) ↔ WildMatches p (x :: v) ∨ WildMatches ('%' :: p) v := by
  rw [wild_percent, wild_percent]
  constructor
  · rintro ⟨s, t, h, hm⟩
    cases s with
    | nil => left; simp at h; exact h ▸ hm
    | cons y s =>
      right
      simp only [List.cons_append, List.cons.injEq] at h
      exact ⟨s, t, h.2, hm⟩
  · rintro (hm | ⟨s, t, h, hm⟩)
    · exact ⟨[], x :: v, rfl, hm⟩
    · exact ⟨x :: s, t, by simp [h], hm⟩

/-- A leading `%` absorbs any prefix. -/
theorem wild_percent_append (p s t : List Char) (h : WildMatches ('%' :: p) t) :
    WildMatches ('%' :: p) (s ++ t) := by
  rw [wild_percent] at h ⊢
  obtain ⟨s1, t1, h1, hm⟩ := h
  exact ⟨s ++ s1, t1, by simp [h1], hm⟩

theorem wild_percent_tail (p v : List Char) (h : WildMatches ('%' :: p) v.tail) :
    WildMatches ('%' :: p) v := by
  cases v with
  | nil => exact h
  | cons x v => exact wild_percent_append p [x] v h

theorem wild_percent_self (p v : List Char) (h : WildMatches p v) :
    WildMatches ('%' :: p) v := by
  rw [wild_percent]; exact ⟨[], v, rfl, h⟩

/-- Two `%` in a row match what one does. -/
theorem wild_percent_percent (p v : List Char) :
    WildMatches ('%' :: '%' :: p) v ↔ WildMatches ('%' :: p) v := by
  constructor
  · intro h
    rw [wild_percent] at h
    obtain ⟨s, t, h1, hm⟩ := h
    rw [h1]
    exact wild_percent_append p s t hm
  · exact wild_percent_self _ _

/-- A run of `%` matches what one `%` does. -/
theorem wild_percent_dropWhile (p v : List Char) :
    WildMatches ('%' :: p.dropWhile (fun c => c = '%')) v ↔ WildMatches ('%' :: p) v := by
  induction p with
  | nil => simp
  | cons c p ih =>
    by_cases hc : c = '%'
    · subst hc
      simp only [List.dropWhile_cons, decide_True, if_true]
      rw [ih, wild_percent_percent]
    · simp [List.dropWhile_cons, hc]

theorem wild_nil_iff (p : List Char) :
    WildMatches p [] ↔ p.dropWhile (fun c => c = '%') = [] := by
  induction p with
  | nil => simp [WildMatches]
  | cons c p ih =>
    by_cases hc : c = '%'
    · subst hc
      rw [wild_percent_nil, ih]
      simp [List.dropWhile_cons]
    · simp only [List.dropWhile_cons, hc, decide_False, Bool.false_eq_true, if_false]
      constructor
      · intro h; exact absurd h (wild_char_nil c p hc)
      · intro h; simp at h

theorem wild_all_percent (p v : List Char) (h : p.dropWhile (fun c => c = '%') = []) :
    WildMatches ('%' :: p) v := by
  rw [← wild_percent_dropWhile, h, wild_percent]
  exact ⟨v, [], by simp, by simp [WildMatches]⟩

/-- A match found further right is also found after one more matched character. -/
theorem wild_percent_step (c x : Char) (p t : List Char) (hc : c ≠ '%')
    (h : WildMatches ('%' :: c :: p) (x :: t)) : WildMatches ('%' :: p) t := by
  rw [wild_percent] at h ⊢
  obtain ⟨s, u, h1, hm⟩ := h
  rw [wild_char c p u hc] at hm
  obtain ⟨u1, hu, hm1⟩ := hm
  subst hu
  cases s with
  | nil =>
    simp only [List.nil_append, List.cons.injEq] at h1
    exact ⟨[], u1, by simp [h1.2], hm1⟩
  | cons y s =>
    simp only [List.cons_append, List.cons.injEq] at h1
    exact ⟨s ++ [c], u1, by simp [h1.2], hm1⟩

theorem dropWhile_length_le (p : List Char) :
    (p.dropWhile (fun c => c = '%')).length ≤ p.length := by
  induction p with
  | nil => simp
  | cons c p ih =>
    simp only [List.dropWhile_cons]
    split
    · simp only [List.length_cons]; omega
    · simp

theorem matchLoop_spec :
    ∀ (fuel : Nat) (p t : List Char) (tag : Option (List Char × List Char)),
      tagOK p t tag → loopBound p t tag ≤ fuel →
      ∃ b, matchLoop fuel p t tag = some b ∧ (b = true ↔ (WildMatches p t ∨ tagAlt tag)) := by
  intro fuel
  induction fuel with
  | zero =>
    intro p t tag _ hb
    cases tag with
    | none => simp [loopBound] at hb
    | some pt => obtain ⟨pT, tT⟩ := pt; simp [loopBound] at hb
  | succ fuel ih =>
    intro p t tag hok hb
    cases t with
    | nil =>
      refine ⟨_, rfl, ?_⟩
      rw [List.isEmpty_iff, ← wild_nil_iff]
      constructor
      · intro h; exact Or.inl h
      · rintro (h | h)
        · exact h
        · cases tag with
          | none => exact absurd h (by simp [tagAlt])
          | some pt =>
            obtain ⟨pT, tT⟩ := pt
            obtain ⟨h1, h2⟩ := h
            exact (wild_percent_nil p).mp (hok.2.2.2 h1 h2)
    | cons tc t1 =>
      by_cases hp : p.head? = some '%'
      · -- a '%' in the pattern
        obtain ⟨p1, rfl⟩ : ∃ p1, p = '%' :: p1 := by
          cases p with
          | nil => simp at hp
          | cons c p1 => simp at hp; exact ⟨p1, by rw [hp]⟩
        have hold : tagAlt tag → WildMatches ('%' :: p1) (tc :: t1) := by
          intro h
          cases tag with
          | none => exact absurd h (by simp [tagAlt])
          | some pt =>
            obtain ⟨pT, tT⟩ := pt
            exact (wild_percent_percent p1 _).mp (hok.2.2.2 h.1 h.2)
        by_cases hp2 : p1.dropWhile (fun c => c = '%') = []
        · refine ⟨true, by simp [matchLoop, hp2], ?_⟩
          simp only [true_iff]
          exact Or.inl (wild_all_percent p1 _ hp2)
        · have hok2 : tagOK (p1.dropWhile (fun c => c = '%')) (tc :: t1)
              (some ('%' :: p1, tc :: t1)) := by
            refine ⟨rfl, le_refl _, dropWhile_length_le p1, ?_⟩
            intro _ h
            rw [wild_percent_dropWhile]
            exact wild_percent_append p1 [tc] t1 h
          have hb2 : loopBound (p1.dropWhile (fun c => c = '%')) (tc :: t1)
              (some ('%' :: p1, tc :: t1)) ≤ fuel := by
            have hl := dropWhile_length_le p1
            cases tag with
            | none =>
              simp only [loopBound, List.length_cons, List.tail_cons] at hb ⊢
              nlinarith
            | some pt =>
              obtain ⟨pT, tT⟩ := pt
              obtain ⟨_, h2, h3, _⟩ := hok
              simp only [loopBound, List.length_cons, List.tail_cons] at hb h2 h3 ⊢
              have : (t1.length + 1) * (p1.length + 1 + 1) ≤
                  tT.length * (pT.tail.length + 1) :=
                Nat.mul_le_mul h2 (by omega)
              nlinarith
          obtain ⟨b, hb3, hb4⟩ := ih _ _ _ hok2 hb2
          refine ⟨b, by simp [matchLoop, hp2]; exact hb3, ?_⟩
          rw [hb4]
          have e1 : (WildMatches (p1.dropWhile (fun c => c = '%')) (tc :: t1) ∨
              tagAlt (some ('%' :: p1, tc :: t1))) ↔ WildMatches ('%' :: p1) (tc :: t1) := by
            rw [← wild_percent_dropWhile p1 (tc :: t1), wild_percent_cons,
              wild_percent_dropWhile]
            simp [tagAlt]
          rw [e1]
          constructor
          · intro h; exact Or.inl h
          · rintro (h | h)
            · exact h
            · exact hold h
      · by_cases hm : p.head? = some tc
        · -- the characters agree
          obtain ⟨p1, rfl⟩ : ∃ p1, p = tc :: p1 := by
            cases p with
            | nil => simp at hm
            | cons c p1 => simp at hm; exact ⟨p1, by rw [hm]⟩
          have htc : tc ≠ '%' := by
            intro h; apply hp; simp [h]
          have hok2 : tagOK p1 t1 tag := by
            cases tag with
            | none => trivial
            | some pt =>
              obtain ⟨pT, tT⟩ := pt
              obtain ⟨h1, h2, h3, h4⟩ := hok
              simp only [List.length_cons] at h2 h3
              refine ⟨h1, by omega, by omega, ?_⟩
              intro h5 h6
              exact wild_percent_step tc tc p1 t1 htc (h4 h5 h6)
          have hb2 : loopBound p1 t1 tag ≤ fuel := by
            cases tag with
            | none =>
              simp only [loopBound, List.length_cons] at hb ⊢
              nlinarith
            | some pt =>
              obtain ⟨pT, tT⟩ := pt
              simp only [loopBound, List.length_cons] at hb ⊢
              omega
          obtain ⟨b, hb3, hb4⟩ := ih _ _ _ hok2 hb2
          refine ⟨b, ?_, ?_⟩
          · have hne : ¬ (some tc = some '%') := by simpa using htc
            simp only [matchLoop, List.head?_cons, hne, if_true, if_false, List.tail_cons]
            exact hb3
          · rw [hb4, wild_char_cons tc tc p1 t1 htc]
            simp
        · -- mismatch
          have hno : ¬ WildMatches p (tc :: t1) := by
            cases p with
            | nil => simp [WildMatches]
            | cons c p1 =>
              have hc : c ≠ '%' := by intro h; apply hp; simp [h]
              rw [wild_char_cons c tc p1 t1 hc]
              intro h; apply hm; simp [h.1]
          cases tag with
          | none =>
            refine ⟨false, by simp [matchLoop, hp, hm], ?_⟩
            simp [hno, tagAlt]
          | some pt =>
            obtain ⟨pT, tT⟩ := pt
            obtain ⟨h1, h2, h3, h4⟩ := hok
            obtain ⟨q, rfl⟩ : ∃ q, pT = '%' :: q := by
              cases pT with
              | nil => simp at h1
              | cons c q => simp at h1; exact ⟨q, by rw [h1]⟩
            obtain ⟨x, tT1, rfl⟩ : ∃ x tT1, tT = x :: tT1 := by
              cases tT with
              | nil => simp at h2
              | cons x y => exact ⟨x, y, rfl⟩
            simp only [List.tail_cons] at h3 h4 ⊢
            have hok2 : tagOK q tT1 (some ('%' :: q, tT1)) := by
              refine ⟨rfl, le_refl _, le_refl _, ?_⟩
              intro _ h
              exact wild_percent_tail q tT1 h
            have hb2 : loopBound q tT1 (some ('%' :: q, tT1)) ≤ fuel := by
              simp only [loopBound, List.length_cons, List.tail_cons] at hb ⊢
              nlinarith
            obtain ⟨b, hb3, hb4⟩ := ih _ _ _ hok2 hb2
            refine ⟨b, ?_, ?_⟩
            · simp only [matchLoop, hp, hm, if_false, List.tail_cons]
              exact hb3
            · rw [hb4]
              simp only [tagAlt, hno, false_or, ne_eq, reduceCtorEq, not_false_eq_true,
                true_and, List.tail_cons]
              cases tT1 with
              | nil => simp [wild_percent_nil]
              | cons y z => simp [wild_percent_cons]

theorem matchLoop_start (v q : List Char) :
    ∃ b, matchLoop (matchFuel v q) q v none = some b ∧ (b = true ↔ WildMatches q v) := by
  obtain ⟨b, h1, h2⟩ := matchLoop_spec (matchFuel v q) q v none trivial
    (by simp [loopBound, matchFuel])
  exact ⟨b, h1, by simpa [tagAlt] using h2⟩

/-- C10: `matchPattern` is `TRUE` for the query value `?`; for a query value
containing `%` it is `TRUE` iff the whole tuple value matches the pattern in
which `%` stands for an arbitrary string and every other character for itself
(the loop ends within its fuel); for any other query value it is `TRUE` iff
the two values are equal. -/
theorem matchPattern_semantics (v q : List Char) :
    (q = ['?'] → matchPattern v q = true) ∧
    ('%' ∈ q →
      (∃ b, matchLoop (matchFuel v q) q v none = some b) ∧
      (matchPattern v q = true ↔ WildMatches q v)) ∧
    (q ≠ ['?'] → '%' ∉ q → (matchPattern v q = true ↔ v = q)) := by
  refine ⟨?_, ?_, ?_⟩
  · intro h; simp [matchPattern, h]
  · intro h
    obtain ⟨b, h1, h2⟩ := matchLoop_start v q
    have hq : q ≠ ['?'] := by
      intro e; rw [e] at h; simp at h
    refine ⟨⟨b, h1⟩, ?_⟩
    simp only [matchPattern, hq, h, if_true, if_false, h1]
    exact h2
  · intro hq h
    simp [matchPattern, hq, h]

/-- A run of `%` in the pattern may be replaced by a single `%`. -/
theorem wildMatches_collapse (p1 p2 v : List Char) :
    WildMatches (p1 ++ '%' :: '%' :: p2) v ↔ WildMatches (p1 ++ '%' :: p2) v := by
  induction p1 generalizing v with
  | nil => exact wild_percent_percent p2 v
  | cons c p1 ih =>
    by_cases hc : c = '%'
    · subst hc
      simp only [List.cons_append, wild_percent]
      constructor
      · rintro ⟨s, t, h, hm⟩; exact ⟨s, t, h, (ih t).mp hm⟩
      · rintro ⟨s, t, h, hm⟩; exact ⟨s, t, h, (ih t).mpr hm⟩
    · simp only [List.cons_append, wild_char c _ _ hc]
      constructor
      · rintro ⟨t, h, hm⟩; exact ⟨t, h, (ih t).mp hm⟩
      · rintro ⟨t, h, hm⟩; exact ⟨t, h, (ih t).mpr hm⟩

theorem matchPattern_semantics_witness :
    matchPattern "alpha".toList "%a%".toList = true ↔
      WildMatches "%a%".toList "alpha".toList :=
  ((matchPattern_semantics "alpha".toList "%a%".toList).2.1 (by decide)).2

theorem isChain_nil (ov : List Page) (s : Option Nat) : IsChain ov [] s ↔ s = none := by
  simp [IsChain]

theorem isChain_cons (ov : List Page) (q : Nat) (l : List Nat) (s : Option Nat) :
    IsChain ov (q :: l) s ↔ s = some q ∧ ∃ pg, ov[q]? = some pg ∧ IsChain ov l pg.ovflow := by
  simp [IsChain]

theorem isChain_lt (ov : List Page) :
    ∀ (l : List Nat) (s : Option Nat), IsChain ov l s → ∀ q ∈ l, q < ov.length := by
  intro l
  induction l with
  | nil => intro s _ q hq; simp at hq
  | cons a l ih =>
    intro s h q hq
    rw [isChain_cons] at h
    obtain ⟨_, pg, hpg, hl⟩ := h
    rcases List.mem_cons.mp hq with rfl | hq
    · by_contra hlt
      rw [List.getElem?_eq_none (by omega)] at hpg
      exact absurd hpg (by simp)
    · exact ih _ hl q hq

/-- A chain only depends on the overflow pointers of its own pages. -/
theorem isChain_congr (ov ov' : List Page) :
    ∀ (l : List Nat) (s : Option Nat),
      (∀ q ∈ l, ∀ pg, ov[q]? = some pg → ∃ pg', ov'[q]? = some pg' ∧ pg'.ovflow = pg.ovflow) →
      IsChain ov l s → IsChain ov' l s := by
  intro l
  induction l with
  | nil => intro s _ h; exact h
  | cons a l ih =>
    intro s hc h
    rw [isChain_cons] at h ⊢
    obtain ⟨hs, pg, hpg, hl⟩ := h
    obtain ⟨pg', hpg', hov⟩ := hc a (List.mem_cons_self _ _) pg hpg
    refine ⟨hs, pg', hpg', ?_⟩
    rw [hov]
    exact ih _ (fun q hq => hc q (List.mem_cons_of_mem _ hq)) hl

theorem isChain_frame (ov ov' : List Page) (l : List Nat) (s : Option Nat)
    (hc : ∀ q ∈ l, ov'[q]? = ov[q]?) (h : IsChain ov l s) : IsChain ov' l s :=
  isChain_congr ov ov' l s (fun q hq pg hpg => ⟨pg, by rw [hc q hq]; exact hpg, rfl⟩) h

theorem isChain_det (ov : List Page) :
    ∀ (l l' : List Nat) (s : Option Nat), IsChain ov l s → IsChain ov l' s → l = l' := by
  intro l
  induction l with
  | nil =>
    intro l' s h h'
    cases l' with
    | nil => rfl
    | cons b l' =>
      rw [isChain_nil] at h
      rw [isChain_cons] at h'
      rw [h] at h'
      exact absurd h'.1 (by simp)
  | cons a l ih =>
    intro l' s h h'
    rw [isChain_cons] at h
    obtain ⟨hs, pg, hpg, hl⟩ := h
    cases l' with
    | nil =>
      rw [isChain_nil] at h'
      rw [h'] at hs
      exact absurd hs (by simp)
    | cons b l' =>
      rw [isChain_cons] at h'
      obtain ⟨hs', pg', hpg', hl'⟩ := h'
      rw [hs] at hs'
      cases hs'
      rw [hpg] at hpg'
      cases hpg'
      rw [ih l' _ hl hl']

theorem isChain_suffix (ov : List Page) :
    ∀ (a : List Nat) (q : Nat) (b : List Nat) (s : Option Nat),
      IsChain ov (a ++ q :: b) s → IsChain ov (q :: b) (some q) := by
  intro a
  induction a with
  | nil =>
    intro q b s h
    rw [List.nil_append, isChain_cons] at h
    rw [isChain_cons]
    exact ⟨rfl, h.2⟩
  | cons x a ih =>
    intro q b s h
    rw [List.cons_append, isChain_cons] at h
    obtain ⟨_, pg, _, hl⟩ := h
    exact ih q b _ hl

/-- A well-formed chain visits no page twice. -/
theorem isChain_nodup (ov : List Page) :
    ∀ (l : List Nat) (s : Option Nat), IsChain ov l s → l.Nodup := by
  intro l
  induction l with
  | nil => intro s _; exact List.nodup_nil
  | cons q l ih =>
    intro s h
    have h0 := h
    rw [isChain_cons] at h
    obtain ⟨_, pg, hpg, hl⟩ := h
    refine List.nodup_cons.mpr ⟨?_, ih _ hl⟩
    intro hq
    obtain ⟨a, b, hab⟩ := List.append_of_mem hq
    have h1 : IsChain ov (q :: b) (some q) := by
      rw [hab] at hl
      exact isChain_suffix ov a q b _ hl
    rw [isChain_cons] at h1
    obtain ⟨_, pg1, hpg1, hb⟩ := h1
    rw [hpg] at hpg1
    cases hpg1
    have := isChain_det ov l b _ hl hb
    have hlen := congrArg List.length hab
    rw [this] at hlen
    simp at hlen
    omega

theorem nodup_lt_length_le :
    ∀ (n : Nat) (l : List Nat), l.Nodup → (∀ q ∈ l, q < n) → l.length ≤ n := by
  intro n l hnd hlt
  have hsub : l ⊆ List.range n := fun q hq => List.mem_range.mpr (hlt q hq)
  have := (List.subperm_of_subset hnd hsub).length_le
  simpa using this

theorem isChain_length_le (ov : List Page) (l : List Nat) (s : Option Nat)
    (h : IsChain ov l s) : l.length ≤ ov.length :=
  nodup_lt_length_le _ l (isChain_nodup ov l s h) (isChain_lt ov l s h)

theorem sameHeader_refl (r : Reln) : SameHeader r r := ⟨rfl, rfl, rfl, rfl, rfl, rfl⟩

theorem sameHeader_trans (r r1 r2 : Reln) (h1 : SameHeader r r1) (h2 : SameHeader r1 r2) :
    SameHeader r r2 := by
  unfold SameHeader at h1 h2 ⊢
  refine ⟨h2.1.trans h1.1, h2.2.1.trans h1.2.1, h2.2.2.1.trans h1.2.2.1, ?_, ?_, ?_⟩
  · exact h2.2.2.2.1.trans h1.2.2.2.1
  · exact h2.2.2.2.2.1.trans h1.2.2.2.2.1
  · exact h2.2.2.2.2.2.trans h1.2.2.2.2.2

theorem bucketStep_trans (r r1 r2 : Reln) (ch ch1 ch2 : Nat → List Nat) (B : Nat)
    (a1 a2 : List Tuple) (h1 : BucketStep r ch r1 ch1 B a1)
    (h2 : BucketStep r1 ch1 r2 ch2 B a2) : BucketStep r ch r2 ch2 B (a2 ++ a1) where
  header := sameHeader_trans r r1 r2 h1.header h2.header
  data_len := h2.data_len.trans h1.data_len
  ov_len := le_trans h1.ov_len h2.ov_len
  chains := h2.chains
  others := fun B' hB' hne => by
    rw [h2.others B' (by rw [h1.data_len]; exact hB') hne, h1.others B' hB' hne]
  bucket := by
    refine h2.bucket.trans ?_
    rw [List.append_assoc]
    exact List.Perm.append_left a2 h1.bucket
  all := by
    refine h2.all.trans ?_
    rw [List.append_assoc]
    exact List.Perm.append_left a2 h1.all

theorem pageTuplesAt_eq (f : List Page) (q : Nat) (pg : Page) (h : f[q]? = some pg) :
    pageTuplesAt f q = pg.tuples := by
  simp [pageTuplesAt, h]

theorem chainTuples_congr (ov ov' : List Page) (l : List Nat)
    (h : ∀ q ∈ l, ov'[q]? = ov[q]?) : chainTuples ov' l = chainTuples ov l := by
  unfold chainTuples
  apply List.flatMap_congr
  intro q hq
  simp [pageTuplesAt, h q hq]

/-- Replacing a page by one with more tuples adds these tuples to the file. -/
theorem flatMap_set_perm (f : List Page) (q : Nat) (pg pg1 : Page) (added : List Tuple)
    (hq : f[q]? = some pg) (ht : pg1.tuples = pg.tuples ++ added) :
    ((f.set q pg1).flatMap Page.tuples).Perm (added ++ f.flatMap Page.tuples) := by
  obtain ⟨hlt, hget⟩ := List.getElem?_eq_some.mp hq
  have hf : f = f.take q ++ pg :: f.drop (q + 1) := by
    rw [← hget, List.getElem_cons_drop, List.take_append_drop]
  rw [List.set_eq_take_append_cons_drop, if_pos hlt]
  conv_rhs => rw [hf]
  simp only [List.flatMap_append, List.flatMap_cons, ht]
  have e : ∀ (a b c d : List Tuple), (a ++ ((b ++ c) ++ d)).Perm (c ++ (a ++ (b ++ d))) := by
    intro a b c d
    have h1 : (a ++ ((b ++ c) ++ d)).Perm ((a ++ b) ++ (c ++ d)) := by
      simp [List.append_assoc]
    have h2 : ((a ++ b) ++ (c ++ d)).Perm (c ++ ((a ++ b) ++ d)) := by
      rw [← List.append_assoc, ← List.append_assoc]
      exact List.Perm.append_right d List.perm_append_comm
    simpa [List.append_assoc] using h1.trans h2
  exact e _ _ _ _

/-- Along a chain without repetition, replacing one of its pages by one with
more tuples adds these tuples to the chain. -/
theorem chainTuples_set_perm (ov : List Page) (q : Nat) (pg pg1 : Page) (added : List Tuple)
    (hq : ov[q]? = some pg) (ht : pg1.tuples = pg.tuples ++ added) :
    ∀ (l : List Nat), l.Nodup → q ∈ l →
      (chainTuples (ov.set q pg1) l).Perm (added ++ chainTuples ov l) := by
  have hlt : q < ov.length := (List.getElem?_eq_some.mp hq).1
  intro l
  induction l with
  | nil => intro _ h; simp at h
  | cons a l ih =>
    intro hnd hmem
    obtain ⟨ha, hnd'⟩ := List.nodup_cons.mp hnd
    simp only [chainTuples, List.flatMap_cons]
    by_cases haq : a = q
    · subst haq
      have h1 : pageTuplesAt (ov.set a pg1) a = pg.tuples ++ added := by
        rw [pageTuplesAt_eq _ _ pg1 (by rw [List.getElem?_set_self hlt]), ht]
      have h2 : pageTuplesAt ov a = pg.tuples := pageTuplesAt_eq _ _ pg hq
      have h3 : l.flatMap (pageTuplesAt (ov.set a pg1)) = l.flatMap (pageTuplesAt ov) := by
        apply List.flatMap_congr
        intro x hx
        have : a ≠ x := fun e => ha (e ▸ hx)
        simp [pageTuplesAt, List.getElem?_set_ne this]
      rw [h1, h2, h3]
      have : ((pg.tuples ++ added) ++ l.flatMap (pageTuplesAt ov)).Perm
          ((added ++ pg.tuples) ++ l.flatMap (pageTuplesAt ov)) :=
        List.Perm.append_right _ List.perm_append_comm
      simpa [List.append_assoc] using this
    · have hql : q ∈ l := by
        rcases List.mem_cons.mp hmem with h | h
        · exact absurd h.symm haq
        · exact h
      have h1 : pageTuplesAt (ov.set q pg1) a = pageTuplesAt ov a := by
        have : q ≠ a := fun e => haq e.symm
        simp [pageTuplesAt, List.getElem?_set_ne this]
      rw [h1]
      have h2 := ih hnd' hql
      simp only [chainTuples] at h2
      have h3 := List.Perm.append_left (pageTuplesAt ov a) h2
      refine h3.trans ?_
      rw [← List.append_assoc, ← List.append_assoc]
      exact List.Perm.append_right _ List.perm_append_comm

theorem allTuples_data_set (r : Reln) (B : Nat) (pg pg1 : Page) (added : List Tuple)
    (hq : r.data[B]? = some pg) (ht : pg1.tuples = pg.tuples ++ added) :
    (allTuples { r with data := r.data.set B pg1 }).Perm (added ++ allTuples r) := by
  simp only [allTuples, List.flatMap_append]
  rw [← List.append_assoc]
  exact List.Perm.append_right _ (flatMap_set_perm r.data B pg pg1 added hq ht)

theorem allTuples_ov_set (r : Reln) (q : Nat) (pg pg1 : Page) (added : List Tuple)
    (hq : r.ovflow[q]? = some pg) (ht : pg1.tuples = pg.tuples ++ added) :
    (allTuples { r with ovflow := r.ovflow.set q pg1 }).Perm (added ++ allTuples r) := by
  simp only [allTuples, List.flatMap_append]
  have h1 := List.Perm.append_left (r.data.flatMap Page.tuples)
    (flatMap_set_perm r.ovflow q pg pg1 added hq ht)
  refine h1.trans ?_
  rw [← List.append_assoc, ← List.append_assoc]
  exact List.Perm.append_right _ List.perm_append_comm

/-- Writing back a primary page with more tuples and the same overflow pointer. -/
theorem step_data_set (r : Reln) (ch : Nat → List Nat) (B : Nat) (pg pg1 : Page)
    (added : List Tuple) (hok : ChainsOK r ch) (hq : r.data[B]? = some pg)
    (hov : pg1.ovflow = pg.ovflow) (ht : pg1.tuples = pg.tuples ++ added) :
    BucketStep r ch { r with data := r.data.set B pg1 } ch B added := by
  have hlt : B < r.data.length := (List.getElem?_eq_some.mp hq).1
  refine ⟨sameHeader_refl r, by simp, le_refl _, ⟨?_, ?_⟩, ?_, ?_,
    allTuples_data_set r B pg pg1 added hq ht⟩
  · intro B' hB'
    simp only [List.length_set] at hB'
    by_cases hB : B = B'
    · subst hB
      obtain ⟨pg0, h0, hc⟩ := hok.chain B hB'
      rw [hq] at h0; cases h0
      exact ⟨pg1, by simp [List.getElem?_set_self hlt], by rw [hov]; exact hc⟩
    · obtain ⟨pg0, h0, hc⟩ := hok.chain B' hB'
      exact ⟨pg0, by simp [List.getElem?_set_ne hB, h0], hc⟩
  · intro B1 B2 h1 h2
    simp only [List.length_set] at h1 h2
    exact hok.disjoint B1 B2 h1 h2
  · intro B' _ hne
    simp [bucketTuples, pageTuplesAt, List.getElem?_set_ne (Ne.symm hne)]
  · simp only [bucketTuples]
    rw [pageTuplesAt_eq _ _ pg1 (by simp [List.getElem?_set_self hlt]), pageTuplesAt_eq _ _ pg hq, ht]
    have : ((pg.tuples ++ added) ++ chainTuples r.ovflow (ch B)).Perm
        ((added ++ pg.tuples) ++ chainTuples r.ovflow (ch B)) :=
      List.Perm.append_right _ List.perm_append_comm
    simpa [List.append_assoc] using this

/-- Writing back an overflow page of the chain of bucket `B` with more tuples
and the same overflow pointer. -/
theorem step_ov_set (r : Reln) (ch : Nat → List Nat) (B q : Nat) (pg pg1 : Page)
    (added : List Tuple) (hok : ChainsOK r ch) (hB : B < r.data.length) (hmem : q ∈ ch B)
    (hq : r.ovflow[q]? = some pg)
    (hov : pg1.ovflow = pg.ovflow) (ht : pg1.tuples = pg.tuples ++ added) :
    BucketStep r ch { r with ovflow := r.ovflow.set q pg1 } ch B added := by
  have hlt : q < r.ovflow.length := (List.getElem?_eq_some.mp hq).1
  have hptr : ∀ (l : List Nat), ∀ x ∈ l, ∀ pgx, r.ovflow[x]? = some pgx →
      ∃ pg', (r.ovflow.set q pg1)[x]? = some pg' ∧ pg'.ovflow = pgx.ovflow := by
    intro l x _ pgx hx
    by_cases hxq : q = x
    · subst hxq
      rw [hq] at hx; cases hx
      exact ⟨pg1, List.getElem?_set_self hlt, hov⟩
    · exact ⟨pgx, by rw [List.getElem?_set_ne hxq]; exact hx, rfl⟩
  refine ⟨sameHeader_refl r, rfl, by simp, ⟨?_, ?_⟩, ?_, ?_,
    allTuples_ov_set r q pg pg1 added hq ht⟩
  · intro B' hB'
    obtain ⟨pg0, h0, hc⟩ := hok.chain B' hB'
    exact ⟨pg0, h0, isChain_congr _ _ _ _ (hptr _) hc⟩
  · exact hok.disjoint
  · intro B' hB' hne
    simp only [bucketTuples]
    congr 1
    apply chainTuples_congr
    intro x hx
    have : q ≠ x := by
      intro e; subst e
      exact hok.disjoint B B' hB hB' (Ne.symm hne) q hmem hx
    exact List.getElem?_set_ne this
  · obtain ⟨pg0, _, hc⟩ := hok.chain B hB
    have hnd := isChain_nodup _ _ _ hc
    simp only [bucketTuples]
    have h1 := chainTuples_set_perm r.ovflow q pg pg1 added hq ht (ch B) hnd hmem
    have h2 := List.Perm.append_left (pageTuplesAt r.data B) h1
    refine h2.trans ?_
    rw [← List.append_assoc, ← List.append_assoc]
    exact List.Perm.append_right _ List.perm_append_comm

/-- Appending a page to the overflow file (`addPage`). -/
theorem step_ov_append (r : Reln) (ch : Nat → List Nat) (B : Nat) (pn : Page)
    (hok : ChainsOK r ch) (hB : B < r.data.length) (hpn : pn.tuples = []) :
    BucketStep r ch { r with ovflow := r.ovflow ++ [pn] } ch B [] := by
  have hfr : ∀ B', B' < r.data.length → ∀ x ∈ ch B',
      (r.ovflow ++ [pn])[x]? = r.ovflow[x]? := by
    intro B' hB' x hx
    obtain ⟨pg0, _, hc⟩ := hok.chain B' hB'
    exact List.getElem?_append_left (isChain_lt _ _ _ hc x hx)
  refine ⟨sameHeader_refl r, rfl, by simp, ⟨?_, ?_⟩, ?_, ?_, ?_⟩
  · intro B' hB'
    obtain ⟨pg0, h0, hc⟩ := hok.chain B' hB'
    exact ⟨pg0, h0, isChain_frame _ _ _ _ (hfr B' hB') hc⟩
  · exact hok.disjoint
  · intro B' hB' _
    simp only [bucketTuples]
    congr 1
    exact chainTuples_congr _ _ _ (hfr B' hB')
  · simp only [bucketTuples, List.nil_append]
    rw [chainTuples_congr _ _ _ (hfr B hB)]
  · simp [allTuples, List.flatMap_append, hpn]

theorem chainTuples_congr_tuples (ov ov' : List Page) (l : List Nat)
    (h : ∀ q ∈ l, pageTuplesAt ov' q = pageTuplesAt ov q) :
    chainTuples ov' l = chainTuples ov l := by
  unfold chainTuples
  exact List.flatMap_congr h

theorem isChain_source_none (ov : List Page) (l : List Nat) (h : IsChain ov l none) :
    l = [] := by
  cases l with
  | nil => rfl
  | cons a l => rw [isChain_cons] at h; exact absurd h.1 (by simp)

/-- Linking the empty, unlinked overflow page `n` to a primary page that has
no overflow page yet. -/
theorem step_link_primary (r : Reln) (ch : Nat → List Nat) (B n : Nat) (pg pn : Page)
    (hok : ChainsOK r ch) (hq : r.data[B]? = some pg) (hnone : pg.ovflow = none)
    (hn : r.ovflow[n]? = some pn) (hpt : pn.tuples = []) (hpo : pn.ovflow = none)
    (hfresh : ∀ B', B' < r.data.length → n ∉ ch B') :
    BucketStep r ch { r with data := r.data.set B (pageSetOvflow pg (some n)) }
      (Function.update ch B [n]) B [] := by
  have hlt : B < r.data.length := (List.getElem?_eq_some.mp hq).1
  have hchB : ch B = [] := by
    obtain ⟨pg0, h0, hc⟩ := hok.chain B hlt
    rw [hq] at h0; cases h0
    rw [hnone] at hc
    exact isChain_source_none _ _ hc
  have hall := allTuples_data_set r B pg (pageSetOvflow pg (some n)) [] hq
    (by simp [pageSetOvflow])
  refine ⟨sameHeader_refl r, by simp, le_refl _, ⟨?_, ?_⟩, ?_, ?_, hall⟩
  · intro B' hB'
    simp only [List.length_set] at hB'
    by_cases hB : B' = B
    · subst hB
      refine ⟨pageSetOvflow pg (some n), by simp [List.getElem?_set_self hlt], ?_⟩
      simp only [Function.update_same, pageSetOvflow, isChain_cons, true_and]
      exact ⟨pn, hn, by rw [hpo]; simp [IsChain]⟩
    · obtain ⟨pg0, h0, hc⟩ := hok.chain B' hB'
      refine ⟨pg0, by simp [List.getElem?_set_ne (Ne.symm hB), h0], ?_⟩
      rw [Function.update_noteq hB]
      exact hc
  · intro B1 B2 h1 h2 hne x hx
    simp only [List.length_set] at h1 h2
    by_cases hB1 : B1 = B
    · subst hB1
      rw [Function.update_same] at hx
      rw [Function.update_noteq (Ne.symm hne)]
      simp only [List.mem_singleton] at hx
      subst hx
      exact hfresh B2 h2
    · rw [Function.update_noteq hB1] at hx
      by_cases hB2 : B2 = B
      · subst hB2
        rw [Function.update_same]
        simp only [List.mem_singleton]
        intro e; subst e
        exact hfresh B1 h1 hx
      · rw [Function.update_noteq hB2]
        exact hok.disjoint B1 B2 h1 h2 hne x hx
  · intro B' _ hne
    simp [bucketTuples, pageTuplesAt, List.getElem?_set_ne (Ne.symm hne),
      Function.update_noteq hne]
  · simp only [bucketTuples, Function.update_same, List.nil_append, hchB]
    rw [pageTuplesAt_eq _ _ (pageSetOvflow pg (some n)) (by simp [List.getElem?_set_self hlt]),
      pageTuplesAt_eq _ _ pg hq]
    simp [chainTuples, pageTuplesAt, hn, hpt, pageSetOvflow]

theorem isChain_link (ov : List Page) (prevp n : Nat) (prevpg pn : Page)
    (hprev : ov[prevp]? = some prevpg) (hn : ov[n]? = some pn) (hpo : pn.ovflow = none)
    (hne : n ≠ prevp) :
    ∀ (pre : List Nat) (s : Option Nat), IsChain ov (pre ++ [prevp]) s →
      prevp ∉ pre → n ∉ pre →
      IsChain (ov.set prevp (pageSetOvflow prevpg (some n))) (pre ++ [prevp, n]) s := by
  have hlt : prevp < ov.length := (List.getElem?_eq_some.mp hprev).1
  intro pre
  induction pre with
  | nil =>
    intro s h _ _
    rw [List.nil_append, isChain_cons] at h
    rw [List.nil_append, isChain_cons]
    refine ⟨h.1, pageSetOvflow prevpg (some n), List.getElem?_set_self hlt, ?_⟩
    show IsChain _ [n] (some n)
    rw [isChain_cons]
    refine ⟨rfl, pn, by rw [List.getElem?_set_ne (Ne.symm hne)]; exact hn, ?_⟩
    rw [hpo]; simp [IsChain]
  | cons a pre ih =>
    intro s h h1 h2
    rw [List.cons_append, isChain_cons] at h
    rw [List.cons_append, isChain_cons]
    obtain ⟨hs, pg, hpg, hl⟩ := h
    have ha : prevp ≠ a := fun e => h1 (e ▸ List.mem_cons_self _ _)
    refine ⟨hs, pg, by rw [List.getElem?_set_ne ha]; exact hpg, ?_⟩
    exact ih pg.ovflow hl (fun e => h1 (List.mem_cons_of_mem _ e))
      (fun e => h2 (List.mem_cons_of_mem _ e))

/-- Linking the empty, unlinked overflow page `n` behind the last page of the
chain of bucket `B`. -/
theorem step_link_tail (r : Reln) (ch : Nat → List Nat) (B n prevp : Nat)
    (pre : List Nat) (prevpg pn : Page)
    (hok : ChainsOK r ch) (hB : B < r.data.length) (hch : ch B = pre ++ [prevp])
    (hprev : r.ovflow[prevp]? = some prevpg)
    (hn : r.ovflow[n]? = some pn) (hpt : pn.tuples = []) (hpo : pn.ovflow = none)
    (hfresh : ∀ B', B' < r.data.length → n ∉ ch B') :
    BucketStep r ch { r with ovflow := r.ovflow.set prevp (pageSetOvflow prevpg (some n)) }
      (Function.update ch B (ch B ++ [n])) B [] := by
  have hlt : prevp < r.ovflow.length := (List.getElem?_eq_some.mp hprev).1
  have hmem : prevp ∈ ch B := by rw [hch]; simp
  have hne : n ≠ prevp := fun e => hfresh B hB (e ▸ hmem)
  obtain ⟨pgB, hpgB, hcB⟩ := hok.chain B hB
  have hnd := isChain_nodup _ _ _ hcB
  rw [hch] at hnd
  have hnd2 : prevp ∉ pre := by
    intro h
    have := (List.nodup_append.mp hnd).2.2
    exact this h (List.mem_singleton_self _)
  have hnpre : n ∉ pre := by
    intro h
    exact hfresh B hB (by rw [hch]; exact List.mem_append_left _ h)
  have hall := allTuples_ov_set r prevp prevpg (pageSetOvflow prevpg (some n)) [] hprev
    (by simp [pageSetOvflow])
  have htup : ∀ x, pageTuplesAt (r.ovflow.set prevp (pageSetOvflow prevpg (some n))) x =
      pageTuplesAt r.ovflow x := by
    intro x
    by_cases hx : prevp = x
    · subst hx
      rw [pageTuplesAt_eq _ _ _ (List.getElem?_set_self hlt), pageTuplesAt_eq _ _ _ hprev]
      rfl
    · simp [pageTuplesAt, List.getElem?_set_ne hx]
  refine ⟨sameHeader_refl r, rfl, by simp, ⟨?_, ?_⟩, ?_, ?_, hall⟩
  · intro B' hB'
    by_cases hBB : B' = B
    · subst hBB
      refine ⟨pgB, hpgB, ?_⟩
      rw [Function.update_same, hch]
      rw [hch] at hcB
      have := isChain_link r.ovflow prevp n prevpg pn hprev hn hpo hne pre _ hcB hnd2 hnpre
      simpa using this
    · obtain ⟨pg0, h0, hc⟩ := hok.chain B' hB'
      refine ⟨pg0, h0, ?_⟩
      rw [Function.update_noteq hBB]
      apply isChain_frame _ _ _ _ _ hc
      intro x hx
      have : prevp ≠ x := by
        intro e; subst e
        exact hok.disjoint B B' hB hB' (Ne.symm hBB) prevp hmem hx
      exact List.getElem?_set_ne this
  · intro B1 B2 h1 h2 hne12 x hx
    by_cases hB1 : B1 = B
    · subst hB1
      rw [Function.update_same] at hx
      rw [Function.update_noteq (Ne.symm hne12)]
      rcases List.mem_append.mp hx with hx | hx
      · exact hok.disjoint B1 B2 h1 h2 hne12 x hx
      · simp only [List.mem_singleton] at hx
        subst hx
        exact hfresh B2 h2
    · rw [Function.update_noteq hB1] at hx
      by_cases hB2 : B2 = B
      · subst hB2
        rw [Function.update_same]
        intro hx2
        rcases List.mem_append.mp hx2 with hx2 | hx2
        · exact hok.disjoint B1 B2 h1 h2 hne12 x hx hx2
        · simp only [List.mem_singleton] at hx2
          subst hx2
          exact hfresh B1 h1 hx
      · rw [Function.update_noteq hB2]
        exact hok.disjoint B1 B2 h1 h2 hne12 x hx
  · intro B' _ hneB
    simp only [bucketTuples, Function.update_noteq hneB]
    congr 1
    exact chainTuples_congr_tuples _ _ _ (fun x _ => htup x)
  · simp only [bucketTuples, Function.update_same, List.nil_append]
    rw [chainTuples_congr_tuples _ _ _ (fun x _ => htup x)]
    have : chainTuples r.ovflow (ch B ++ [n]) = chainTuples r.ovflow (ch B) := by
      simp [chainTuples, List.flatMap_append, pageTuplesAt, hn, hpt]
    rw [this]

theorem putPage_lt (f : List Page) (id : Nat) (p : Page) (h : id < f.length) :
    putPage f id p = some (f.set id p) := by
  simp [putPage, h]

theorem putPage_length (f : List Page) (p : Page) :
    putPage f f.length p = some (f ++ [p]) := by
  simp [putPage]

theorem addToPage_some (PAGESIZE HDR : Nat) (pg pg1 : Page) (t : Tuple)
    (h : addToPage PAGESIZE HDR pg t = some pg1) :
    pg1.ovflow = pg.ovflow ∧ pg1.tuples = pg.tuples ++ [t] := by
  unfold addToPage at h
  split at h
  · cases h; exact ⟨rfl, rfl⟩
  · cases h

theorem addToPage_fits (PAGESIZE HDR : Nat) (pg pg1 : Page) (t : Tuple)
    (h : addToPage PAGESIZE HDR pg t = some pg1) : t.length + 1 ≤ PAGESIZE - HDR := by
  unfold addToPage at h
  split at h
  · rename_i h1
    simp only [pageFreeSpace] at h1
    omega
  · cases h

theorem addToPage_newPage_none (PAGESIZE HDR : Nat) (t : Tuple)
    (h : addToPage PAGESIZE HDR newPage t = none) : ¬ (t.length + 1 ≤ PAGESIZE - HDR) := by
  unfold addToPage at h
  split at h
  · cases h
  · rename_i h1
    simpa [pageFreeSpace, pageUsed, newPage] using h1

theorem scanOvflow_spec (PAGESIZE HDR : Nat) (ov : List Page) (t : Tuple) :
    ∀ (l : List Nat) (q fuel : Nat),
      IsChain ov (q :: l) (some q) → l.length + 1 ≤ fuel →
      (∃ q' pg pg1, q' ∈ q :: l ∧ ov[q']? = some pg ∧
          addToPage PAGESIZE HDR pg t = some pg1 ∧
          scanOvflow PAGESIZE HDR ov t fuel q = some (ScanResult.placed (ov.set q' pg1))) ∨
      (∃ pre prevp prevpg, q :: l = pre ++ [prevp] ∧ ov[prevp]? = some prevpg ∧
          prevpg.ovflow = none ∧
          scanOvflow PAGESIZE HDR ov t fuel q = some (ScanResult.full prevp prevpg)) := by
  intro l
  induction l with
  | nil =>
    intro q fuel hc hf
    obtain ⟨fuel, rfl⟩ : ∃ k, fuel = k + 1 := ⟨fuel - 1, by simp at hf; omega⟩
    rw [isChain_cons] at hc
    obtain ⟨_, pg, hpg, hl⟩ := hc
    rw [isChain_nil] at hl
    have hlt : q < ov.length := (List.getElem?_eq_some.mp hpg).1
    rcases hadd : addToPage PAGESIZE HDR pg t with _ | pg1
    · right
      refine ⟨[], q, pg, rfl, hpg, hl, ?_⟩
      simp [scanOvflow, getPage, hpg, hadd, pageOvflow, hl]
    · left
      refine ⟨q, pg, pg1, List.mem_cons_self _ _, hpg, hadd, ?_⟩
      simp [scanOvflow, getPage, hpg, hadd, putPage_lt _ _ _ hlt]
  | cons q2 l ih =>
    intro q fuel hc hf
    obtain ⟨fuel, rfl⟩ : ∃ k, fuel = k + 1 := ⟨fuel - 1, by simp at hf; omega⟩
    rw [isChain_cons] at hc
    obtain ⟨_, pg, hpg, hl⟩ := hc
    have hlt : q < ov.length := (List.getElem?_eq_some.mp hpg).1
    have hnext : pg.ovflow = some q2 := by
      rw [isChain_cons] at hl; exact hl.1
    rw [hnext] at hl
    rcases hadd : addToPage PAGESIZE HDR pg t with _ | pg1
    · have hrec : scanOvflow PAGESIZE HDR ov t (fuel + 1) q =
          scanOvflow PAGESIZE HDR ov t fuel q2 := by
        simp [scanOvflow, getPage, hpg, hadd, pageOvflow, hnext]
      rw [hrec]
      rcases ih q2 fuel hl (by simp at hf; omega) with
        ⟨q', pg', pg1', hm, h1, h2, h3⟩ | ⟨pre, prevp, prevpg, h1, h2, h3, h4⟩
      · left
        exact ⟨q', pg', pg1', List.mem_cons_of_mem _ hm, h1, h2, h3⟩
      · right
        exact ⟨q :: pre, prevp, prevpg, by rw [h1]; rfl, h2, h3, h4⟩
    · left
      refine ⟨q, pg, pg1, List.mem_cons_self _ _, hpg, hadd, ?_⟩
      simp [scanOvflow, getPage, hpg, hadd, putPage_lt _ _ _ hlt]

theorem fresh_not_mem (r : Reln) (ch : Nat → List Nat) (hok : ChainsOK r ch) :
    ∀ B', B' < r.data.length → r.ovflow.length ∉ ch B' := by
  intro B' hB' hmem
  obtain ⟨pg0, _, hc⟩ := hok.chain B' hB'
  exact absurd (isChain_lt _ _ _ hc _ hmem) (lt_irrefl _)

/-- What `insertTupleIntoPageChain` does to a bucket with a well-formed chain:
it returns; either it returns the bucket and the bucket has gained the tuple, or
the tuple does not fit into an empty page, it returns `NO_PAGE` and no bucket
has changed its tuples. -/
theorem insert_spec (PAGESIZE HDR : Nat) (r : Reln) (ch : Nat → List Nat) (B : Nat)
    (t : Tuple) (hok : ChainsOK r ch) (hB : B < r.data.length) :
    ∃ r' res ch', insertTupleIntoPageChain PAGESIZE HDR r B t = some (r', res) ∧
      ((res = some B ∧ t.length + 1 ≤ PAGESIZE - HDR ∧ BucketStep r ch r' ch' B [t]) ∨
       (res = none ∧ ¬ (t.length + 1 ≤ PAGESIZE - HDR) ∧ BucketStep r ch r' ch' B [])) := by
  obtain ⟨pg, hpg, hc⟩ := hok.chain B hB
  have hfresh := fresh_not_mem r ch hok
  -- the state after `addPage`
  have s1 := step_ov_append r ch B newPage hok hB rfl
  have hn1 : (r.ovflow ++ [newPage])[r.ovflow.length]? = some newPage :=
    List.getElem?_concat_length _ _
  unfold insertTupleIntoPageChain
  simp only [getPage, hpg]
  rcases hadd : addToPage PAGESIZE HDR pg t with _ | pg1
  · simp only []
    rcases hov : pg.ovflow with _ | ovp
    · -- first overflow page of the bucket
      simp only [pageOvflow, hov, addPage, putPage_lt _ _ _ hB, hn1]
      have s2 := step_link_primary { r with ovflow := r.ovflow ++ [newPage] } ch B
        r.ovflow.length pg newPage s1.chains hpg hov hn1 rfl rfl hfresh
      have s12 := bucketStep_trans _ _ _ _ _ _ _ _ _ s1 s2
      rcases hadd2 : addToPage PAGESIZE HDR newPage t with _ | newpg1
      · exact ⟨_, _, _, rfl, Or.inr ⟨rfl, addToPage_newPage_none _ _ _ hadd2, s12⟩⟩
      · simp only [putPage_lt (r.ovflow ++ [newPage]) r.ovflow.length newpg1 (by simp)]
        obtain ⟨h1, h2⟩ := addToPage_some _ _ _ _ _ hadd2
        have s3 := step_ov_set _ _ B r.ovflow.length newPage newpg1 [t] s2.chains
          (by simpa using hB) (by simp) hn1 h1 h2
        exact ⟨_, _, _, rfl, Or.inl ⟨rfl, addToPage_fits _ _ _ _ _ hadd2,
          bucketStep_trans _ _ _ _ _ _ _ _ _ s12 s3⟩⟩
    · -- scan the overflow chain
      simp only [pageOvflow, hov]
      rw [hov] at hc
      obtain ⟨l, hl⟩ : ∃ l, ch B = ovp :: l := by
        cases hch : ch B with
        | nil => rw [hch, isChain_nil] at hc; cases hc
        | cons a l =>
          rw [hch, isChain_cons] at hc
          have := hc.1; cases this
          exact ⟨l, rfl⟩
      have hlen := isChain_length_le _ _ _ hc
      rw [hl] at hc hlen
      rcases scanOvflow_spec PAGESIZE HDR r.ovflow t l ovp (r.ovflow.length + 1) hc
          (by simp at hlen; omega) with
        ⟨q', pg', pg1', hm, h1, h2, h3⟩ | ⟨pre, prevp, prevpg, h1, h2, h3, h4⟩
      · rw [h3]
        simp only []
        obtain ⟨e1, e2⟩ := addToPage_some _ _ _ _ _ h2
        have s := step_ov_set r ch B q' pg' pg1' [t] hok hB (by rw [hl]; exact hm) h1 e1 e2
        exact ⟨_, _, _, rfl, Or.inl ⟨rfl, addToPage_fits _ _ _ _ _ h2, s⟩⟩
      · rw [h4]
        simp only [addPage, hn1]
        rcases hadd2 : addToPage PAGESIZE HDR newPage t with _ | newpg1
        · exact ⟨_, _, _, rfl, Or.inr ⟨rfl, addToPage_newPage_none _ _ _ hadd2, s1⟩⟩
        · have hplt : prevp < r.ovflow.length := (List.getElem?_eq_some.mp h2).1
          simp only [putPage_lt (r.ovflow ++ [newPage]) r.ovflow.length newpg1 (by simp)]
          rw [putPage_lt _ prevp _ (by simp; omega)]
          simp only []
          obtain ⟨e1, e2⟩ := addToPage_some _ _ _ _ _ hadd2
          have hprev1 : (r.ovflow ++ [newPage])[prevp]? = some prevpg := by
            rw [List.getElem?_append_left hplt]; exact h2
          have s2 := step_link_tail { r with ovflow := r.ovflow ++ [newPage] } ch B
            r.ovflow.length prevp pre prevpg newPage s1.chains hB (by rw [hl, h1]) hprev1
            hn1 rfl rfl hfresh
          have hne : prevp ≠ r.ovflow.length := by omega
          have hn2 : ((r.ovflow ++ [newPage]).set prevp
              (pageSetOvflow prevpg (some r.ovflow.length)))[r.ovflow.length]? =
              some newPage := by
            rw [List.getElem?_set_ne hne]; exact hn1
          have s3 := step_ov_set _ _ B r.ovflow.length newPage newpg1 [t] s2.chains
            hB (by simp) hn2 e1 e2
          have s123 := bucketStep_trans _ _ _ _ _ _ _ _ _
            (bucketStep_trans _ _ _ _ _ _ _ _ _ s1 s2) s3
          rw [List.set_comm _ _ _ hne] at s123
          exact ⟨_, _, _, rfl, Or.inl ⟨rfl, addToPage_fits _ _ _ _ _ hadd2, s123⟩⟩
  · simp only [putPage_lt _ _ _ hB]
    obtain ⟨e1, e2⟩ := addToPage_some _ _ _ _ _ hadd
    exact ⟨_, _, _, rfl, Or.inl ⟨rfl, addToPage_fits _ _ _ _ _ hadd,
      step_data_set r ch B pg pg1 [t] hok hpg e1 e2⟩⟩

theorem insertTupleIntoPageChain_header (PAGESIZE HDR : Nat) (r r1 : Reln) (p : Nat)
    (res : Option Nat) (t : Tuple)
    (h : insertTupleIntoPageChain PAGESIZE HDR r p t = some (r1, res)) :
    SameHeader r r1 := by
  unfold insertTupleIntoPageChain at h
  simp only [addPage] at h
  repeat' split at h
  all_goals first
    | (simp only [Option.some.injEq, Prod.mk.injEq] at h
       obtain ⟨h1, _⟩ := h
       subst h1
       exact sameHeader_refl _)
    | simp at h

theorem tupleHash_header (hash_any : Tuple → Nat) (r r1 : Reln) (h : SameHeader r r1)
    (t : Tuple) : tupleHash hash_any r1 t = tupleHash hash_any r t := by
  obtain ⟨h1, _, _, _, _, h6⟩ := h
  simp [tupleHash, h1, h6]

theorem reinsertTuples_header (hash_any : Tuple → Nat) (PAGESIZE HDR : Nat) :
    ∀ (ts : List Tuple) (r r1 : Reln),
      reinsertTuples hash_any PAGESIZE HDR r ts = some r1 → SameHeader r r1 := by
  intro ts
  induction ts with
  | nil =>
    intro r r1 h
    simp only [reinsertTuples, Option.some.injEq] at h
    subst h; exact sameHeader_refl _
  | cons t ts ih =>
    intro r r1 h
    simp only [reinsertTuples] at h
    rcases hh : tupleHash hash_any r t with _ | hv
    · simp [hh] at h
    rw [hh] at h
    simp only [] at h
    rcases hins : insertTupleIntoPageChain PAGESIZE HDR r (getLower hv (r.depth + 1)) t
      with _ | ⟨r2, res⟩
    · simp [hins] at h
    rw [hins] at h
    simp only [] at h
    exact sameHeader_trans _ _ _ (insertTupleIntoPageChain_header _ _ _ _ _ _ _ hins) (ih _ _ h)

theorem placedBy_step (hash_any : Tuple → Nat) (r r' : Reln) (ch ch' : Nat → List Nat)
    (B : Nat) (added : List Tuple) (f : Nat → Nat)
    (hs : BucketStep r ch r' ch' B added) (hp : PlacedBy hash_any r ch f)
    (ha : ∀ u ∈ added, ∃ h, tupleHash hash_any r u = some h ∧ f h = B) :
    PlacedBy hash_any r' ch' f := by
  intro B' hB' u hu
  rw [hs.data_len] at hB'
  rw [tupleHash_header hash_any r r' hs.header]
  by_cases hBB : B' = B
  · subst hBB
    have := hs.bucket.subset hu
    rcases List.mem_append.mp this with h | h
    · exact ha u h
    · exact hp B' hB' u h
  · rw [hs.others B' hB' hBB] at hu
    exact hp B' hB' u hu

theorem countOvflow_spec (ov : List Page) :
    ∀ (l : List Nat) (s : Option Nat) (fuel n : Nat), IsChain ov l s → l.length ≤ fuel →
      ∃ m, countOvflow ov fuel s n = some m := by
  intro l
  induction l with
  | nil =>
    intro s fuel n h _
    rw [isChain_nil] at h; subst h
    cases fuel <;> exact ⟨n, rfl⟩
  | cons q l ih =>
    intro s fuel n h hf
    obtain ⟨fuel, rfl⟩ : ∃ k, fuel = k + 1 := ⟨fuel - 1, by simp at hf; omega⟩
    rw [isChain_cons] at h
    obtain ⟨rfl, pg, hpg, hl⟩ := h
    simp only [countOvflow, getPage, hpg, pageOvflow]
    exact ih _ _ _ hl (by simp at hf; omega)

theorem collectOvflow_spec (ov : List Page) :
    ∀ (l : List Nat) (s : Option Nat) (fuel : Nat) (acc : List Tuple),
      IsChain ov l s → l.length ≤ fuel →
      collectOvflow ov fuel s acc = some (acc ++ chainTuples ov l) := by
  intro l
  induction l with
  | nil =>
    intro s fuel acc h _
    rw [isChain_nil] at h; subst h
    cases fuel <;> simp [collectOvflow, chainTuples]
  | cons q l ih =>
    intro s fuel acc h hf
    obtain ⟨fuel, rfl⟩ : ∃ k, fuel = k + 1 := ⟨fuel - 1, by simp at hf; omega⟩
    rw [isChain_cons] at h
    obtain ⟨rfl, pg, hpg, hl⟩ := h
    simp only [collectOvflow, getPage, hpg, pageOvflow]
    rw [ih _ _ _ hl (by simp at hf; omega)]
    simp [chainTuples, List.flatMap_cons, pageTuplesAt, hpg]

theorem resetOvflow_spec :
    ∀ (l : List Nat) (ov : List Page) (s : Option Nat) (fuel : Nat),
      IsChain ov l s → l.length ≤ fuel →
      ∃ ov1, resetOvflow fuel ov s = some ov1 ∧ ov1.length = ov.length ∧
        (∀ q ∈ l, ov1[q]? = some newPage) ∧ (∀ q, q ∉ l → ov1[q]? = ov[q]?) := by
  intro l
  induction l with
  | nil =>
    intro ov s fuel h _
    rw [isChain_nil] at h; subst h
    refine ⟨ov, by cases fuel <;> rfl, rfl, by simp, fun _ _ => rfl⟩
  | cons q l ih =>
    intro ov s fuel h hf
    obtain ⟨fuel, rfl⟩ : ∃ k, fuel = k + 1 := ⟨fuel - 1, by simp at hf; omega⟩
    have hnd := isChain_nodup _ _ _ h
    rw [isChain_cons] at h
    obtain ⟨rfl, pg, hpg, hl⟩ := h
    have hlt : q < ov.length := (List.getElem?_eq_some.mp hpg).1
    obtain ⟨hql, _⟩ := List.nodup_cons.mp hnd
    have hl' : IsChain (ov.set q newPage) l pg.ovflow := by
      apply isChain_frame _ _ _ _ _ hl
      intro x hx
      have : q ≠ x := fun e => hql (e ▸ hx)
      exact List.getElem?_set_ne this
    obtain ⟨ov1, h1, h2, h3, h4⟩ := ih (ov.set q newPage) pg.ovflow fuel hl'
      (by simp at hf; omega)
    refine ⟨ov1, ?_, by rw [h2]; simp, ?_, ?_⟩
    · simp only [resetOvflow, getPage, hpg, pageOvflow]
      rw [putPage_lt _ _ _ hlt]
      exact h1
    · intro x hx
      rcases List.mem_cons.mp hx with rfl | hx
      · rw [h4 x hql]; exact List.getElem?_set_self hlt
      · exact h3 x hx
    · intro x hx
      have hxq : q ≠ x := fun e => hx (e ▸ List.mem_cons_self _ _)
      rw [h4 x (fun e => hx (List.mem_cons_of_mem _ e)), List.getElem?_set_ne hxq]

theorem flatMap_range_update {α : Type} (added : List α) (B : Nat) (f g : Nat → List α) :
    ∀ n, B < n → (∀ B', B' < n → B' ≠ B → g B' = f B') → (g B).Perm (added ++ f B) →
      ((List.range n).flatMap g).Perm (added ++ (List.range n).flatMap f) := by
  intro n
  induction n with
  | zero => intro h; omega
  | succ n ih =>
    intro hB hoth hperm
    rw [List.range_succ, List.flatMap_append, List.flatMap_append]
    simp only [List.flatMap_singleton]
    by_cases hBn : B = n
    · subst hBn
      have e : (List.range B).flatMap g = (List.range B).flatMap f := by
        apply List.flatMap_congr
        intro x hx
        have := List.mem_range.mp hx
        exact hoth x (by omega) (by omega)
      rw [e]
      have h1 := List.Perm.append_left ((List.range B).flatMap f) hperm
      refine h1.trans ?_
      rw [← List.append_assoc, ← List.append_assoc]
      exact List.Perm.append_right _ List.perm_append_comm
    · have h1 := ih (by omega) (fun B' h1 h2 => hoth B' (by omega) h2) hperm
      rw [hoth n (by omega) (fun e => hBn e.symm)]
      have h2 := List.Perm.append_right (f n) h1
      simpa [List.append_assoc] using h2

theorem storedTuples_step (r r' : Reln) (ch ch' : Nat → List Nat) (B : Nat)
    (added : List Tuple) (hs : BucketStep r ch r' ch' B added) (hB : B < r.data.length) :
    (storedTuples r' ch').Perm (added ++ storedTuples r ch) := by
  unfold storedTuples
  rw [hs.data_len]
  exact flatMap_range_update added B _ _ _ hB hs.others hs.bucket

/-- The re-insertion loop of the split, for tuples whose target bucket exists
and is the one `f` assigns to them. -/
theorem reinsertTuples_spec (hash_any : Tuple → Nat) (PAGESIZE HDR : Nat) (f : Nat → Nat) :
    ∀ (ts : List Tuple) (r : Reln) (ch : Nat → List Nat),
      ChainsOK r ch → PlacedBy hash_any r ch f →
      (∀ u ∈ ts, ∃ h, tupleHash hash_any r u = some h ∧ getLower h (r.depth + 1) = f h ∧
        f h < r.data.length) →
      ∃ r' ch', reinsertTuples hash_any PAGESIZE HDR r ts = some r' ∧ SameHeader r r' ∧
        r'.data.length = r.data.length ∧ ChainsOK r' ch' ∧ PlacedBy hash_any r' ch' f ∧
        (∀ u ∈ allTuples r', u ∈ ts ∨ u ∈ allTuples r) ∧
        ((∀ u ∈ ts, u.length + 1 ≤ PAGESIZE - HDR) →
          (allTuples r').Perm (ts ++ allTuples r) ∧
          (storedTuples r' ch').Perm (ts ++ storedTuples r ch)) := by
  intro ts
  induction ts with
  | nil =>
    intro r ch hok hp _
    exact ⟨r, ch, rfl, sameHeader_refl r, rfl, hok, hp, fun u hu => Or.inr hu,
      fun _ => ⟨List.Perm.refl _, List.Perm.refl _⟩⟩
  | cons t ts ih =>
    intro r ch hok hp hts
    obtain ⟨h, hh, hlow, hlt⟩ := hts t (List.mem_cons_self _ _)
    obtain ⟨r1, res, ch1, hins, hcase⟩ := insert_spec PAGESIZE HDR r ch (f h) t hok hlt
    have hstep : ∃ added, BucketStep r ch r1 ch1 (f h) added ∧ (∀ u ∈ added, u = t) ∧
        (t.length + 1 ≤ PAGESIZE - HDR → added = [t]) := by
      rcases hcase with ⟨_, _, hs⟩ | ⟨_, hnf, hs⟩
      · exact ⟨[t], hs, by simp, fun _ => rfl⟩
      · exact ⟨[], hs, by simp, fun h => absurd h hnf⟩
    obtain ⟨added, hs, hadd1, hadd2⟩ := hstep
    have hp1 : PlacedBy hash_any r1 ch1 f :=
      placedBy_step hash_any r r1 ch ch1 (f h) added f hs hp
        (fun u hu => by rw [hadd1 u hu]; exact ⟨h, hh, rfl⟩)
    have hdepth : r1.depth = r.depth := hs.header.2.1
    have hts1 : ∀ u ∈ ts, ∃ h, tupleHash hash_any r1 u = some h ∧
        getLower h (r1.depth + 1) = f h ∧ f h < r1.data.length := by
      intro u hu
      obtain ⟨h', a, b, c⟩ := hts u (List.mem_cons_of_mem _ hu)
      exact ⟨h', by rw [tupleHash_header hash_any r r1 hs.header]; exact a,
        by rw [hdepth]; exact b, by rw [hs.data_len]; exact c⟩
    obtain ⟨r2, ch2, hre, hhd, hlen, hok2, hp2, hmem, hperm⟩ := ih r1 ch1 hs.chains hp1 hts1
    refine ⟨r2, ch2, ?_, sameHeader_trans _ _ _ hs.header hhd, hlen.trans hs.data_len, hok2,
      hp2, ?_, ?_⟩
    · simp only [reinsertTuples, hh, hlow, hins]
      exact hre
    · intro u hu
      rcases hmem u hu with h1 | h1
      · exact Or.inl (List.mem_cons_of_mem _ h1)
      · rcases List.mem_append.mp (hs.all.subset h1) with h2 | h2
        · exact Or.inl (by rw [hadd1 u h2]; exact List.mem_cons_self _ _)
        · exact Or.inr h2
    · intro hfit
      obtain ⟨p1, p2⟩ := hperm (fun u hu => hfit u (List.mem_cons_of_mem _ hu))
      have ha : added = [t] := hadd2 (hfit t (List.mem_cons_self _ _))
      subst ha
      have q1 := hs.all
      have q2 := storedTuples_step r r1 ch ch1 (f h) [t] hs hlt
      constructor
      · refine p1.trans ?_
        refine (List.Perm.append_left ts q1).trans ?_
        simp only [List.singleton_append, List.cons_append]
        exact List.perm_middle
      · refine p2.trans ?_
        refine (List.Perm.append_left ts q2).trans ?_
        simp only [List.singleton_append, List.cons_append]
        exact List.perm_middle

theorem mod_two_pow_succ_cases (h d : Nat) :
    h % 2 ^ (d + 1) = h % 2 ^ d ∨ h % 2 ^ (d + 1) = h % 2 ^ d + 2 ^ d := by
  rw [Nat.mod_pow_succ]
  rcases Nat.mod_two_eq_zero_or_one (h / 2 ^ d) with e | e <;> simp [e]

theorem bucketAddr_lt (h d sp : Nat) : bucketAddr h d sp < 2 ^ d + sp := by
  unfold bucketAddr
  have := Nat.mod_lt h (Nat.two_pow_pos d)
  split
  · rcases mod_two_pow_succ_cases h d with e | e <;> omega
  · omega

theorem bucketAddr_eq_sp (h d sp : Nat) (hsp : sp < 2 ^ d) (he : bucketAddr h d sp = sp) :
    h % 2 ^ d = sp := by
  unfold bucketAddr at he
  by_cases hlt : h % 2 ^ d < sp
  · rw [if_pos hlt] at he
    rcases mod_two_pow_succ_cases h d with e | e
    · rw [e] at he; exact absurd he (Nat.ne_of_lt hlt)
    · rw [e] at he
      generalize h % 2 ^ d = p at *
      generalize 2 ^ d = a at *
      omega
  · rw [if_neg hlt] at he
    exact he

theorem bucketAddr_next_old (h d sp : Nat) (he : h % 2 ^ d = sp) :
    bucketAddr h (nextDepth d sp) (nextSp d sp) = h % 2 ^ (d + 1) := by
  unfold bucketAddr nextDepth nextSp
  by_cases hs : sp + 1 = 2 ^ d
  · simp [hs]
  · simp only [hs, if_false]
    have : h % 2 ^ d < sp + 1 := by omega
    simp [this]

theorem bucketAddr_next_other (h d sp : Nat) (he : h % 2 ^ d ≠ sp) :
    bucketAddr h (nextDepth d sp) (nextSp d sp) = bucketAddr h d sp := by
  unfold bucketAddr nextDepth nextSp
  have := Nat.mod_lt h (Nat.two_pow_pos d)
  by_cases hs : sp + 1 = 2 ^ d
  · have h1 : h % 2 ^ d < sp := by omega
    simp [hs, h1]
  · simp only [hs, if_false]
    by_cases h1 : h % 2 ^ d < sp
    · have h2 : h % 2 ^ d < sp + 1 := by omega
      simp [h1, h2]
    · have h2 : ¬ h % 2 ^ d < sp + 1 := by omega
      simp [h1, h2]

theorem bucketAddr_eq_addToRelation_bucket (r : Reln) (h : Nat) (hsp : r.sp < 2 ^ r.depth) :
    addToRelation_bucket r h = bucketAddr h r.depth r.sp := by
  unfold addToRelation_bucket bucketAddr getLower
  by_cases hd : r.depth = 0
  · rw [hd] at hsp ⊢
    simp at hsp
    simp [hsp, Nat.mod_one]
  · simp only [hd, if_false]

/-- Emptying a page takes its tuples out of the file. -/
theorem flatMap_set_empty_perm (f : List Page) (q : Nat) (pg pg0 : Page)
    (hq : f[q]? = some pg) (h0 : pg0.tuples = []) :
    (pg.tuples ++ (f.set q pg0).flatMap Page.tuples).Perm (f.flatMap Page.tuples) := by
  have hlt : q < f.length := (List.getElem?_eq_some.mp hq).1
  have h1 := flatMap_set_perm (f.set q pg0) q pg0 pg pg.tuples
    (List.getElem?_set_self hlt) (by simp [h0])
  have h2 : (f.set q pg0).set q pg = f := by
    rw [List.set_set]
    apply List.ext_getElem?
    intro i
    by_cases hi : q = i
    · subst hi; rw [List.getElem?_set_self hlt, hq]
    · rw [List.getElem?_set_ne hi]
  rw [h2] at h1
  exact h1.symm

/-- Emptying the pages of a chain takes the tuples of the chain out of the file. -/
theorem flatMap_reset_perm :
    ∀ (l : List Nat) (ov ov1 : List Page), l.Nodup → (∀ q ∈ l, q < ov.length) →
      (∀ q ∈ l, ov1[q]? = some newPage) → (∀ q, q ∉ l → ov1[q]? = ov[q]?) →
      (chainTuples ov l ++ ov1.flatMap Page.tuples).Perm (ov.flatMap Page.tuples) := by
  intro l
  induction l with
  | nil =>
    intro ov ov1 _ _ _ h
    have : ov1 = ov := List.ext_getElem? (fun i => h i (by simp))
    simp [chainTuples, this]
  | cons q l ih =>
    intro ov ov1 hnd hlt h1 h2
    obtain ⟨hql, hnd'⟩ := List.nodup_cons.mp hnd
    have hq : q < ov.length := hlt q (List.mem_cons_self _ _)
    have hpg : ov[q]? = some ov[q] := List.getElem?_eq_getElem hq
    have ih' := ih (ov.set q newPage) ov1 hnd'
      (fun x hx => by simpa using hlt x (List.mem_cons_of_mem _ hx))
      (fun x hx => h1 x (List.mem_cons_of_mem _ hx))
      (fun x hx => by
        by_cases hxq : q = x
        · subst hxq
          rw [List.getElem?_set_self hq]
          exact h1 q (List.mem_cons_self _ _)
        · rw [List.getElem?_set_ne hxq]
          exact h2 x (fun e => by
            rcases List.mem_cons.mp e with e | e
            · exact hxq e.symm
            · exact hx e))
    have e1 : chainTuples (ov.set q newPage) l = chainTuples ov l := by
      apply chainTuples_congr
      intro x hx
      have : q ≠ x := fun e => hql (e ▸ hx)
      exact List.getElem?_set_ne this
    rw [e1] at ih'
    have z := flatMap_set_empty_perm ov q ov[q] newPage hpg rfl
    have e2 : chainTuples ov (q :: l) = ov[q].tuples ++ chainTuples ov l := by
      simp [chainTuples, List.flatMap_cons, pageTuplesAt, hpg]
    rw [e2, List.append_assoc]
    exact (List.Perm.append_left _ ih').trans z

theorem perm_four {α : Type} (a b c d : List α) :
    ((a ++ b) ++ (c ++ d)).Perm ((a ++ c) ++ (b ++ d)) := by
  have h : (b ++ c).Perm (c ++ b) := List.perm_append_comm
  have := List.Perm.append_left a (List.Perm.append_right d h)
  simpa [List.append_assoc] using this

theorem midState_spec (r : Reln) (ch : Nat → List Nat) (hwf : WellFormed r ch) (old : Page)
    (hold : r.data[r.sp]? = some old) (ov1 : List Page)
    (h1 : ∀ q ∈ ch r.sp, ov1[q]? = some newPage)
    (h2 : ∀ q, q ∉ ch r.sp → ov1[q]? = r.ovflow[q]?) :
    ChainsOK (midState r old ov1) (midChains r ch) ∧
    (midState r old ov1).data.length = r.data.length + 1 ∧
    (∀ B, B < r.data.length + 1 →
      bucketTuples (midState r old ov1) (midChains r ch) B =
        if B = r.sp ∨ B = r.data.length then [] else bucketTuples r ch B) ∧
    (bucketTuples r ch r.sp ++ allTuples (midState r old ov1)).Perm (allTuples r) ∧
    (bucketTuples r ch r.sp ++ storedTuples (midState r old ov1) (midChains r ch)).Perm
      (storedTuples r ch) := by
  have hsp : r.sp < r.data.length := (List.getElem?_eq_some.mp hold).1
  have hok := hwf.chains
  obtain ⟨old', hold', hcold⟩ := hok.chain r.sp hsp
  rw [hold] at hold'; cases hold'
  have hlen : (midState r old ov1).data.length = r.data.length + 1 := by
    simp [midState]
  have hne : r.sp ≠ r.data.length := by omega
  -- the pages of the new data file
  have dsp : (midState r old ov1).data[r.sp]? =
      some (pageSetOvflow newPage (pageOvflow old)) := by
    simp only [midState]
    exact List.getElem?_set_self (by simp; omega)
  have dnew : (midState r old ov1).data[r.data.length]? = some newPage := by
    simp only [midState]
    rw [List.getElem?_set_ne hne]
    exact List.getElem?_concat_length _ _
  have doth : ∀ B, B < r.data.length → B ≠ r.sp →
      (midState r old ov1).data[B]? = r.data[B]? := by
    intro B hB hBs
    simp only [midState]
    rw [List.getElem?_set_ne (Ne.symm hBs), List.getElem?_append_left hB]
  -- the chains
  have csp : midChains r ch r.sp = (ch r.sp).take 1 := by simp [midChains]
  have cnew : midChains r ch r.data.length = [] := by
    simp [midChains, Ne.symm hne]
  have coth : ∀ B, B < r.data.length → B ≠ r.sp → midChains r ch B = ch B := by
    intro B hB hBs
    have : B ≠ r.data.length := by omega
    simp [midChains, hBs, this]
  have hfr : ∀ B, B < r.data.length → B ≠ r.sp → ∀ x ∈ ch B, ov1[x]? = r.ovflow[x]? := by
    intro B hB hBs x hx
    exact h2 x (fun e => hok.disjoint B r.sp hB hsp hBs x hx e)
  have hchsp : IsChain ov1 ((ch r.sp).take 1) old.ovflow ∧
      chainTuples ov1 ((ch r.sp).take 1) = [] := by
    cases hc : ch r.sp with
    | nil =>
      rw [hc] at hcold
      exact ⟨by simpa using hcold, by simp [chainTuples]⟩
    | cons q l =>
      rw [hc, isChain_cons] at hcold
      have hq : ov1[q]? = some newPage := h1 q (by rw [hc]; exact List.mem_cons_self _ _)
      refine ⟨?_, by simp [chainTuples, pageTuplesAt, hq, newPage]⟩
      simp only [List.take_succ_cons, List.take_zero, isChain_cons]
      exact ⟨hcold.1, newPage, hq, by simp [IsChain, newPage]⟩
  have hmem_take : ∀ x, x ∈ (ch r.sp).take 1 → x ∈ ch r.sp :=
    fun x hx => List.mem_of_mem_take hx
  have hbt : ∀ B, B < r.data.length + 1 →
      bucketTuples (midState r old ov1) (midChains r ch) B =
        if B = r.sp ∨ B = r.data.length then [] else bucketTuples r ch B := by
    intro B hB
    by_cases hBs : B = r.sp
    · subst hBs
      simp only [true_or, if_true, bucketTuples, csp]
      rw [pageTuplesAt_eq _ _ _ dsp]
      show _ ++ chainTuples ov1 _ = _
      rw [hchsp.2]
      simp [pageSetOvflow, newPage]
    · by_cases hBn : B = r.data.length
      · subst hBn
        simp only [or_true, if_true, bucketTuples, cnew]
        rw [pageTuplesAt_eq _ _ _ dnew]
        simp [chainTuples, newPage]
      · have hB' : B < r.data.length := by omega
        simp only [hBs, hBn, or_self, if_false, bucketTuples, coth B hB' hBs]
        have e1 : pageTuplesAt (midState r old ov1).data B = pageTuplesAt r.data B := by
          simp [pageTuplesAt, doth B hB' hBs]
        rw [e1]
        congr 1
        exact chainTuples_congr _ _ _ (hfr B hB' hBs)
  refine ⟨⟨?_, ?_⟩, hlen, hbt, ?_, ?_⟩
  · intro B hB
    rw [hlen] at hB
    by_cases hBs : B = r.sp
    · subst hBs
      refine ⟨_, dsp, ?_⟩
      rw [csp]
      exact hchsp.1
    · by_cases hBn : B = r.data.length
      · subst hBn
        refine ⟨_, dnew, ?_⟩
        rw [cnew]
        simp [IsChain, newPage]
      · have hB' : B < r.data.length := by omega
        obtain ⟨pg, hpg, hc⟩ := hok.chain B hB'
        refine ⟨pg, by rw [doth B hB' hBs]; exact hpg, ?_⟩
        rw [coth B hB' hBs]
        exact isChain_frame _ _ _ _ (hfr B hB' hBs) hc
  · intro B1 B2 hB1 hB2 hne12 x hx
    rw [hlen] at hB1 hB2
    have key : ∀ B, B < r.data.length + 1 → ∀ y, y ∈ midChains r ch B →
        B ≠ r.data.length ∧ y ∈ ch B := by
      intro B hB y hy
      by_cases hBs : B = r.sp
      · subst hBs
        rw [csp] at hy
        exact ⟨hne, hmem_take y hy⟩
      · by_cases hBn : B = r.data.length
        · subst hBn; rw [cnew] at hy; simp at hy
        · rw [coth B (by omega) hBs] at hy
          exact ⟨hBn, hy⟩
    intro hx2
    obtain ⟨n1, m1⟩ := key B1 hB1 x hx
    obtain ⟨n2, m2⟩ := key B2 hB2 x hx2
    exact hok.disjoint B1 B2 (by omega) (by omega) hne12 x m1 m2
  · -- all tuples
    have hnd := isChain_nodup _ _ _ hcold
    have hlt := isChain_lt _ _ _ hcold
    have z2 := flatMap_reset_perm (ch r.sp) r.ovflow ov1 hnd hlt h1 h2
    have z1 := flatMap_set_empty_perm r.data r.sp old
      (pageSetOvflow newPage (pageOvflow old)) hold (by simp [pageSetOvflow, newPage])
    have e : allTuples (midState r old ov1) =
        (r.data.set r.sp (pageSetOvflow newPage (pageOvflow old))).flatMap Page.tuples ++
          ov1.flatMap Page.tuples := by
      simp only [allTuples, midState, List.flatMap_append]
      rw [List.set_append_left _ _ hsp]
      simp [List.flatMap_append, newPage]
    rw [e]
    simp only [bucketTuples, allTuples, List.flatMap_append]
    rw [pageTuplesAt_eq _ _ _ hold]
    exact (perm_four _ _ _ _).trans (List.Perm.append z1 z2)
  · -- stored tuples
    have e : storedTuples (midState r old ov1) (midChains r ch) =
        (List.range r.data.length).flatMap
          (fun B => if B = r.sp then [] else bucketTuples r ch B) := by
      unfold storedTuples
      rw [hlen, List.range_succ, List.flatMap_append, List.flatMap_singleton,
        hbt _ (by omega)]
      simp only [or_true, if_true, List.append_nil]
      apply List.flatMap_congr
      intro B hB
      have hB' := List.mem_range.mp hB
      rw [hbt B (by omega)]
      have : B ≠ r.data.length := by omega
      simp [this]
    rw [e]
    have := flatMap_range_update (bucketTuples r ch r.sp) r.sp
      (fun B => if B = r.sp then [] else bucketTuples r ch B) (bucketTuples r ch)
      r.data.length hsp (fun B' _ hne' => by simp [hne']) (by simp)
    exact this.symm

theorem splitBucket_eq (hash_any : Tuple → Nat) (PAGESIZE HDR : Nat) (r : Reln) (old : Page)
    (ov1 : List Page) (m : Nat) (ts : List Tuple)
    (hlen : r.data.length = r.sp + 2 ^ r.depth)
    (hold : r.data[r.sp]? = some old)
    (hcount : countOvflow r.ovflow (r.ovflow.length + 1) (pageOvflow old) (pageNTuples old) =
      some m)
    (hcollect : collectOvflow r.ovflow (r.ovflow.length + 1) (pageOvflow old) old.tuples =
      some ts)
    (hreset : resetOvflow (r.ovflow.length + 1) r.ovflow (pageOvflow old) = some ov1) :
    splitBucket hash_any PAGESIZE HDR r =
      (reinsertTuples hash_any PAGESIZE HDR (midState r old ov1) ts).map afterSplit := by
  have hsp : r.sp < r.data.length := (List.getElem?_eq_some.mp hold).1
  have h1 : (r.data ++ [newPage])[r.sp]? = some old := by
    rw [List.getElem?_append_left hsp]; exact hold
  unfold splitBucket
  simp only [← hlen, putPage_length, getPage, h1, hcount, hcollect, hreset]
  rw [putPage_lt _ _ _ (by simp; omega)]
  simp only []
  show (match reinsertTuples hash_any PAGESIZE HDR (midState r old ov1) ts with
    | none => none
    | some r2 => _) = _
  rcases reinsertTuples hash_any PAGESIZE HDR (midState r old ov1) ts with _ | r2
  · rfl
  · simp only [Option.map_some', afterSplit]
    split <;> rfl

theorem chainsOK_files (r r' : Reln) (ch : Nat → List Nat) (hd : r'.data = r.data)
    (ho : r'.ovflow = r.ovflow) (h : ChainsOK r ch) : ChainsOK r' ch := by
  refine ⟨?_, ?_⟩
  · rw [hd, ho]; exact h.chain
  · rw [hd]; exact h.disjoint

theorem afterSplit_fields (r2 : Reln) :
    (afterSplit r2).nattrs = r2.nattrs ∧ (afterSplit r2).cv = r2.cv ∧
    (afterSplit r2).ntups = r2.ntups ∧ (afterSplit r2).npages = r2.npages ∧
    (afterSplit r2).data = r2.data ∧ (afterSplit r2).ovflow = r2.ovflow ∧
    (afterSplit r2).depth = nextDepth r2.depth r2.sp ∧
    (afterSplit r2).sp = nextSp r2.depth r2.sp := by
  unfold afterSplit nextDepth nextSp
  split <;> simp

theorem next_counters (d sp : Nat) (h : sp < 2 ^ d) :
    nextSp d sp < 2 ^ nextDepth d sp ∧
      2 ^ d + sp + 1 = 2 ^ nextDepth d sp + nextSp d sp := by
  unfold nextSp nextDepth
  by_cases hs : sp + 1 = 2 ^ d
  · simp only [hs, if_true, pow_succ]
    constructor
    · have := Nat.two_pow_pos d; omega
    · omega
  · simp only [hs, if_false]
    omega

/-- What one split does on a well-formed relation in which every tuple is in
the bucket of its hash: it returns, the counters advance, the relation is again
well formed with every tuple in the bucket of its hash under the new counters,
and no tuple appears; if every tuple fits into an empty page, the tuples are
the same as before. -/
theorem splitBucket_spec (hash_any : Tuple → Nat) (PAGESIZE HDR : Nat) (r : Reln)
    (ch : Nat → List Nat) (hwf : WellFormed r ch)
    (hp : PlacedBy hash_any r ch (fun h => bucketAddr h r.depth r.sp)) :
    ∃ r' ch', splitBucket hash_any PAGESIZE HDR r = some r' ∧ WellFormed r' ch' ∧
      PlacedBy hash_any r' ch' (fun h => bucketAddr h r'.depth r'.sp) ∧
      r'.nattrs = r.nattrs ∧ r'.cv = r.cv ∧ r'.ntups = r.ntups ∧
      r'.npages = r.npages + 1 ∧ r'.depth = nextDepth r.depth r.sp ∧
      r'.sp = nextSp r.depth r.sp ∧
      (∀ u ∈ allTuples r', u ∈ allTuples r) ∧
      ((∀ u ∈ allTuples r, u.length + 1 ≤ PAGESIZE - HDR) →
        (allTuples r').Perm (allTuples r) ∧ (storedTuples r' ch').Perm (storedTuples r ch)) := by
  have hlen : r.data.length = r.sp + 2 ^ r.depth := by
    rw [hwf.data_len, hwf.npages_eq]; omega
  have hsp : r.sp < r.data.length := by have := hwf.sp_lt; omega
  obtain ⟨old, hold, hcold⟩ := hwf.chains.chain r.sp hsp
  have hfuel : (ch r.sp).length ≤ r.ovflow.length + 1 :=
    le_trans (isChain_length_le _ _ _ hcold) (Nat.le_succ _)
  obtain ⟨m, hcount⟩ := countOvflow_spec r.ovflow (ch r.sp) _ _ (pageNTuples old) hcold hfuel
  have hcollect := collectOvflow_spec r.ovflow (ch r.sp) _ _ old.tuples hcold hfuel
  obtain ⟨ov1, hreset, _, hz1, hz2⟩ := resetOvflow_spec (ch r.sp) r.ovflow _ _ hcold hfuel
  have heq := splitBucket_eq hash_any PAGESIZE HDR r old ov1 m _ hlen hold hcount hcollect
    hreset
  have hts : old.tuples ++ chainTuples r.ovflow (ch r.sp) = bucketTuples r ch r.sp := by
    simp [bucketTuples, pageTuplesAt, hold]
  rw [hts] at heq
  obtain ⟨mok, mlen, mbt, mall, mstored⟩ := midState_spec r ch hwf old hold ov1 hz1 hz2
  -- placement in the mid state, under the new counters
  let f : Nat → Nat := fun h => bucketAddr h (nextDepth r.depth r.sp) (nextSp r.depth r.sp)
  have mp : PlacedBy hash_any (midState r old ov1) (midChains r ch) f := by
    intro B hB u hu
    rw [mlen] at hB
    rw [mbt B hB] at hu
    by_cases hc : B = r.sp ∨ B = r.data.length
    · rw [if_pos hc] at hu; simp at hu
    · rw [if_neg hc] at hu
      have hB' : B < r.data.length := by omega
      obtain ⟨h, hh, ha⟩ := hp B hB' u hu
      refine ⟨h, hh, ?_⟩
      have hne : h % 2 ^ r.depth ≠ r.sp := by
        intro e
        apply hc; left
        rw [← ha]
        simp [bucketAddr, e]
      show bucketAddr h _ _ = B
      rw [bucketAddr_next_other h r.depth r.sp hne]
      exact ha
  have mts : ∀ u ∈ bucketTuples r ch r.sp, ∃ h,
      tupleHash hash_any (midState r old ov1) u = some h ∧
      getLower h ((midState r old ov1).depth + 1) = f h ∧
      f h < (midState r old ov1).data.length := by
    intro u hu
    obtain ⟨h, hh, ha⟩ := hp r.sp hsp u hu
    have he := bucketAddr_eq_sp h r.depth r.sp hwf.sp_lt ha
    have hf : f h = h % 2 ^ (r.depth + 1) := bucketAddr_next_old h r.depth r.sp he
    refine ⟨h, hh, by rw [hf]; rfl, ?_⟩
    rw [hf, mlen, hlen]
    rcases mod_two_pow_succ_cases h r.depth with e | e <;> rw [e, he] <;> omega
  obtain ⟨r2, ch2, hre, hhd, hdl, hok2, hp2, hmem, hperm⟩ :=
    reinsertTuples_spec hash_any PAGESIZE HDR f _ _ _ mok mp mts
  rw [hre] at heq
  obtain ⟨f1, f2, f3, f4, f5, f6, f7, f8⟩ := afterSplit_fields r2
  obtain ⟨g1, g2, g3, g4, g5, g6⟩ := hhd
  have hd2 : r2.depth = r.depth := g2
  have hs2 : r2.sp = r.sp := g3
  have hn2 : r2.npages = r.npages + 1 := g4
  obtain ⟨c1, c2⟩ := next_counters r.depth r.sp hwf.sp_lt
  have hsub : ∀ u ∈ bucketTuples r ch r.sp ++ allTuples (midState r old ov1),
      u ∈ allTuples r := fun u hu => mall.subset hu
  refine ⟨afterSplit r2, ch2, heq, ⟨?_, ?_, ?_, ?_⟩, ?_, f1.trans g1, f2.trans g6,
    f3.trans g5, f4.trans hn2, by rw [f7, hd2, hs2], by rw [f8, hd2, hs2], ?_, ?_⟩
  · rw [f7, f8, hd2, hs2]; exact c1
  · rw [f4, f7, f8, hd2, hs2, hn2, hwf.npages_eq]; exact c2
  · rw [f5, f4, hdl, mlen, hn2, hwf.data_len]
  · exact chainsOK_files r2 _ ch2 f5 f6 hok2
  · intro B hB u hu
    rw [f5] at hB
    have e1 : bucketTuples (afterSplit r2) ch2 B = bucketTuples r2 ch2 B := by
      simp [bucketTuples, f5, f6]
    rw [e1] at hu
    obtain ⟨h, hh, ha⟩ := hp2 B hB u hu
    refine ⟨h, ?_, ?_⟩
    · rw [← hh]; simp [tupleHash, f1, f2]
    · rw [f7, f8, hd2, hs2]; exact ha
  · intro u hu
    have e1 : allTuples (afterSplit r2) = allTuples r2 := by simp [allTuples, f5, f6]
    rw [e1] at hu
    rcases hmem u hu with h1 | h1
    · exact hsub u (List.mem_append_left _ h1)
    · exact hsub u (List.mem_append_right _ h1)
  · intro hfit
    have e1 : allTuples (afterSplit r2) = allTuples r2 := by simp [allTuples, f5, f6]
    have e2 : storedTuples (afterSplit r2) ch2 = storedTuples r2 ch2 := by
      simp only [storedTuples, f5]
      apply List.flatMap_congr
      intro B _
      simp [bucketTuples, f5, f6]
    obtain ⟨p1, p2⟩ := hperm (fun u hu => hfit u (hsub u (List.mem_append_left _ hu)))
    rw [e1, e2]
    exact ⟨p1.trans mall, p2.trans mstored⟩

theorem wellFormed_bump (r : Reln) (ch : Nat → List Nat) (h : WellFormed r ch) :
    WellFormed (bumpNtups r) ch :=
  ⟨h.sp_lt, h.npages_eq, h.data_len, chainsOK_files r _ ch rfl rfl h.chains⟩

theorem placedBy_bump (hash_any : Tuple → Nat) (r : Reln) (ch : Nat → List Nat)
    (f : Nat → Nat) (h : PlacedBy hash_any r ch f) : PlacedBy hash_any (bumpNtups r) ch f :=
  fun B hB u hu => h B hB u hu

/-- What a call of `addToRelation` that returns does to a well-formed relation
in which every tuple is in the bucket of its hash. -/
theorem addToRelation_inv (hash_any : Tuple → Nat) (PAGESIZE HDR : Nat) (r r' : Reln)
    (ch : Nat → List Nat) (t : Tuple) (res : Option Nat) (hwf : WellFormed r ch)
    (hp : PlacedBy hash_any r ch (fun h => bucketAddr h r.depth r.sp))
    (hadd : addToRelation hash_any PAGESIZE HDR r t = some (r', res)) :
    ∃ ch', WellFormed r' ch' ∧
      PlacedBy hash_any r' ch' (fun h => bucketAddr h r'.depth r'.sp) ∧
      r'.nattrs = r.nattrs ∧ r'.cv = r.cv ∧
      (∀ u ∈ allTuples r', u = t ∨ u ∈ allTuples r) ∧
      ((res = none ∧ r'.ntups = r.ntups ∧ ¬ (t.length + 1 ≤ PAGESIZE - HDR) ∧
          (allTuples r').Perm (allTuples r) ∧
          (storedTuples r' ch').Perm (storedTuples r ch)) ∨
       (res ≠ none ∧ r'.ntups = r.ntups + 1 ∧ t.length + 1 ≤ PAGESIZE - HDR ∧
          ((∀ u ∈ allTuples r, u.length + 1 ≤ PAGESIZE - HDR) →
            (allTuples r').Perm (t :: allTuples r) ∧
            (storedTuples r' ch').Perm (t :: storedTuples r ch)))) := by
  obtain ⟨h, r1, hh, hcase⟩ := addToRelation_cases hash_any PAGESIZE HDR r r' t res hadd
  have hb : addToRelation_bucket r h = bucketAddr h r.depth r.sp :=
    bucketAddr_eq_addToRelation_bucket r h hwf.sp_lt
  have hB : addToRelation_bucket r h < r.data.length := by
    rw [hb, hwf.data_len, hwf.npages_eq]
    exact bucketAddr_lt h r.depth r.sp
  obtain ⟨r1', res1, ch1, hins, hstep⟩ :=
    insert_spec PAGESIZE HDR r ch (addToRelation_bucket r h) t hwf.chains hB
  -- facts about the state after the insertion
  have post : ∀ added, BucketStep r ch r1' ch1 (addToRelation_bucket r h) added →
      (∀ u ∈ added, u = t) →
      WellFormed r1' ch1 ∧
        PlacedBy hash_any r1' ch1 (fun h => bucketAddr h r1'.depth r1'.sp) := by
    intro added hs ha
    obtain ⟨g1, g2, g3, g4, g5, g6⟩ := hs.header
    refine ⟨⟨by rw [g2, g3]; exact hwf.sp_lt, by rw [g2, g3, g4]; exact hwf.npages_eq,
      by rw [hs.data_len, g4]; exact hwf.data_len, hs.chains⟩, ?_⟩
    rw [g2, g3]
    exact placedBy_step hash_any r r1' ch ch1 _ added _ hs hp
      (fun u hu => by rw [ha u hu]; exact ⟨h, hh, hb.symm⟩)
  rcases hcase with ⟨hi, hres, hr'⟩ | ⟨hi, hres, _, hsplit⟩
  · -- the insertion failed
    rw [hins] at hi
    simp only [Option.some.injEq, Prod.mk.injEq] at hi
    obtain ⟨e1, e2⟩ := hi
    subst e1 e2 hres
    rw [hr']
    rcases hstep with ⟨hx, _⟩ | ⟨_, hnf, hs⟩
    · cases hx
    obtain ⟨w1, w2⟩ := post [] hs (by simp)
    refine ⟨ch1, w1, w2, hs.header.1, hs.header.2.2.2.2.2, ?_, Or.inl ⟨rfl,
      hs.header.2.2.2.2.1, hnf, by simpa using hs.all, ?_⟩⟩
    · intro u hu; exact Or.inr (by simpa using hs.all.subset hu)
    · simpa using storedTuples_step r _ ch ch1 _ [] hs hB
  · -- the insertion succeeded
    rw [hins] at hi
    simp only [Option.some.injEq, Prod.mk.injEq] at hi
    obtain ⟨e1, e2⟩ := hi
    subst e1 e2 hres
    rcases hstep with ⟨_, hfit, hs⟩ | ⟨hx, _⟩
    swap
    · cases hx
    obtain ⟨w1, w2⟩ := post [t] hs (by simp)
    obtain ⟨g1, g2, g3, g4, g5, g6⟩ := hs.header
    have hall : (allTuples r1').Perm (t :: allTuples r) := by simpa using hs.all
    have hstored : (storedTuples r1' ch1).Perm (t :: storedTuples r ch) := by
      simpa using storedTuples_step r r1' ch ch1 _ [t] hs hB
    rcases hsplit with ⟨_, hsb⟩ | ⟨_, hr'⟩
    · -- with a split
      obtain ⟨r2, ch2, hsb2, v1, v2, v3, v4, v5, _, _, _, v6, v7⟩ :=
        splitBucket_spec hash_any PAGESIZE HDR (bumpNtups r1') ch1
          (wellFormed_bump _ _ w1) (placedBy_bump _ _ _ _ w2)
      rw [hsb] at hsb2
      cases hsb2
      refine ⟨ch2, v1, v2, v3.trans g1, v4.trans g6, ?_, Or.inr ⟨by simp,
        by rw [v5]; show r1'.ntups + 1 = _; rw [g5], hfit, ?_⟩⟩
      · intro u hu
        have := v6 u hu
        exact List.mem_cons.mp (hall.subset this)
      · intro hfits
        have hf1 : ∀ u ∈ allTuples (bumpNtups r1'), u.length + 1 ≤ PAGESIZE - HDR := by
          intro u hu
          rcases List.mem_cons.mp (hall.subset hu) with e | e
          · rw [e]; exact hfit
          · exact hfits u e
        obtain ⟨p1, p2⟩ := v7 hf1
        exact ⟨p1.trans hall, p2.trans hstored⟩
    · -- without a split
      rw [hr']
      refine ⟨ch1, wellFormed_bump _ _ w1, placedBy_bump _ _ _ _ w2, g1, g6, ?_,
        Or.inr ⟨by simp, by show r1'.ntups + 1 = _; rw [g5], hfit, fun _ => ⟨hall, hstored⟩⟩⟩
      intro u hu
      exact List.mem_cons.mp (hall.subset hu)

/-- On a well-formed relation in which every tuple is in the bucket of its
hash, `addToRelation` returns for every tuple with a defined hash, as long as
the split threshold is not zero. -/
theorem addToRelation_total (hash_any : Tuple → Nat) (PAGESIZE HDR : Nat) (r : Reln)
    (ch : Nat → List Nat) (t : Tuple) (h : Nat) (hwf : WellFormed r ch)
    (hp : PlacedBy hash_any r ch (fun h => bucketAddr h r.depth r.sp))
    (hh : tupleHash hash_any r t = some h) (hc : splitThreshold r ≠ 0) :
    ∃ r' res, addToRelation hash_any PAGESIZE HDR r t = some (r', res) := by
  have hb : addToRelation_bucket r h = bucketAddr h r.depth r.sp :=
    bucketAddr_eq_addToRelation_bucket r h hwf.sp_lt
  have hB : addToRelation_bucket r h < r.data.length := by
    rw [hb, hwf.data_len, hwf.npages_eq]
    exact bucketAddr_lt h r.depth r.sp
  obtain ⟨r1, res1, ch1, hins, hstep⟩ :=
    insert_spec PAGESIZE HDR r ch (addToRelation_bucket r h) t hwf.chains hB
  unfold addToRelation
  rw [hh]
  simp only [hins]
  rcases hstep with ⟨hres, _, hs⟩ | ⟨hres, _, _⟩
  swap
  · subst hres; exact ⟨_, _, rfl⟩
  subst hres
  simp only []
  obtain ⟨g1, g2, g3, g4, g5, g6⟩ := hs.header
  have hc1 : 1024 / (10 * r1.nattrs) ≠ 0 := by rw [g1]; exact hc
  have h10 : 10 * r1.nattrs ≠ 0 := by
    intro e; rw [e] at hc1; simp at hc1
  rw [if_neg h10, if_pos (Nat.succ_pos _), if_neg hc1]
  by_cases hm : (r1.ntups + 1) % (1024 / (10 * r1.nattrs)) = 0
  · rw [if_pos hm]
    have w1 : WellFormed (bumpNtups r1) ch1 :=
      ⟨by show r1.sp < 2 ^ r1.depth; rw [g2, g3]; exact hwf.sp_lt,
        by show r1.npages = 2 ^ r1.depth + r1.sp; rw [g2, g3, g4]; exact hwf.npages_eq,
        by show r1.data.length = r1.npages; rw [hs.data_len, g4]; exact hwf.data_len,
        chainsOK_files r1 _ ch1 rfl rfl hs.chains⟩
    have w2 : PlacedBy hash_any (bumpNtups r1) ch1
        (fun h => bucketAddr h (bumpNtups r1).depth (bumpNtups r1).sp) := by
      show PlacedBy hash_any (bumpNtups r1) ch1 (fun h => bucketAddr h r1.depth r1.sp)
      rw [g2, g3]
      exact placedBy_bump _ _ _ _ (placedBy_step hash_any r r1 ch ch1 _ [t] _ hs hp
        (fun u hu => by
          simp only [List.mem_singleton] at hu
          rw [hu]; exact ⟨h, hh, hb.symm⟩))
    obtain ⟨r2, ch2, hsb, _⟩ := splitBucket_spec hash_any PAGESIZE HDR (bumpNtups r1) ch1 w1 w2
    have : splitBucket hash_any PAGESIZE HDR { r1 with ntups := r1.ntups + 1 } = some r2 := hsb
    rw [this]
    exact ⟨_, _, rfl⟩
  · rw [if_neg hm]
    exact ⟨_, _, rfl⟩

theorem splitBucket_counters (hash_any : Tuple → Nat) (PAGESIZE HDR : Nat) (r r' : Reln)
    (h : splitBucket hash_any PAGESIZE HDR r = some r') :
    r'.npages = r.npages + 1 ∧ r'.depth = nextDepth r.depth r.sp ∧
      r'.sp = nextSp r.depth r.sp ∧ r'.nattrs = r.nattrs ∧ r'.ntups = r.ntups := by
  unfold splitBucket at h
  simp only [] at h
  repeat' split at h
  all_goals first
    | (rename_i hre _
       have hd := reinsertTuples_header _ _ _ _ _ _ hre
       obtain ⟨g1, g2, g3, g4, g5, _⟩ := hd
       simp only [Option.some.injEq] at h
       subst h
       simp_all [nextDepth, nextSp])
    | simp at h

theorem addToRelation_counters (hash_any : Tuple → Nat) (PAGESIZE HDR : Nat) (r r' : Reln)
    (t : Tuple) (res : Option Nat) (hsp : r.sp < 2 ^ r.depth)
    (hnp : r.npages = 2 ^ r.depth + r.sp)
    (hadd : addToRelation hash_any PAGESIZE HDR r t = some (r', res)) :
    r'.sp < 2 ^ r'.depth ∧ r'.npages = 2 ^ r'.depth + r'.sp := by
  obtain ⟨h, r1, _, hcase⟩ := addToRelation_cases hash_any PAGESIZE HDR r r' t res hadd
  rcases hcase with ⟨hi, _, hr'⟩ | ⟨hi, _, _, hsplit⟩
  · obtain ⟨_, g2, g3, g4, _, _⟩ := insertTupleIntoPageChain_header _ _ _ _ _ _ _ hi
    rw [hr', g2, g3, g4]
    exact ⟨hsp, hnp⟩
  · obtain ⟨_, g2, g3, g4, _, _⟩ := insertTupleIntoPageChain_header _ _ _ _ _ _ _ hi
    rcases hsplit with ⟨_, hsb⟩ | ⟨_, hr'⟩
    · obtain ⟨c1, c2, c3, _, _⟩ := splitBucket_counters _ _ _ _ _ hsb
      have e2 : (bumpNtups r1).depth = r.depth := g2
      have e3 : (bumpNtups r1).sp = r.sp := g3
      have e4 : (bumpNtups r1).npages = r.npages := g4
      rw [c1, c2, c3, e2, e3, e4, hnp]
      exact next_counters r.depth r.sp hsp
    · rw [hr']
      show r1.sp < 2 ^ r1.depth ∧ r1.npages = 2 ^ r1.depth + r1.sp
      rw [g2, g3, g4]
      exact ⟨hsp, hnp⟩

theorem splitThreshold_ne_zero (r : Reln) (h1 : 1 ≤ r.nattrs) (h2 : r.nattrs ≤ 102) :
    splitThreshold r ≠ 0 := by
  unfold splitThreshold
  have : 10 * r.nattrs ≤ 1024 := by omega
  have hpos : 0 < 10 * r.nattrs := by omega
  exact Nat.ne_of_gt (Nat.div_pos this hpos)

theorem length_allTuples (r : Reln) :
    (allTuples r).length = ((r.data ++ r.ovflow).map pageNTuples).sum := by
  unfold allTuples
  rw [List.length_flatMap]
  rfl

theorem invariant_step (hash_any : Tuple → Nat) (PAGESIZE HDR : Nat) (r r' : Reln)
    (ch : Nat → List Nat) (t : Tuple) (res : Option Nat)
    (hinv : Invariant hash_any PAGESIZE HDR r ch)
    (hadd : addToRelation hash_any PAGESIZE HDR r t = some (r', res)) :
    ∃ ch', Invariant hash_any PAGESIZE HDR r' ch' ∧ r'.nattrs = r.nattrs ∧ r'.cv = r.cv ∧
      ((res = none ∧ r'.ntups = r.ntups ∧ (storedTuples r' ch').Perm (storedTuples r ch)) ∨
       (res ≠ none ∧ r'.ntups = r.ntups + 1 ∧
          (storedTuples r' ch').Perm (t :: storedTuples r ch))) := by
  obtain ⟨ch', w1, w2, w3, w4, w5, hcase⟩ :=
    addToRelation_inv hash_any PAGESIZE HDR r r' ch t res hinv.wf hinv.placed hadd
  rcases hcase with ⟨h1, h2, _, h4, h5⟩ | ⟨h1, h2, h3, h4⟩
  · refine ⟨ch', ⟨w1, w2, ?_, ?_, ?_⟩, w3, w4, Or.inl ⟨h1, h2, h5⟩⟩
    · intro u hu; exact hinv.fits u (h4.subset hu)
    · rw [h4.length_eq, h2]; exact hinv.count
    · rw [h5.length_eq, h2]; exact hinv.stored
  · obtain ⟨p1, p2⟩ := h4 hinv.fits
    refine ⟨ch', ⟨w1, w2, ?_, ?_, ?_⟩, w3, w4, Or.inr ⟨h1, h2, p2⟩⟩
    · intro u hu
      rcases List.mem_cons.mp (p1.subset hu) with e | e
      · rw [e]; exact h3
      · exact hinv.fits u e
    · rw [p1.length_eq, h2, List.length_cons, hinv.count]
    · rw [p2.length_eq, h2, List.length_cons, hinv.stored]

theorem chainsOK_empty (r : Reln) (hd : ∀ pg ∈ r.data, pg.ovflow = none) :
    ChainsOK r (fun _ => []) := by
  refine ⟨?_, ?_⟩
  · intro B hB
    refine ⟨r.data[B], List.getElem?_eq_getElem hB, ?_⟩
    rw [isChain_nil]
    exact hd _ (List.getElem_mem hB)
  · intro _ _ _ _ _ q hq
    simp at hq

theorem invariant_fresh (hash_any : Tuple → Nat) (PAGESIZE HDR : Nat) (r : Reln)
    (h : Fresh r) : Invariant hash_any PAGESIZE HDR r (fun _ => []) := by
  obtain ⟨h1, h2, h3, h4, h5⟩ := h
  have hall : allTuples r = [] := by
    unfold allTuples
    rw [h4, h5, List.append_nil]
    simp only [List.flatMap_eq_nil_iff, List.mem_replicate]
    rintro x ⟨_, rfl⟩; rfl
  have hbt : ∀ B, bucketTuples r (fun _ => []) B = [] := by
    intro B
    simp only [bucketTuples, chainTuples, List.flatMap_nil, List.append_nil, pageTuplesAt]
    rw [h4, List.getElem?_replicate]
    split
    · rename_i hpg
      split at hpg
      · cases hpg; rfl
      · cases hpg
    · rfl
  have hst : storedTuples r (fun _ => []) = [] := by
    unfold storedTuples
    simp only [List.flatMap_eq_nil_iff]
    intro B _; exact hbt B
  refine ⟨⟨by rw [h1]; exact Nat.two_pow_pos _, by rw [h1]; exact h2, by rw [h4]; simp, ?_⟩,
    ?_, ?_, ?_, ?_⟩
  · apply chainsOK_empty
    intro pg hpg
    rw [h4] at hpg
    rw [(List.mem_replicate.mp hpg).2]; rfl
  · intro B _ u hu
    rw [hbt B] at hu; simp at hu
  · intro u hu; rw [hall] at hu; simp at hu
  · rw [hall, h3]; rfl
  · rw [hst, h3]; rfl

theorem invariant_reaches (hash_any : Tuple → Nat) (PAGESIZE HDR : Nat) (r0 r : Reln) (K : Nat)
    (hfresh : Fresh r0) (hreach : Reaches hash_any PAGESIZE HDR r0 K r) :
    ∃ ch, Invariant hash_any PAGESIZE HDR r ch ∧ r.ntups = K ∧ r.nattrs = r0.nattrs ∧
      r.cv = r0.cv := by
  induction hreach with
  | start => exact ⟨_, invariant_fresh hash_any PAGESIZE HDR r0 hfresh, hfresh.2.2.1, rfl, rfl⟩
  | failed K r r' t _ hadd ih =>
    obtain ⟨ch, hinv, hk, hn, hcv⟩ := ih
    obtain ⟨ch', hinv', e1, e2, hc⟩ := invariant_step _ _ _ _ _ _ _ _ hinv hadd
    rcases hc with ⟨_, h2, _⟩ | ⟨h1, _⟩
    · exact ⟨ch', hinv', h2.trans hk, e1.trans hn, e2.trans hcv⟩
    · exact absurd rfl h1
  | inserted K r r' t p _ hadd ih =>
    obtain ⟨ch, hinv, hk, hn, hcv⟩ := ih
    obtain ⟨ch', hinv', e1, e2, hc⟩ := invariant_step _ _ _ _ _ _ _ _ hinv hadd
    rcases hc with ⟨h1, _⟩ | ⟨_, h2, _⟩
    · cases h1
    · exact ⟨ch', hinv', by rw [h2, hk], e1.trans hn, e2.trans hcv⟩

/-- C1: `addToRelation` preserves the bucket placement.  If the counters
satisfy `sp < 2^depth` and `npages = 2^depth + sp`, there is one primary page
per bucket, the overflow chains are well formed, and every tuple stored in the
chain of a bucket `B` has a hash `H` with `B = addr(H, depth, sp)`, then after
any call that returns (with a page id or with `NO_PAGE`, with or without a
split) all of this holds again for the new state and its counters. -/
theorem addToRelation_preserves_placement (hash_any : Tuple → Nat) (PAGESIZE HDR : Nat)
    (r r' : Reln) (ch : Nat → List Nat) (t : Tuple) (res : Option Nat)
    (hwf : WellFormed r ch)
    (hp : PlacedBy hash_any r ch (fun h => bucketAddr h r.depth r.sp))
    (hadd : addToRelation hash_any PAGESIZE HDR r t = some (r', res)) :
    ∃ ch', WellFormed r' ch' ∧
      PlacedBy hash_any r' ch' (fun h => bucketAddr h r'.depth r'.sp) := by
  obtain ⟨ch', w1, w2, _⟩ :=
    addToRelation_inv hash_any PAGESIZE HDR r r' ch t res hwf hp hadd
  exact ⟨ch', w1, w2⟩

/-- C2: `addToRelation` preserves the counter invariant.  For a state with
`depth < 31`, `1 ≤ nattrs ≤ 102`, `sp < 2^depth` and `npages = 2^depth + sp`,
every state a call returns (successful or failed, with or without a split)
satisfies `sp < 2^depth` and `npages = 2^depth + sp`; and the call does return
when moreover the file is well formed, every stored tuple is in the bucket of
its hash, and the hash of the tuple is defined. -/
theorem addToRelation_preserves_counters (hash_any : Tuple → Nat) (PAGESIZE HDR : Nat)
    (r : Reln) (t : Tuple) (_hdepth : r.depth < 31) (hn1 : 1 ≤ r.nattrs)
    (hn2 : r.nattrs ≤ 102) (hsp : r.sp < 2 ^ r.depth)
    (hnp : r.npages = 2 ^ r.depth + r.sp) :
    (∀ r' res, addToRelation hash_any PAGESIZE HDR r t = some (r', res) →
      r'.sp < 2 ^ r'.depth ∧ r'.npages = 2 ^ r'.depth + r'.sp) ∧
    (∀ ch h, r.data.length = r.npages → ChainsOK r ch →
      PlacedBy hash_any r ch (fun h => bucketAddr h r.depth r.sp) →
      tupleHash hash_any r t = some h →
      ∃ r' res, addToRelation hash_any PAGESIZE HDR r t = some (r', res)) := by
  refine ⟨?_, ?_⟩
  · intro r' res hadd
    exact addToRelation_counters hash_any PAGESIZE HDR r r' t res hsp hnp hadd
  · intro ch h hlen hok hp hh
    exact addToRelation_total hash_any PAGESIZE HDR r ch t h ⟨hsp, hnp, hlen, hok⟩ hp hh
      (splitThreshold_ne_zero r hn1 hn2)

/-- C3: in every state reached from a freshly created relation by calls of
`addToRelation`, `ntups` is the sum of `pageNTuples` over all primary and all
overflow pages, and it is the number `K` of calls that returned a page id. -/
theorem ntups_counts_tuples (hash_any : Tuple → Nat) (PAGESIZE HDR : Nat) (r0 r : Reln)
    (K : Nat) (hfresh : Fresh r0) (hreach : Reaches hash_any PAGESIZE HDR r0 K r) :
    r.ntups = ((r.data ++ r.ovflow).map pageNTuples).sum ∧ r.ntups = K := by
  obtain ⟨ch, hinv, hk, _⟩ := invariant_reaches hash_any PAGESIZE HDR r0 r K hfresh hreach
  exact ⟨by rw [← length_allTuples, hinv.count], hk⟩

theorem addToRelation_preserves_placement_witness :
    ∃ ch', WellFormed exReln1 ch' ∧
      PlacedBy exHash exReln1 ch' (fun h => bucketAddr h exReln1.depth exReln1.sp) :=
  addToRelation_preserves_placement exHash 128 12 exReln exReln1 (fun _ => []) exTuple (some 0)
    (invariant_fresh exHash 128 12 exReln ⟨rfl, rfl, rfl, rfl, rfl⟩).wf
    (invariant_fresh exHash 128 12 exReln ⟨rfl, rfl, rfl, rfl, rfl⟩).placed
    (by decide)

theorem addToRelation_preserves_counters_witness :
    exReln.depth < 31 ∧ 1 ≤ exReln.nattrs ∧ exReln.nattrs ≤ 102 ∧
      exReln.sp < 2 ^ exReln.depth ∧ exReln.npages = 2 ^ exReln.depth + exReln.sp ∧
      exReln1.sp < 2 ^ exReln1.depth ∧ exReln1.npages = 2 ^ exReln1.depth + exReln1.sp :=
  ⟨by decide, by decide, by decide, by decide, by decide,
    (addToRelation_preserves_counters exHash 128 12 exReln exTuple (by decide) (by decide)
      (by decide) (by decide) (by decide)).1 exReln1 (some 0) (by decide)⟩

theorem ntups_counts_tuples_witness :
    exReln1.ntups = ((exReln1.data ++ exReln1.ovflow).map pageNTuples).sum ∧
      exReln1.ntups = 1 :=
  ntups_counts_tuples exHash 128 12 exReln exReln1 1 ⟨rfl, rfl, rfl, rfl, rfl⟩
    (Reaches.inserted 0 exReln exReln1 exTuple 0 Reaches.start (by decide))

theorem addToRelation_bucket_rule_witness :
    exReln.sp < 2 ^ exReln.depth ∧ addToRelation_bucket exReln 5121 = 0 :=
  ⟨by decide,
    ((addToRelation_bucket_rule exHash 128 12 exReln 5121 (by decide)).2.1 rfl)⟩

theorem tupleHash_bits_witness :
    ∃ H, tupleHash exHash exReln exTuple = some H ∧ tupleHash1 exHash exReln exTuple = some H ∧
      ∀ i, i < 32 →
        (H.testBit i = true ↔
          (exHash ((tupleVals exTuple).getD (exReln.cv.getD i ⟨0, 0⟩).att [])).testBit
            (exReln.cv.getD i ⟨0, 0⟩).bit = true) :=
  tupleHash_bits exHash exReln exTuple
    (by
      intro i hi
      have hi' : i < 32 := hi
      interval_cases i <;> exact ⟨_, rfl, by decide, by decide⟩)
    (by decide)

theorem packBits_lt : ∀ (bs : List Bool), packBits bs < 2 ^ bs.length := by
  intro bs
  induction bs with
  | nil => simp [packBits]
  | cons b bs ih =>
    simp only [packBits, List.length_cons, pow_succ]
    split <;> omega

theorem testBit_packBits : ∀ (bs : List Bool) (i : Nat),
    (packBits bs).testBit i = bs.getD i false := by
  intro bs
  induction bs with
  | nil => intro i; simp [packBits]
  | cons b bs ih =>
    intro i
    cases i with
    | zero =>
      simp only [packBits, Nat.testBit_zero, List.getD_cons_zero]
      cases b <;> simp [Nat.add_mod]
    | succ i =>
      simp only [packBits, List.getD_cons_succ, Nat.testBit_succ]
      rw [← ih i]
      congr 1
      cases b
      · simp
      · simp; omega

theorem assembleBits_testBit : ∀ (bits : List Bool) (i cand j : Nat),
    (assembleBits bits i cand).testBit j =
      (cand.testBit j || (decide (i ≤ j) && bits.getD (j - i) false)) := by
  intro bits
  induction bits with
  | nil => intro i cand j; simp [assembleBits]
  | cons b bits ih =>
    intro i cand j
    simp only [assembleBits]
    rw [ih]
    by_cases hij : i = j
    · subst hij
      have h1 : ¬ (i + 1 ≤ i) := by omega
      cases b <;> simp [testBit_setBit, h1]
    · by_cases hlt : i ≤ j
      · have h1 : i + 1 ≤ j := by omega
        have h2 : j - i = (j - (i + 1)) + 1 := by omega
        rw [h2, List.getD_cons_succ]
        cases b <;> simp [testBit_setBit, hij, h1, hlt]
      · have h1 : ¬ (i + 1 ≤ j) := by omega
        cases b <;> simp [testBit_setBit, hij, h1, hlt]

theorem setUnknownBits_spec (c : Nat) : ∀ (pos : List Nat) (i : Nat) (bits : List Bool),
    pos.Nodup →
    (setUnknownBits c pos i bits).length = bits.length ∧
    ∀ j, (setUnknownBits c pos i bits)[j]? =
      if j ∈ pos ∧ j < bits.length then some (c.testBit (i + pos.indexOf j)) else bits[j]? := by
  intro pos
  induction pos with
  | nil => intro i bits _; simp [setUnknownBits]
  | cons q pos ih =>
    intro i bits hnd
    obtain ⟨hq, hnd'⟩ := List.nodup_cons.mp hnd
    obtain ⟨h1, h2⟩ := ih (i + 1) (bits.set q (c.testBit i)) hnd'
    simp only [setUnknownBits]
    refine ⟨by rw [h1]; simp, ?_⟩
    intro j
    rw [h2 j]
    simp only [List.length_set, List.mem_cons]
    by_cases hjq : j = q
    · subst hjq
      simp only [hq, false_and, if_false, true_or, true_and]
      by_cases hlt : j < bits.length
      · rw [List.getElem?_set_self hlt, if_pos hlt, List.indexOf_cons_eq _ rfl]
        simp
      · rw [if_neg hlt, List.getElem?_eq_none (by simp; omega),
          List.getElem?_eq_none (by omega)]
    · have hne : q ≠ j := fun e => hjq e.symm
      simp only [hjq, false_or]
      by_cases hc : j ∈ pos ∧ j < bits.length
      · rw [if_pos hc, if_pos hc, List.indexOf_cons_ne _ hne]
        congr 2
        omega
      · rw [if_neg hc, if_neg hc, List.getElem?_set_ne hne]

theorem candidateOf_testBit (known unknown numBits c j : Nat) :
    (candidateOf known unknown numBits c).testBit j =
      if j < numBits then
        (if unknown.testBit j then c.testBit (unknownIndex unknown numBits j)
         else known.testBit j)
      else false := by
  unfold candidateOf unknownIndex
  rw [assembleBits_testBit]
  have hnd : ((List.range numBits).filter (fun i => bitIsSet unknown i)).Nodup :=
    (List.nodup_range numBits).filter _
  obtain ⟨h1, h2⟩ := setUnknownBits_spec c _ 0
    ((List.range numBits).map (fun i => bitIsSet known i)) hnd
  simp only [Nat.zero_testBit, Bool.false_or, Nat.zero_le, decide_True, Bool.true_and,
    Nat.sub_zero, List.getD_eq_getElem?_getD]
  rw [h2 j]
  simp only [List.length_map, List.length_range, List.mem_filter, List.mem_range, bitIsSet,
    Nat.zero_add]
  by_cases hj : j < numBits
  · by_cases hu : unknown.testBit j = true
    · simp [hj, hu]
    · simp [hj, hu, List.getElem?_range hj]
  · have hn : (List.range numBits)[j]? = none :=
      List.getElem?_eq_none (by simp; omega)
    simp [hj, hn]

theorem genCandidates_eq (known unknown numBits : Nat) :
    genCandidates known unknown numBits =
      (List.range (2 ^ ((List.range numBits).filter
        (fun i => bitIsSet unknown i)).length)).map (candidateOf known unknown numBits) := rfl

/-- Soundness and completeness of `genCandidates`: the list holds exactly the
numbers below `2^numBits` that agree with `known` on every bit that is not
unknown. -/
theorem mem_genCandidates (known unknown numBits x : Nat) :
    x ∈ genCandidates known unknown numBits ↔
      x < 2 ^ numBits ∧
        ∀ j, j < numBits → unknown.testBit j = false → x.testBit j = known.testBit j := by
  rw [genCandidates_eq]
  simp only [List.mem_map, List.mem_range]
  constructor
  · rintro ⟨c, _, rfl⟩
    refine ⟨Nat.lt_pow_two_of_testBit _ (fun i hi => ?_), fun j hj hu => ?_⟩
    · rw [candidateOf_testBit, if_neg (by omega)]
    · rw [candidateOf_testBit, if_pos hj, hu]; simp
  · rintro ⟨hlt, hx⟩
    let pos := (List.range numBits).filter (fun i => bitIsSet unknown i)
    refine ⟨packBits (pos.map x.testBit), ?_, ?_⟩
    · have := packBits_lt (pos.map x.testBit)
      simpa using this
    · apply Nat.eq_of_testBit_eq
      intro j
      rw [candidateOf_testBit]
      by_cases hj : j < numBits
      · rw [if_pos hj]
        by_cases hu : unknown.testBit j = true
        · rw [if_pos hu, testBit_packBits]
          have hmem : j ∈ pos := by
            simp only [pos, List.mem_filter, List.mem_range, bitIsSet]
            exact ⟨hj, hu⟩
          have hidx : pos.indexOf j < pos.length := List.indexOf_lt_length.mpr hmem
          show (List.map x.testBit pos).getD (pos.indexOf j) false = _
          rw [List.getD_eq_getElem?_getD, List.getElem?_map,
            List.getElem?_eq_getElem hidx, List.getElem_indexOf hidx]
          rfl
        · simp only [Bool.not_eq_true] at hu
          rw [hu]
          simp only [Bool.false_eq_true, if_false]
          exact (hx j hj hu).symm
      · rw [if_neg hj]
        exact (Nat.testBit_lt_two_pow (lt_of_lt_of_le hlt
          (Nat.pow_le_pow_right (by omega) (by omega)))).symm

theorem genCandidates_nodup (known unknown numBits : Nat) :
    (genCandidates known unknown numBits).Nodup := by
  rw [genCandidates_eq]
  apply List.Nodup.map_on _ (List.nodup_range _)
  intro c1 h1 c2 h2 he
  have h1' := List.mem_range.mp h1
  have h2' := List.mem_range.mp h2
  let pos := (List.range numBits).filter (fun i => bitIsSet unknown i)
  have hnd : pos.Nodup := (List.nodup_range numBits).filter _
  apply Nat.eq_of_testBit_eq
  intro i
  by_cases hi : i < pos.length
  · have hmem : pos[i] ∈ pos := List.getElem_mem hi
    have hm : pos[i] < numBits ∧ unknown.testBit pos[i] = true := by
      have := List.mem_filter.mp hmem
      exact ⟨List.mem_range.mp this.1, this.2⟩
    have e1 := candidateOf_testBit known unknown numBits c1 pos[i]
    have e2 := candidateOf_testBit known unknown numBits c2 pos[i]
    rw [if_pos hm.1, if_pos hm.2] at e1 e2
    have hidx : unknownIndex unknown numBits pos[i] = i := List.indexOf_getElem hnd i hi
    rw [hidx] at e1 e2
    rw [← e1, ← e2, he]
  · have hle : pos.length ≤ i := by omega
    rw [Nat.testBit_lt_two_pow (lt_of_lt_of_le h1' (Nat.pow_le_pow_right (by omega) hle)),
      Nat.testBit_lt_two_pow (lt_of_lt_of_le h2' (Nat.pow_le_pow_right (by omega) hle))]

theorem maskLoop_spec (hash_any : Tuple → Nat) (cv : List ChVecItem) (vals : List Tuple) :
    ∀ (n i known unknown : Nat),
      (∀ j, i ≤ j → j < i + n → ∃ item, cv[j]? = some item ∧ item.att < vals.length) →
      ∃ k u, maskLoop hash_any cv vals n i known unknown = some (k, u) ∧
        (∀ j, k.testBit j =
          (known.testBit j ||
            (decide (i ≤ j ∧ j < i + n) && (!decide (valAt cv vals j = ['*']) &&
              (hash_any (valAt cv vals j)).testBit (cv.getD j ⟨0, 0⟩).bit)))) ∧
        (∀ j, u.testBit j =
          (unknown.testBit j ||
            (decide (i ≤ j ∧ j < i + n) && decide (valAt cv vals j = ['*'])))) := by
  intro n
  induction n with
  | zero =>
    intro i known unknown _
    refine ⟨known, unknown, rfl, ?_, ?_⟩
    · intro j
      have : ¬ (i ≤ j ∧ j < i + 0) := by omega
      simp [this]
    · intro j
      have : ¬ (i ≤ j ∧ j < i + 0) := by omega
      simp [this]
  | succ n ih =>
    intro i known unknown hcv
    obtain ⟨item, hitem, hatt⟩ := hcv i (le_refl _) (by omega)
    have hv : vals[item.att]? = some vals[item.att] := List.getElem?_eq_getElem hatt
    have e1 : cv.getD i ⟨0, 0⟩ = item := by simp [List.getD_eq_getElem?_getD, hitem]
    have e2 : valAt cv vals i = vals[item.att] := by
      unfold valAt
      rw [e1, List.getD_eq_getElem?_getD, hv]
      rfl
    have hII : i ≤ i ∧ i < i + (n + 1) := by omega
    have hI1 : ¬ (i + 1 ≤ i ∧ i < i + 1 + n) := by omega
    have hJ : ∀ j, i ≠ j → ((i + 1 ≤ j ∧ j < i + 1 + n) ↔ (i ≤ j ∧ j < i + (n + 1))) := by
      intro j hj; omega
    by_cases hstar : vals[item.att] = ['*']
    · obtain ⟨k, u, hku, hk, hu⟩ := ih (i + 1) known (setBit unknown i)
        (fun j h1 h2 => hcv j (by omega) (by omega))
      refine ⟨k, u, ?_, ?_, ?_⟩
      · simp only [maskLoop, hitem, hv, hstar, ne_eq, not_true_eq_false, if_false]
        exact hku
      · intro j
        rw [hk j]
        by_cases hij : i = j
        · subst hij
          simp [hI1, hII, e2, hstar]
        · simp only [hJ j hij]
      · intro j
        rw [hu j, testBit_setBit]
        by_cases hij : i = j
        · subst hij
          simp [hI1, hII, e2, hstar]
        · simp only [hJ j hij, hij, decide_False, Bool.or_false]
    · obtain ⟨k, u, hku, hk, hu⟩ := ih (i + 1)
        (if bitIsSet (hash_any vals[item.att]) item.bit then setBit known i else known) unknown
        (fun j h1 h2 => hcv j (by omega) (by omega))
      refine ⟨k, u, ?_, ?_, ?_⟩
      · simp only [maskLoop, hitem, hv, hstar, ne_eq, not_false_eq_true, if_true]
        exact hku
      · intro j
        rw [hk j]
        by_cases hij : i = j
        · subst hij
          rw [e1, e2]
          by_cases hb : bitIsSet (hash_any vals[item.att]) item.bit = true
          · have hb' : (hash_any vals[item.att]).testBit item.bit = true := hb
            simp [hI1, hII, hstar, hb, hb', testBit_setBit]
          · have hb' : (hash_any vals[item.att]).testBit item.bit = false := by
              simpa [bitIsSet] using hb
            simp [hI1, hII, hstar, hb, hb']
        · simp only [hJ j hij]
          split <;> simp [testBit_setBit, hij]
      · intro j
        rw [hu j]
        by_cases hij : i = j
        · subst hij
          simp [hI1, hII, e2, hstar]
        · simp only [hJ j hij]

theorem parseQuery_length (nattrs : Nat) (q : Tuple) : (parseQuery nattrs q).length = nattrs := by
  simp only [parseQuery, List.length_append, List.length_take, List.length_replicate]
  omega

theorem queryVals_length (qv : List Tuple) : (queryVals qv).length = qv.length := by
  simp [queryVals]

theorem mem_mergeCandidates (known unknown d sp x : Nat) :
    x ∈ mergeCandidates known unknown d sp ↔
      (x ∈ genCandidates known unknown d ∧ sp ≤ x) ∨
      (x ∈ genCandidates known unknown (d + 1) ∧ x % 2 ^ d < sp) := by
  simp [mergeCandidates, List.mem_append, List.mem_filter, Nat.and_pow_two_sub_one_eq_mod]

theorem mergeCandidates_nodup (known unknown d sp : Nat) :
    (mergeCandidates known unknown d sp).Nodup := by
  unfold mergeCandidates
  apply List.Nodup.append
  · exact (genCandidates_nodup _ _ _).filter _
  · exact (genCandidates_nodup _ _ _).filter _
  · intro x h1 h2
    simp only [List.mem_filter, decide_eq_true_eq, Nat.and_pow_two_sub_one_eq_mod] at h1 h2
    have hlt := ((mem_genCandidates _ _ _ _).mp h1.1).1
    rw [Nat.mod_eq_of_lt hlt] at h2
    omega

theorem mergeCandidates_lt (known unknown d sp x : Nat)
    (h : x ∈ mergeCandidates known unknown d sp) : x < 2 ^ d + sp := by
  rcases (mem_mergeCandidates _ _ _ _ _).mp h with ⟨h1, _⟩ | ⟨h1, h2⟩
  · have := ((mem_genCandidates _ _ _ _).mp h1).1
    omega
  · have := ((mem_genCandidates _ _ _ _).mp h1).1
    rcases mod_two_pow_succ_cases x d with e | e
    · rw [Nat.mod_eq_of_lt this] at e
      rw [← e] at h2
      omega
    · rw [Nat.mod_eq_of_lt this] at e
      generalize x % 2 ^ d = y at *
      generalize 2 ^ d = a at *
      omega

theorem matchPattern_literal (v q : Tuple) (h1 : q ≠ ['?']) (h2 : '%' ∉ q)
    (h : matchPattern v q = true) : v = q := by
  simpa [matchPattern, h1, h2] using h

theorem queryVals_getD (qv : List Tuple) (a : Nat) (ha : a < qv.length)
    (h : (queryVals qv).getD a [] ≠ ['*']) :
    (queryVals qv).getD a [] = qv.getD a [] ∧ qv.getD a [] ≠ ['?'] ∧ '%' ∉ qv.getD a [] := by
  have e : (queryVals qv).getD a [] =
      if qv.getD a [] = ['?'] ∨ '%' ∈ qv.getD a [] then ['*'] else qv.getD a [] := by
    simp [queryVals, List.getD_eq_getElem?_getD, List.getElem?_map,
      List.getElem?_eq_getElem ha]
  rw [e] at h ⊢
  by_cases hc : qv.getD a [] = ['?'] ∨ '%' ∈ qv.getD a []
  · rw [if_pos hc] at h; exact absurd rfl h
  · rw [if_neg hc]
    exact ⟨rfl, fun e => hc (Or.inl e), fun e => hc (Or.inr e)⟩

/-- The masks that `startSelection` computes for the query `q`. -/
theorem queryMasks_spec (hash_any : Tuple → Nat) (r : Reln) (q : Tuple) (hcv : ValidCV r) :
    ∃ k u, maskLoop hash_any r.cv (queryVals (parseQuery r.nattrs q)) MAXBITS 0 0 0 =
        some (k, u) ∧
      (∀ j, k.testBit j =
        (decide (j < MAXBITS) &&
          (!decide (valAt r.cv (queryVals (parseQuery r.nattrs q)) j = ['*']) &&
            (hash_any (valAt r.cv (queryVals (parseQuery r.nattrs q)) j)).testBit
              (r.cv.getD j ⟨0, 0⟩).bit))) ∧
      (∀ j, u.testBit j =
        (decide (j < MAXBITS) &&
          decide (valAt r.cv (queryVals (parseQuery r.nattrs q)) j = ['*']))) := by
  obtain ⟨k, u, h1, h2, h3⟩ := maskLoop_spec hash_any r.cv
    (queryVals (parseQuery r.nattrs q)) MAXBITS 0 0 0
    (fun j _ hj => by
      obtain ⟨item, e1, e2, _⟩ := hcv j (by omega)
      exact ⟨item, e1, by rw [queryVals_length, parseQuery_length]; exact e2⟩)
  refine ⟨k, u, h1, ?_, ?_⟩
  · intro j; rw [h2 j]; simp
  · intro j; rw [h3 j]; simp

/-- What `startSelection` returns on a relation with a valid choice vector
whose buckets all have a primary page. -/
theorem startSelection_spec (hash_any : Tuple → Nat) (r : Reln) (q : Tuple) (k u : Nat)
    (hmask : maskLoop hash_any r.cv (queryVals (parseQuery r.nattrs q)) MAXBITS 0 0 0 =
      some (k, u))
    (hlen : r.data.length = 2 ^ r.depth + r.sp) :
    ∃ s, startSelection hash_any r q = some s ∧ s.rel = r ∧
      s.queryValues = parseQuery r.nattrs q ∧ s.nattrs = r.nattrs ∧
      s.candidates = mergeCandidates k u r.depth r.sp ∧
      s.ncandidates = s.candidates.length ∧ s.currCandidate = 0 ∧ s.curtupIndex = 0 ∧
      (∀ c0 rest, s.candidates = c0 :: rest → ∃ pg, r.data[c0]? = some pg ∧ s.curpage = some pg) ∧
      (s.candidates = [] → s.curpage = none) := by
  unfold startSelection
  simp only [hmask]
  rcases hc : mergeCandidates k u r.depth r.sp with _ | ⟨c0, rest⟩
  · exact ⟨_, rfl, rfl, rfl, rfl, rfl, rfl, rfl, rfl, by simp, fun _ => rfl⟩
  · have hlt : c0 < r.data.length := by
      rw [hlen]
      exact mergeCandidates_lt k u r.depth r.sp c0 (by rw [hc]; exact List.mem_cons_self _ _)
    simp only [getPage, List.getElem?_eq_getElem hlt]
    refine ⟨_, rfl, rfl, rfl, rfl, rfl, rfl, rfl, rfl, ?_, by simp⟩
    intro c0' rest' e
    simp only [List.cons.injEq] at e
    obtain ⟨e1, _⟩ := e
    subst e1
    exact ⟨_, List.getElem?_eq_getElem hlt, rfl⟩

/-- The hash of a tuple that matches the query agrees with `known` on every
bit that is not unknown. -/
theorem matching_hash_bits (hash_any : Tuple → Nat) (r : Reln) (q t : Tuple) (k u H : Nat)
    (hcv : ValidCV r)
    (hk : ∀ j, k.testBit j =
        (decide (j < MAXBITS) &&
          (!decide (valAt r.cv (queryVals (parseQuery r.nattrs q)) j = ['*']) &&
            (hash_any (valAt r.cv (queryVals (parseQuery r.nattrs q)) j)).testBit
              (r.cv.getD j ⟨0, 0⟩).bit)))
    (hu : ∀ j, u.testBit j =
        (decide (j < MAXBITS) &&
          decide (valAt r.cv (queryVals (parseQuery r.nattrs q)) j = ['*'])))
    (hH : ∀ i, H.testBit i = (decide (i < MAXBITS) && cvBit hash_any r t i))
    (hm : MatchesQuery (parseQuery r.nattrs q) t) :
    ∀ j, u.testBit j = false → H.testBit j = k.testBit j := by
  intro j huj
  rw [hH j, hk j]
  by_cases hj : j < MAXBITS
  · rw [hu j] at huj
    simp only [hj, decide_True, Bool.true_and, decide_eq_false_iff_not] at huj ⊢
    obtain ⟨item, e1, e2, _⟩ := hcv j hj
    have e3 : r.cv.getD j ⟨0, 0⟩ = item := by simp [List.getD_eq_getElem?_getD, e1]
    have ha : item.att < (parseQuery r.nattrs q).length := by
      rw [parseQuery_length]; exact e2
    have hv : valAt r.cv (queryVals (parseQuery r.nattrs q)) j =
        (queryVals (parseQuery r.nattrs q)).getD item.att [] := by
      unfold valAt
      rw [e3]
    rw [hv] at huj ⊢
    obtain ⟨f1, f2, f3⟩ := queryVals_getD _ _ ha huj
    have hfield := matchPattern_literal _ _ f2 f3 (hm item.att ha)
    simp only [huj, decide_False, Bool.not_false, Bool.true_and, cvBit, e3]
    rw [f1, hfield]
  · simp [hj]

theorem mod_two_pow_testBit_agree (H k u n : Nat)
    (h : ∀ j, u.testBit j = false → H.testBit j = k.testBit j) :
    H % 2 ^ n ∈ genCandidates k u n := by
  rw [mem_genCandidates]
  refine ⟨Nat.mod_lt _ (Nat.two_pow_pos n), ?_⟩
  intro j hj huj
  rw [Nat.testBit_mod_two_pow]
  simp [hj, h j huj]

theorem bucketAddr_mem_mergeCandidates (H k u d sp : Nat)
    (h : ∀ j, u.testBit j = false → H.testBit j = k.testBit j) :
    bucketAddr H d sp ∈ mergeCandidates k u d sp := by
  rw [mem_mergeCandidates]
  unfold bucketAddr
  by_cases hlt : H % 2 ^ d < sp
  · rw [if_pos hlt]
    right
    refine ⟨mod_two_pow_testBit_agree H k u (d + 1) h, ?_⟩
    rw [Nat.mod_mod_of_dvd _ (pow_dvd_pow 2 (Nat.le_succ d))]
    exact hlt
  · rw [if_neg hlt]
    left
    exact ⟨mod_two_pow_testBit_agree H k u d h, by omega⟩

theorem sameQuery_refl (s : Selection) : SameQuery s s := ⟨rfl, rfl, rfl, rfl, rfl⟩

theorem sameQuery_trans (s s1 s2 : Selection) (h1 : SameQuery s s1) (h2 : SameQuery s1 s2) :
    SameQuery s s2 :=
  ⟨h2.rel.trans h1.rel, h2.queryValues.trans h1.queryValues, h2.nattrs.trans h1.nattrs,
    h2.candidates.trans h1.candidates, h2.ncandidates.trans h1.ncandidates⟩

theorem selOK_sameQuery (s s' : Selection) (r : Reln) (ch : Nat → List Nat)
    (h : SelOK s r ch) (hq : SameQuery s s') : SelOK s' r ch :=
  ⟨hq.rel.trans h.rel, by rw [hq.ncandidates, hq.candidates]; exact h.ncand,
    by rw [hq.queryValues, hq.nattrs]; exact h.nquery,
    by rw [hq.candidates]; exact h.cands, h.chains⟩

theorem matchTuple_eq (s : Selection) (t : Tuple) (hq : s.queryValues.length = s.nattrs)
    (ht : (tupleVals t).length = s.nattrs) :
    matchTuple s t = some (matchesValues s.queryValues t) := by
  simp [matchTuple, matchesValues, hq, ht]

theorem restTuples_cons (r : Reln) (ch : Nat → List Nat) (cands : List Nat) (c B : Nat)
    (h : cands[c]? = some B) :
    restTuples r ch cands c = bucketTuples r ch B ++ restTuples r ch cands (c + 1) := by
  obtain ⟨hlt, hget⟩ := List.getElem?_eq_some.mp h
  unfold restTuples
  rw [List.drop_eq_getElem_cons hlt, List.flatMap_cons, hget]

theorem restWork_cons (r : Reln) (ch : Nat → List Nat) (cands : List Nat) (c B : Nat)
    (h : cands[c]? = some B) :
    restWork r ch cands c = bucketWork r ch B + restWork r ch cands (c + 1) := by
  obtain ⟨hlt, hget⟩ := List.getElem?_eq_some.mp h
  unfold restWork
  rw [List.drop_eq_getElem_cons hlt, List.map_cons, List.sum_cons, hget]

theorem restTuples_nil (r : Reln) (ch : Nat → List Nat) (cands : List Nat) (c : Nat)
    (h : cands.length ≤ c) : restTuples r ch cands c = [] := by
  unfold restTuples
  rw [List.drop_eq_nil_of_le h]
  rfl

theorem chainTuples_cons (ov : List Page) (q : Nat) (l : List Nat) (pg : Page)
    (h : ov[q]? = some pg) : chainTuples ov (q :: l) = pg.tuples ++ chainTuples ov l := by
  simp [chainTuples, List.flatMap_cons, pageTuplesAt, h]

/-- Loop step: the primary page of the next candidate is loaded. -/
theorem step_load (s : Selection) (B : Nat) (pg : Page)
    (hlt : s.currCandidate < s.ncandidates) (hpage : s.curpage = none)
    (hget : s.candidates[s.currCandidate]? = some B) (hpg : s.rel.data[B]? = some pg) :
    ∃ s4, (∀ fuel, getNextTupleLoop (fuel + 1) s = getNextTupleLoop fuel s4) ∧
      SameQuery s s4 ∧ s4.currCandidate = s.currCandidate ∧ s4.curpage = some pg ∧
      s4.curtupIndex = 0 :=
  ⟨{ s with curPageId := B, curScanPageId := B, is_ovflow := 0, curtupIndex := 0,
            curtupOffset := 0, curpage := some pg },
    fun fuel => by simp only [getNextTupleLoop, hlt, if_true, hpage, hget, getPage, hpg],
    ⟨rfl, rfl, rfl, rfl, rfl⟩, rfl, rfl, rfl⟩

/-- Loop step: the next tuple of the current page is tested. -/
theorem step_tuple (s : Selection) (pg : Page) (u : Tuple)
    (hlt : s.currCandidate < s.ncandidates) (hpage : s.curpage = some pg)
    (hi : s.curtupIndex < pg.tuples.length) (hget : pg.tuples[s.curtupIndex]? = some u)
    (hq : s.queryValues.length = s.nattrs) (hu : (tupleVals u).length = s.nattrs) :
    ∃ s1, SameQuery s s1 ∧ s1.currCandidate = s.currCandidate ∧ s1.curpage = some pg ∧
      s1.curtupIndex = s.curtupIndex + 1 ∧
      (matchesValues s.queryValues u = true →
        ∀ fuel, getNextTupleLoop (fuel + 1) s = some (s1, some u)) ∧
      (matchesValues s.queryValues u = false →
        ∀ fuel, getNextTupleLoop (fuel + 1) s = getNextTupleLoop fuel s1) := by
  refine ⟨{ s with curtupOffset := s.curtupOffset + (u.length + 1),
                   curtupIndex := s.curtupIndex + 1 },
    ⟨rfl, rfl, rfl, rfl, rfl⟩, rfl, hpage, rfl, ?_, ?_⟩
  · intro hm fuel
    unfold matchesValues at hm
    simp only [getNextTupleLoop, hlt, if_true, hpage, pageNTuples, hi, hget, matchTuple, hq, hu,
      and_self, hm]
  · intro hm fuel
    unfold matchesValues at hm
    simp only [getNextTupleLoop, hlt, if_true, hpage, pageNTuples, hi, hget, matchTuple, hq, hu,
      and_self, hm]

/-- Loop step: the scan moves on to the next overflow page. -/
theorem step_next_page (s : Selection) (pg npg : Page) (q : Nat)
    (hlt : s.currCandidate < s.ncandidates) (hpage : s.curpage = some pg)
    (hi : ¬ s.curtupIndex < pg.tuples.length) (hov : pg.ovflow = some q)
    (hnpg : s.rel.ovflow[q]? = some npg) :
    ∃ s2, (∀ fuel, getNextTupleLoop (fuel + 1) s = getNextTupleLoop fuel s2) ∧
      SameQuery s s2 ∧ s2.currCandidate = s.currCandidate ∧ s2.curpage = some npg ∧
      s2.curtupIndex = 0 :=
  ⟨{ s with is_ovflow := 1, curScanPageId := q, curtupIndex := 0, curtupOffset := 0,
            curpage := some npg },
    fun fuel => by
      simp only [getNextTupleLoop, hlt, if_true, hpage, pageNTuples, hi, if_false, pageOvflow,
        hov, getPage, hnpg],
    ⟨rfl, rfl, rfl, rfl, rfl⟩, rfl, rfl, rfl⟩

/-- Loop step: the bucket of the current candidate is done. -/
theorem step_end_bucket (s : Selection) (pg : Page)
    (hlt : s.currCandidate < s.ncandidates) (hpage : s.curpage = some pg)
    (hi : ¬ s.curtupIndex < pg.tuples.length) (hov : pg.ovflow = none) :
    ∃ s3, (∀ fuel, getNextTupleLoop (fuel + 1) s = getNextTupleLoop fuel s3) ∧
      SameQuery s s3 ∧ s3.currCandidate = s.currCandidate + 1 ∧ s3.curpage = none :=
  ⟨{ s with curpage := none, currCandidate := s.currCandidate + 1 },
    fun fuel => by
      simp only [getNextTupleLoop, hlt, if_true, hpage, pageNTuples, hi, if_false, pageOvflow,
        hov],
    ⟨rfl, rfl, rfl, rfl, rfl⟩, rfl, rfl⟩

/-- Loop step: no candidate is left, the scan returns `NULL`. -/
theorem step_eof (s : Selection) (hlt : ¬ s.currCandidate < s.ncandidates) (fuel : Nat) :
    getNextTupleLoop (fuel + 1) s = some (s, none) := by
  simp only [getNextTupleLoop, hlt, if_false]

/-- One call of `getNextTuple`, with enough fuel: it returns the first
pending tuple that matches, and stands right behind it; or it returns `NULL`
when no pending tuple matches, and nothing is pending afterwards. -/
theorem getNextTupleLoop_spec (r : Reln) (ch : Nat → List Nat) :
    ∀ (n : Nat) (s : Selection) (pos : ScanPos), SelOK s r ch → Abstracts s pos →
      (∀ t ∈ pos.stream r ch s.candidates, (tupleVals t).length = s.nattrs) →
      pos.work r ch s.candidates ≤ n →
      ∀ fuel, n + 1 ≤ fuel →
      ∃ s' res pos', getNextTupleLoop fuel s = some (s', res) ∧ SameQuery s s' ∧
        Abstracts s' pos' ∧
        pos'.work r ch s.candidates ≤ pos.work r ch s.candidates ∧
        (firstMatch (matchesValues s.queryValues) (pos.stream r ch s.candidates) = none →
          res = none ∧ pos'.stream r ch s.candidates = []) ∧
        (∀ u post,
          firstMatch (matchesValues s.queryValues) (pos.stream r ch s.candidates) =
            some (u, post) →
          res = some u ∧ pos'.stream r ch s.candidates = post) := by
  intro n
  induction n with
  | zero =>
    intro s pos hok habs _ hw fuel hf
    obtain ⟨fuel, rfl⟩ : ∃ k, fuel = k + 1 := ⟨fuel - 1, by omega⟩
    cases pos with
    | atPage c pg i l =>
      simp only [ScanPos.work] at hw
      omega
    | between c =>
      obtain ⟨hc, hpage⟩ := habs
      by_cases hlt : c < s.ncandidates
      · rw [hok.ncand] at hlt
        have hget : s.candidates[c]? = some s.candidates[c] := List.getElem?_eq_getElem hlt
        simp only [ScanPos.work, restWork_cons r ch _ c _ hget, bucketWork] at hw
        omega
      · have hnil : restTuples r ch s.candidates c = [] :=
          restTuples_nil r ch _ c (by rw [← hok.ncand]; omega)
        have hltc : ¬ s.currCandidate < s.ncandidates := by rw [hc]; exact hlt
        refine ⟨s, none, ScanPos.between c, step_eof s hltc fuel, sameQuery_refl s,
          ⟨hc, hpage⟩, le_refl _, fun _ => ⟨rfl, hnil⟩, ?_⟩
        intro u post h
        simp [ScanPos.stream, hnil, firstMatch] at h
  | succ n ih =>
    intro s pos hok habs hfields hw fuel hf
    obtain ⟨fuel, rfl⟩ : ∃ k, fuel = k + 1 := ⟨fuel - 1, by omega⟩
    have hf' : n + 1 ≤ fuel := by omega
    -- one loop step to a state `s1` at `pos1` with the same pending tuples
    have pass : ∀ (s1 : Selection) (pos1 : ScanPos),
        (∀ fuel, getNextTupleLoop (fuel + 1) s = getNextTupleLoop fuel s1) →
        SameQuery s s1 → Abstracts s1 pos1 →
        firstMatch (matchesValues s.queryValues) (pos1.stream r ch s.candidates) =
          firstMatch (matchesValues s.queryValues) (pos.stream r ch s.candidates) →
        (∀ t ∈ pos1.stream r ch s.candidates, (tupleVals t).length = s.nattrs) →
        pos1.work r ch s.candidates + 1 = pos.work r ch s.candidates →
        ∃ s' res pos', getNextTupleLoop (fuel + 1) s = some (s', res) ∧ SameQuery s s' ∧
          Abstracts s' pos' ∧
          pos'.work r ch s.candidates ≤ pos.work r ch s.candidates ∧
          (firstMatch (matchesValues s.queryValues) (pos.stream r ch s.candidates) = none →
            res = none ∧ pos'.stream r ch s.candidates = []) ∧
          (∀ u post,
            firstMatch (matchesValues s.queryValues) (pos.stream r ch s.candidates) =
              some (u, post) →
            res = some u ∧ pos'.stream r ch s.candidates = post) := by
      intro s1 pos1 hstep hq1 habs1 hfm hfl hwork
      have hw1 : pos1.work r ch s1.candidates ≤ n := by
        rw [hq1.candidates]; omega
      obtain ⟨s', res, pos', h1, h2, h3, h4, h5, h6⟩ := ih s1 pos1
        (selOK_sameQuery s s1 r ch hok hq1) habs1
        (by rw [hq1.candidates, hq1.nattrs]; exact hfl) hw1 fuel hf'
      rw [hq1.candidates] at h4 h5 h6
      rw [hq1.queryValues, hfm] at h5 h6
      exact ⟨s', res, pos', by rw [hstep]; exact h1, sameQuery_trans _ _ _ hq1 h2, h3,
        by omega, h5, h6⟩
    cases pos with
    | between c =>
      obtain ⟨hc, hpage⟩ := habs
      by_cases hlt : c < s.ncandidates
      · -- load the primary page of the next candidate
        have hlt' : c < s.candidates.length := by rw [← hok.ncand]; exact hlt
        have hget : s.candidates[c]? = some s.candidates[c] := List.getElem?_eq_getElem hlt'
        have hBlt : s.candidates[c] < r.data.length := hok.cands _ (List.getElem_mem hlt')
        obtain ⟨pg, hpg, hchain⟩ := hok.chains.chain _ hBlt
        obtain ⟨s4, hstep, hq4, e1, e2, e3⟩ := step_load s s.candidates[c] pg
          (by rw [hc]; exact hlt) hpage (by rw [hc]; exact hget) (by rw [hok.rel]; exact hpg)
        have hstream : (ScanPos.atPage c pg 0 (ch s.candidates[c])).stream r ch s.candidates =
            (ScanPos.between c).stream r ch s.candidates := by
          simp only [ScanPos.stream, List.drop_zero, restTuples_cons r ch _ c _ hget,
            bucketTuples, pageTuplesAt_eq _ _ _ hpg, List.append_assoc]
        apply pass s4 (ScanPos.atPage c pg 0 (ch s.candidates[c])) hstep hq4
        · exact ⟨e1.trans hc, by rw [hq4.ncandidates]; exact hlt, e2, e3,
            by rw [hq4.rel, hok.rel]; exact hchain⟩
        · rw [hstream]
        · rw [hstream]; exact hfields
        · simp only [ScanPos.work, restWork_cons r ch _ c _ hget, bucketWork,
            pageTuplesAt_eq _ _ _ hpg]
          omega
      · have hnil : restTuples r ch s.candidates c = [] :=
          restTuples_nil r ch _ c (by rw [← hok.ncand]; omega)
        have hltc : ¬ s.currCandidate < s.ncandidates := by rw [hc]; exact hlt
        refine ⟨s, none, ScanPos.between c, step_eof s hltc fuel, sameQuery_refl s,
          ⟨hc, hpage⟩, le_refl _, fun _ => ⟨rfl, hnil⟩, ?_⟩
        intro u post h
        simp [ScanPos.stream, hnil, firstMatch] at h
    | atPage c pg i l =>
      obtain ⟨hc, hlt, hpage, hidx, hchain⟩ := habs
      have hltc : s.currCandidate < s.ncandidates := by rw [hc]; exact hlt
      by_cases hi : i < pg.tuples.length
      · -- look at the next tuple of the page
        have hget : pg.tuples[i]? = some pg.tuples[i] := List.getElem?_eq_getElem hi
        have hdrop : pg.tuples.drop i = pg.tuples[i] :: pg.tuples.drop (i + 1) :=
          List.drop_eq_getElem_cons hi
        have hstream : (ScanPos.atPage c pg i l).stream r ch s.candidates =
            pg.tuples[i] :: (ScanPos.atPage c pg (i + 1) l).stream r ch s.candidates := by
          simp only [ScanPos.stream, hdrop, List.cons_append]
        have hfl : (tupleVals pg.tuples[i]).length = s.nattrs :=
          hfields _ (by rw [hstream]; exact List.mem_cons_self _ _)
        obtain ⟨s1, hq1, e1, e2, e3, hyes, hno⟩ := step_tuple s pg pg.tuples[i] hltc hpage
          (by rw [hidx]; exact hi) (by rw [hidx]; exact hget) hok.nquery hfl
        have habs1 : Abstracts s1 (ScanPos.atPage c pg (i + 1) l) :=
          ⟨e1.trans hc, by rw [hq1.ncandidates]; exact hlt, e2, by rw [e3, hidx],
            by rw [hq1.rel]; exact hchain⟩
        have hwork : (ScanPos.atPage c pg (i + 1) l).work r ch s.candidates + 1 =
            (ScanPos.atPage c pg i l).work r ch s.candidates := by
          simp only [ScanPos.work]; omega
        by_cases hm : matchesValues s.queryValues pg.tuples[i] = true
        · refine ⟨s1, some pg.tuples[i], ScanPos.atPage c pg (i + 1) l, hyes hm fuel, hq1,
            habs1, by omega, ?_, ?_⟩
          · intro h
            rw [hstream] at h
            simp [firstMatch, hm] at h
          · intro u post h
            rw [hstream] at h
            simp only [firstMatch, hm, if_true, Option.some.injEq, Prod.mk.injEq] at h
            exact ⟨by rw [h.1], h.2⟩
        · have hm' : matchesValues s.queryValues pg.tuples[i] = false := by
            simpa using hm
          apply pass s1 (ScanPos.atPage c pg (i + 1) l) (hno hm') hq1 habs1
          · rw [hstream]
            simp only [firstMatch, hm', Bool.false_eq_true, if_false]
          · intro t ht
            exact hfields t (by rw [hstream]; exact List.mem_cons_of_mem _ ht)
          · exact hwork
      · -- the page is done
        have hdrop : pg.tuples.drop i = [] := List.drop_eq_nil_of_le (by omega)
        have hsub : pg.tuples.length - i = 0 := by omega
        have hi' : ¬ s.curtupIndex < pg.tuples.length := by rw [hidx]; exact hi
        cases l with
        | nil =>
          rw [isChain_nil] at hchain
          obtain ⟨s3, hstep, hq3, e1, e2⟩ := step_end_bucket s pg hltc hpage hi' hchain
          have hstream : (ScanPos.between (c + 1)).stream r ch s.candidates =
              (ScanPos.atPage c pg i []).stream r ch s.candidates := by
            simp [ScanPos.stream, hdrop, chainTuples]
          apply pass s3 (ScanPos.between (c + 1)) hstep hq3 ⟨by rw [e1, hc], e2⟩
          · rw [hstream]
          · rw [hstream]; exact hfields
          · simp only [ScanPos.work, hsub, List.map_nil, List.sum_nil]; omega
        | cons q l =>
          rw [isChain_cons] at hchain
          obtain ⟨hov, npg, hnpg, hl⟩ := hchain
          obtain ⟨s2, hstep, hq2, e1, e2, e3⟩ :=
            step_next_page s pg npg q hltc hpage hi' hov hnpg
          have hnpg' : r.ovflow[q]? = some npg := by rw [← hok.rel]; exact hnpg
          have hstream : (ScanPos.atPage c npg 0 l).stream r ch s.candidates =
              (ScanPos.atPage c pg i (q :: l)).stream r ch s.candidates := by
            simp only [ScanPos.stream, hdrop, List.drop_zero, List.nil_append,
              chainTuples_cons _ _ _ _ hnpg', List.append_assoc]
          apply pass s2 (ScanPos.atPage c npg 0 l) hstep hq2
            ⟨e1.trans hc, by rw [hq2.ncandidates]; exact hlt, e2, e3, by rw [hq2.rel]; exact hl⟩
          · rw [hstream]
          · rw [hstream]; exact hfields
          · simp only [ScanPos.work, hsub, List.map_cons, List.sum_cons,
              pageTuplesAt_eq _ _ _ hnpg']
            omega

theorem firstMatch_none (m : Tuple → Bool) :
    ∀ (S : List Tuple), firstMatch m S = none → S.filter m = [] := by
  intro S
  induction S with
  | nil => intro _; rfl
  | cons u S ih =>
    intro h
    simp only [firstMatch] at h
    by_cases hm : m u = true
    · simp [hm] at h
    · simp only [hm, Bool.false_eq_true, if_false] at h
      simp [List.filter_cons, hm, ih h]

theorem firstMatch_some (m : Tuple → Bool) :
    ∀ (S : List Tuple) (u : Tuple) (post : List Tuple), firstMatch m S = some (u, post) →
      S.filter m = u :: post.filter m ∧ post.length < S.length ∧ ∀ t ∈ post, t ∈ S := by
  intro S
  induction S with
  | nil => intro u post h; simp [firstMatch] at h
  | cons v S ih =>
    intro u post h
    simp only [firstMatch] at h
    by_cases hm : m v = true
    · simp only [hm, if_true, Option.some.injEq, Prod.mk.injEq] at h
      obtain ⟨rfl, rfl⟩ := h
      exact ⟨by simp [List.filter_cons, hm], by simp, fun t ht => List.mem_cons_of_mem _ ht⟩
    · simp only [hm, Bool.false_eq_true, if_false] at h
      obtain ⟨h1, h2, h3⟩ := ih u post h
      refine ⟨by simp [List.filter_cons, hm, h1], by simp; omega,
        fun t ht => List.mem_cons_of_mem _ (h3 t ht)⟩

/-- Calling `getNextTuple` until it returns `NULL` lists the pending tuples
that match, in scan order. -/
theorem selectAll_spec (r : Reln) (ch : Nat → List Nat) :
    ∀ (k : Nat) (s : Selection) (pos : ScanPos), SelOK s r ch → Abstracts s pos →
      (∀ t ∈ pos.stream r ch s.candidates, (tupleVals t).length = s.nattrs) →
      (pos.stream r ch s.candidates).length ≤ k →
      ∀ fuel calls, pos.work r ch s.candidates + 1 ≤ fuel → k + 1 ≤ calls →
      selectAll fuel calls s =
        some ((pos.stream r ch s.candidates).filter (matchesValues s.queryValues)) := by
  intro k
  induction k with
  | zero =>
    intro s pos hok habs hfields hlen fuel calls hf hc
    obtain ⟨calls, rfl⟩ : ∃ j, calls = j + 1 := ⟨calls - 1, by omega⟩
    have hnil : pos.stream r ch s.candidates = [] := List.length_eq_zero.mp (by omega)
    obtain ⟨s', res, pos', h1, _, _, _, h5, _⟩ :=
      getNextTupleLoop_spec r ch _ s pos hok habs hfields (le_refl _) fuel hf
    obtain ⟨hres, _⟩ := h5 (by rw [hnil]; rfl)
    subst hres
    simp only [selectAll, h1, hnil, List.filter_nil]
  | succ k ih =>
    intro s pos hok habs hfields hlen fuel calls hf hc
    obtain ⟨calls, rfl⟩ : ∃ j, calls = j + 1 := ⟨calls - 1, by omega⟩
    obtain ⟨s', res, pos', h1, h2, h3, h4, h5, h6⟩ :=
      getNextTupleLoop_spec r ch _ s pos hok habs hfields (le_refl _) fuel hf
    rcases hfm : firstMatch (matchesValues s.queryValues) (pos.stream r ch s.candidates)
      with _ | ⟨u, post⟩
    · obtain ⟨hres, _⟩ := h5 hfm
      subst hres
      simp only [selectAll, h1, firstMatch_none _ _ hfm]
    · obtain ⟨hres, hpost⟩ := h6 u post hfm
      subst hres
      obtain ⟨f1, f2, f3⟩ := firstMatch_some _ _ u post hfm
      have hrec := ih s' pos' (selOK_sameQuery s s' r ch hok h2) h3
        (by
          rw [h2.candidates, h2.nattrs, hpost]
          intro t ht; exact hfields t (f3 t ht))
        (by rw [h2.candidates, hpost]; omega) fuel calls
        (by rw [h2.candidates]; omega) (by omega)
      rw [h2.candidates, h2.queryValues, hpost] at hrec
      simp only [selectAll, h1, hrec, f1]

theorem matchTupleLoop_iff : ∀ (vs qv : List Tuple), vs.length = qv.length →
    (matchTupleLoop vs qv = true ↔
      ∀ i, i < qv.length → matchPattern (vs.getD i []) (qv.getD i []) = true) := by
  intro vs
  induction vs with
  | nil =>
    intro qv h
    have : qv = [] := List.length_eq_zero.mp h.symm
    subst this
    simp [matchTupleLoop]
  | cons v vs ih =>
    intro qv h
    cases qv with
    | nil => simp at h
    | cons q qv =>
      simp only [List.length_cons, Nat.add_right_cancel_iff] at h
      simp only [matchTupleLoop, List.length_cons]
      constructor
      · intro hm i hi
        by_cases hp : matchPattern v q = true
        · rw [if_pos hp] at hm
          cases i with
          | zero => simpa using hp
          | succ i =>
            simp only [List.getD_cons_succ]
            exact (ih qv h).mp hm i (by omega)
        · rw [if_neg hp] at hm; cases hm
      · intro hall
        have h0 := hall 0 (by omega)
        simp only [List.getD_cons_zero] at h0
        rw [if_pos h0]
        apply (ih qv h).mpr
        intro i hi
        have := hall (i + 1) (by omega)
        simpa using this

theorem matchesValues_iff (qv : List Tuple) (t : Tuple) (h : (tupleVals t).length = qv.length) :
    matchesValues qv t = decide (MatchesQuery qv t) := by
  unfold matchesValues MatchesQuery
  rw [Bool.eq_iff_iff, matchTupleLoop_iff _ _ h]
  simp

theorem tupleHash_some_length (hash_any : Tuple → Nat) (r : Reln) (t : Tuple) (h : Nat)
    (hh : tupleHash hash_any r t = some h) : (tupleVals t).length = r.nattrs := by
  unfold tupleHash at hh
  by_contra hne
  simp [hne] at hh

/-- Scanning the candidates gives the same multiset as scanning all buckets,
when the buckets left out hold no tuple of interest. -/
theorem flatMap_candidates_perm {α : Type} (g : Nat → List α) (cands : List Nat) (n : Nat)
    (hnd : cands.Nodup) (hlt : ∀ B ∈ cands, B < n)
    (hout : ∀ B, B < n → B ∉ cands → g B = []) :
    (cands.flatMap g).Perm ((List.range n).flatMap g) := by
  have hperm : (List.range n).Perm (cands ++ (List.range n).filter (fun B => decide (B ∉ cands))) := by
    rw [List.perm_ext_iff_of_nodup (List.nodup_range n)]
    · intro B
      simp only [List.mem_range, List.mem_append, List.mem_filter, decide_eq_true_eq]
      constructor
      · intro hB
        by_cases hc : B ∈ cands
        · exact Or.inl hc
        · exact Or.inr ⟨hB, hc⟩
      · rintro (hc | ⟨hB, _⟩)
        · exact hlt B hc
        · exact hB
    · apply List.Nodup.append hnd ((List.nodup_range n).filter _)
      intro B h1 h2
      simp only [List.mem_filter, decide_eq_true_eq] at h2
      exact h2.2 h1
  have h1 := List.Perm.flatMap_right g hperm
  rw [List.flatMap_append] at h1
  have h2 : ((List.range n).filter (fun B => decide (B ∉ cands))).flatMap g = [] := by
    rw [List.flatMap_eq_nil_iff]
    intro B hB
    simp only [List.mem_filter, List.mem_range, decide_eq_true_eq] at hB
    exact hout B hB.1 hB.2
  rw [h2, List.append_nil] at h1
  exact h1.symm

theorem filter_flatMap_buckets {α : Type} (m : α → Bool) (g : Nat → List α) :
    ∀ (l : List Nat), (l.flatMap g).filter m = l.flatMap (fun B => (g B).filter m) := by
  intro l
  induction l with
  | nil => rfl
  | cons B l ih => simp only [List.flatMap_cons, List.filter_append, ih]

/-- In a well-formed relation every stored tuple that matches the query lies
in a bucket of the candidate list computed from the masks. -/
theorem matching_bucket_is_candidate (hash_any : Tuple → Nat) (r : Reln)
    (ch : Nat → List Nat) (q t : Tuple) (k u B : Nat)
    (hp : PlacedBy hash_any r ch (fun h => bucketAddr h r.depth r.sp)) (hcv : ValidCV r)
    (hk : ∀ j, k.testBit j =
        (decide (j < MAXBITS) &&
          (!decide (valAt r.cv (queryVals (parseQuery r.nattrs q)) j = ['*']) &&
            (hash_any (valAt r.cv (queryVals (parseQuery r.nattrs q)) j)).testBit
              (r.cv.getD j ⟨0, 0⟩).bit)))
    (hu : ∀ j, u.testBit j =
        (decide (j < MAXBITS) &&
          decide (valAt r.cv (queryVals (parseQuery r.nattrs q)) j = ['*'])))
    (hB : B < r.data.length) (ht : t ∈ bucketTuples r ch B)
    (hm : MatchesQuery (parseQuery r.nattrs q) t) :
    B ∈ mergeCandidates k u r.depth r.sp := by
  obtain ⟨h', hh', hb⟩ := hp B hB t ht
  have hfields := tupleHash_some_length hash_any r t h' hh'
  obtain ⟨H, hH, hbits⟩ := tupleHash_spec hash_any r t hcv hfields
  have hHh : H = h' := Option.some.inj (hH.symm.trans hh')
  rw [← hb, ← hHh]
  apply bucketAddr_mem_mergeCandidates
  exact matching_hash_bits hash_any r q t k u H hcv hk hu hbits hm

/-- The scan of a whole selection: `startSelection` returns a selection whose
candidate list is computed from the query masks, and calling `getNextTuple`
until it returns `NULL` lists, up to order, the stored tuples that match the
query on every attribute. -/
theorem scan_from_start (hash_any : Tuple → Nat) (r : Reln) (ch : Nat → List Nat) (q : Tuple)
    (hwf : WellFormed r ch)
    (hp : PlacedBy hash_any r ch (fun h => bucketAddr h r.depth r.sp)) (hcv : ValidCV r) :
    ∃ s k u, startSelection hash_any r q = some s ∧
      s.queryValues = parseQuery r.nattrs q ∧
      s.candidates = mergeCandidates k u r.depth r.sp ∧
      (∀ j, u.testBit j =
        (decide (j < MAXBITS) &&
          decide (valAt r.cv (queryVals (parseQuery r.nattrs q)) j = ['*']))) ∧
      ∃ N, ∀ fuel calls, N ≤ fuel → N ≤ calls →
        ∃ out, selectAll fuel calls s = some out ∧
          out.Perm ((storedTuples r ch).filter
            (fun t => decide (MatchesQuery (parseQuery r.nattrs q) t))) := by
  obtain ⟨k, u, hmask, hk, hu⟩ := queryMasks_spec hash_any r q hcv
  have hlen : r.data.length = 2 ^ r.depth + r.sp := by rw [hwf.data_len, hwf.npages_eq]
  obtain ⟨s, hs, hrel, hq, hna, hc, hnc, hcur, hidx, hfirst, hempty⟩ :=
    startSelection_spec hash_any r q k u hmask hlen
  have hcl : ∀ B ∈ s.candidates, B < r.data.length := by
    intro B hB
    rw [hc] at hB
    rw [hlen]
    exact mergeCandidates_lt _ _ _ _ _ hB
  have hok : SelOK s r ch :=
    ⟨hrel, hnc, by rw [hq, hna, parseQuery_length], hcl, hwf.chains⟩
  have hpos : ∃ pos, Abstracts s pos ∧
      pos.stream r ch s.candidates = s.candidates.flatMap (bucketTuples r ch) := by
    rcases hcs : s.candidates with _ | ⟨c0, rest⟩
    · refine ⟨ScanPos.between 0, ⟨hcur, hempty hcs⟩, ?_⟩
      simp [ScanPos.stream, restTuples]
    · obtain ⟨pg, hpg, hcp⟩ := hfirst c0 rest hcs
      obtain ⟨pg', hpg', hchain⟩ := hwf.chains.chain c0 (hcl c0 (by rw [hcs]; simp))
      rw [hpg] at hpg'
      cases hpg'
      refine ⟨ScanPos.atPage 0 pg 0 (ch c0),
        ⟨hcur, by rw [hnc, hcs]; simp, hcp, hidx, by rw [hrel]; exact hchain⟩, ?_⟩
      simp [ScanPos.stream, restTuples, bucketTuples, pageTuplesAt, hpg]
  obtain ⟨pos, habs, hstream⟩ := hpos
  have hfields : ∀ t ∈ pos.stream r ch s.candidates, (tupleVals t).length = s.nattrs := by
    intro t ht
    rw [hstream, List.mem_flatMap] at ht
    obtain ⟨B, hB, htB⟩ := ht
    obtain ⟨h', hh', _⟩ := hp B (hcl B hB) t htB
    rw [hna]
    exact tupleHash_some_length hash_any r t h' hh'
  refine ⟨s, k, u, hs, hq, hc, hu,
    pos.work r ch s.candidates + (pos.stream r ch s.candidates).length + 1, ?_⟩
  intro fuel calls hf hcalls
  have hrun := selectAll_spec r ch _ s pos hok habs hfields (le_refl _) fuel calls
    (by omega) (by omega)
  refine ⟨_, hrun, ?_⟩
  have hcongr : (pos.stream r ch s.candidates).filter (matchesValues s.queryValues) =
      (pos.stream r ch s.candidates).filter
        (fun t => decide (MatchesQuery (parseQuery r.nattrs q) t)) := by
    apply List.filter_congr
    intro t ht
    rw [matchesValues_iff _ _ (by rw [hfields t ht, hok.nquery]), hq]
  rw [hcongr, hstream, filter_flatMap_buckets]
  unfold storedTuples
  rw [filter_flatMap_buckets]
  apply flatMap_candidates_perm
  · rw [hc]; exact mergeCandidates_nodup _ _ _ _
  · exact hcl
  · intro B hB hnot
    rw [List.filter_eq_nil_iff]
    intro t ht hm
    apply hnot
    rw [hc]
    exact matching_bucket_is_candidate hash_any r ch q t k u B hp hcv hk hu hB ht
      (of_decide_eq_true hm)

theorem exCV_valid (n d sp np nt : Nat) (da ov : List Page) (hn : 2 ≤ n) :
    ValidCV ⟨n, d, sp, np, nt, exCV, da, ov⟩ := by
  intro i hi
  have hi' : i < 32 := hi
  refine ⟨⟨i % 2, i / 2⟩, ?_, ?_, ?_⟩
  · simp [exCV, List.getElem?_map, List.getElem?_range hi']
  · show i % 2 < n
    omega
  · show i / 2 < 32
    omega

theorem exReln1_wf : WellFormed exReln1 (fun _ => []) := by
  refine ⟨by decide, by decide, by decide, ?_⟩
  apply chainsOK_empty
  decide

theorem exReln1_placed :
    PlacedBy exHash exReln1 (fun _ => []) (fun h => bucketAddr h exReln1.depth exReln1.sp) := by
  intro B hB u hu
  have hB' : B < 2 := hB
  interval_cases B
  · simp [bucketTuples, pageTuplesAt, chainTuples, exReln1, newPage] at hu
  · have : u = exTuple := by
      simpa [bucketTuples, pageTuplesAt, chainTuples, exReln1] using hu
    subst this
    exact ⟨_, rfl, by decide⟩

/-- C6: the round trip fails for a tuple with an empty field.  The tuple `,b`
has two fields and is inserted into the one-bucket relation `exReln2` with
success; the selection started with the text `,b` as its query has the query
values `b` and `?`, and its first call of `getNextTuple` returns `NULL`: no
tuple is returned. -/
theorem roundtrip_empty_field :
    (tupleVals exEmptyField).length = exReln2.nattrs ∧
      addToRelation exHash 128 12 exReln2 exEmptyField = some (exReln2a, some 0) ∧
      exEmptyField ∈ storedTuples exReln2a (fun _ => []) ∧
      (startSelection exHash exReln2a exEmptyField).map (fun s => s.queryValues) =
        some [['b'], ['?']] ∧
      (startSelection exHash exReln2a exEmptyField).bind (selectAll 8 8) = some [] := by
  refine ⟨by decide, by decide, by decide, by decide, by decide⟩

/-- The counters after one returning call of `addToRelation`. -/
theorem addToRelation_split_step (hash_any : Tuple → Nat) (PAGESIZE HDR : Nat)
    (r r' : Reln) (t : Tuple) (res : Option Nat)
    (hadd : addToRelation hash_any PAGESIZE HDR r t = some (r', res)) :
    r'.nattrs = r.nattrs ∧
      ((res = none ∧ r'.ntups = r.ntups ∧ r'.npages = r.npages ∧ r'.depth = r.depth ∧
          r'.sp = r.sp) ∨
       (res ≠ none ∧ r'.ntups = r.ntups + 1 ∧ splitThreshold r ≠ 0 ∧
          (((r.ntups + 1) % splitThreshold r = 0 ∧ r'.npages = r.npages + 1 ∧
              r'.depth = nextDepth r.depth r.sp ∧ r'.sp = nextSp r.depth r.sp) ∨
           ((r.ntups + 1) % splitThreshold r ≠ 0 ∧ r'.npages = r.npages ∧
              r'.depth = r.depth ∧ r'.sp = r.sp)))) := by
  obtain ⟨h, r1, _, hcase⟩ := addToRelation_cases hash_any PAGESIZE HDR r r' t res hadd
  rcases hcase with ⟨hins, hres, hr'⟩ | ⟨hins, hres, hc, hsplit⟩
  · obtain ⟨a1, a2, a3, a4, a5, _⟩ := insertTupleIntoPageChain_header PAGESIZE HDR r r1 _ _ t hins
    subst hr'
    exact ⟨a1, Or.inl ⟨hres, a5, a4, a2, a3⟩⟩
  · obtain ⟨a1, a2, a3, a4, a5, _⟩ := insertTupleIntoPageChain_header PAGESIZE HDR r r1 _ _ t hins
    have hthr : splitThreshold r1 = splitThreshold r := by unfold splitThreshold; rw [a1]
    rw [hthr, a5] at hsplit
    rw [hthr] at hc
    rcases hsplit with ⟨hm, hsb⟩ | ⟨hm, hr'⟩
    · obtain ⟨b1, b2, b3, b4, b5⟩ := splitBucket_counters hash_any PAGESIZE HDR _ r' hsb
      simp only [bumpNtups] at b1 b2 b3 b4 b5
      refine ⟨b4.trans a1, Or.inr ⟨by rw [hres]; simp, by rw [b5, a5], hc, Or.inl ⟨hm, ?_, ?_, ?_⟩⟩⟩
      · rw [b1, a4]
      · rw [b2, a2, a3]
      · rw [b3, a2, a3]
    · subst hr'
      simp only [bumpNtups]
      exact ⟨a1, Or.inr ⟨by rw [hres]; simp, by rw [a5], hc, Or.inr ⟨hm, a4, a2, a3⟩⟩⟩

/-- The counters of every state reached from a fresh relation. -/
theorem reaches_counters (hash_any : Tuple → Nat) (PAGESIZE HDR : Nat) (r0 r : Reln) (K : Nat)
    (hfresh : Fresh r0) (hreach : Reaches hash_any PAGESIZE HDR r0 K r) :
    r.nattrs = r0.nattrs ∧ r.ntups = K ∧ r.sp < 2 ^ r.depth ∧
      r.npages = 2 ^ r.depth + r.sp ∧ r0.npages ≤ r.npages ∧
      (1 ≤ splitThreshold r0 → r.npages = r0.npages + K / splitThreshold r0) := by
  induction hreach with
  | start =>
    obtain ⟨f1, f2, f3, _, _⟩ := hfresh
    refine ⟨rfl, f3, by rw [f1]; exact Nat.two_pow_pos _, by rw [f1, f2]; rfl, le_refl _, ?_⟩
    intro _
    simp
  | failed K r r' t _ hadd ih =>
    obtain ⟨i1, i2, i3, i4, i5, i6⟩ := ih
    obtain ⟨c1, c2⟩ := addToRelation_counters hash_any PAGESIZE HDR r r' t none i3 i4 hadd
    obtain ⟨s1, hs⟩ := addToRelation_split_step hash_any PAGESIZE HDR r r' t none hadd
    rcases hs with ⟨_, s2, s3, _, _⟩ | ⟨hne, _⟩
    · exact ⟨s1.trans i1, s2.trans i2, c1, c2, by rw [s3]; exact i5,
        fun hC => by rw [s3]; exact i6 hC⟩
    · exact absurd rfl hne
  | inserted K r r' t p _ hadd ih =>
    obtain ⟨i1, i2, i3, i4, i5, i6⟩ := ih
    obtain ⟨c1, c2⟩ := addToRelation_counters hash_any PAGESIZE HDR r r' t (some p) i3 i4 hadd
    obtain ⟨s1, hs⟩ := addToRelation_split_step hash_any PAGESIZE HDR r r' t (some p) hadd
    have hthr : splitThreshold r = splitThreshold r0 := by unfold splitThreshold; rw [i1]
    rcases hs with ⟨hnone, _⟩ | ⟨_, s2, _, hcase⟩
    · cases hnone
    · rw [hthr, i2] at hcase
      rcases hcase with ⟨hm, s3, _, _⟩ | ⟨hm, s3, _, _⟩
      · refine ⟨s1.trans i1, by rw [s2, i2], c1, c2, by omega, ?_⟩
        intro hC
        rw [s3, i6 hC, Nat.succ_div, if_pos (Nat.dvd_of_mod_eq_zero hm)]
        omega
      · refine ⟨s1.trans i1, by rw [s2, i2], c1, c2, by omega, ?_⟩
        intro hC
        rw [s3, i6 hC, Nat.succ_div, if_neg (fun hd => hm (Nat.mod_eq_zero_of_dvd hd))]
        omega

theorem reaches_insertAll (hash_any : Tuple → Nat) (PAGESIZE HDR : Nat) (r0 : Reln) :
    ∀ (ts : List Tuple) (r r' : Reln) (K : Nat), Reaches hash_any PAGESIZE HDR r0 K r →
      insertAll hash_any PAGESIZE HDR r ts = some r' →
      Reaches hash_any PAGESIZE HDR r0 (K + ts.length) r' := by
  intro ts
  induction ts with
  | nil =>
    intro r r' K hreach h
    simp only [insertAll, Option.some.injEq] at h
    subst h
    exact hreach
  | cons t ts ih =>
    intro r r' K hreach h
    simp only [insertAll] at h
    rcases hadd : addToRelation hash_any PAGESIZE HDR r t with _ | ⟨r1, _ | p⟩
    · simp [hadd] at h
    · simp [hadd] at h
    · simp only [hadd] at h
      have := ih r1 r' (K + 1) (Reaches.inserted K r r1 t p hreach hadd) h
      simpa [Nat.add_assoc, Nat.add_comm 1] using this

theorem insertAll_append (hash_any : Tuple → Nat) (PAGESIZE HDR : Nat) :
    ∀ (ts us : List Tuple) (r : Reln),
      insertAll hash_any PAGESIZE HDR r (ts ++ us) =
        (insertAll hash_any PAGESIZE HDR r ts).bind
          (fun r1 => insertAll hash_any PAGESIZE HDR r1 us) := by
  intro ts
  induction ts with
  | nil => intro us r; rfl
  | cons t ts ih =>
    intro us r
    simp only [List.cons_append, insertAll]
    rcases addToRelation hash_any PAGESIZE HDR r t with _ | ⟨r1, _ | p⟩
    · rfl
    · rfl
    · exact ih us r1

/-- The counters `sp < 2^d`, `npages = 2^d + sp` are determined by `npages`. -/
theorem counters_unique (d sp n k : Nat) (hsp : sp < 2 ^ d) (hn : n = 2 ^ d + sp)
    (hlo : 2 ^ k ≤ n) (hhi : n < 2 ^ (k + 1)) : d = k ∧ sp = n - 2 ^ k := by
  have hd : d = k := by
    rcases Nat.lt_trichotomy d k with h | h | h
    · have := Nat.pow_le_pow_right (by decide : 0 < 2) (Nat.succ_le_of_lt h)
      rw [pow_succ] at this
      omega
    · exact h
    · have := Nat.pow_le_pow_right (by decide : 0 < 2) (Nat.succ_le_of_lt h)
      omega
  subst hd
  exact ⟨rfl, by omega⟩

set_option maxRecDepth 100000 in

/-- The scenario runs: 68 insertions of `exTuple3` into `exReln3` all succeed. -/
theorem exReln3_runs :
    ∃ r34 r68, insertAll exHash 128 12 exReln3 (List.replicate 34 exTuple3) = some r34 ∧
      insertAll exHash 128 12 r34 (List.replicate 34 exTuple3) = some r68 := by
  have h : (insertAll exHash 128 12 exReln3
      (List.replicate 34 exTuple3 ++ List.replicate 34 exTuple3)).isSome = true := by decide
  rw [insertAll_append] at h
  rcases h34 : insertAll exHash 128 12 exReln3 (List.replicate 34 exTuple3) with _ | r34
  · rw [h34] at h
    cases h
  · rw [h34] at h
    obtain ⟨r68, h68⟩ := Option.isSome_iff_exists.mp h
    exact ⟨r34, r68, rfl, h68⟩

/-- C11: split schedule.  Let `r` be reached from a fresh relation `r0`, whose
threshold `C = 1024 / (10 * nattrs)` is at least 1, by calls of `addToRelation`
of which `K` returned a page id.  Then exactly `K / C` splits have occurred,
the counters satisfy `sp < 2^depth` and `npages = 2^depth + sp`, and a further
call that returns performs one split if it returns a page id and the
incremented `ntups` is a multiple of `C`, and no split otherwise. -/
theorem split_schedule (hash_any : Tuple → Nat) (PAGESIZE HDR : Nat) (r0 r : Reln) (K : Nat)
    (hfresh : Fresh r0) (hC : 1 ≤ splitThreshold r0)
    (hreach : Reaches hash_any PAGESIZE HDR r0 K r) :
    splitsSince r0 r = K / splitThreshold r0 ∧ r.sp < 2 ^ r.depth ∧
      r.npages = 2 ^ r.depth + r.sp ∧
      ∀ t r' res, addToRelation hash_any PAGESIZE HDR r t = some (r', res) →
        splitsSince r r' =
            (if res ≠ none ∧ (r.ntups + 1) % splitThreshold r0 = 0 then 1 else 0) ∧
          (res ≠ none ∧ (r.ntups + 1) % splitThreshold r0 = 0 →
            r'.depth = nextDepth r.depth r.sp ∧ r'.sp = nextSp r.depth r.sp) ∧
          (¬ (res ≠ none ∧ (r.ntups + 1) % splitThreshold r0 = 0) →
            r'.depth = r.depth ∧ r'.sp = r.sp) := by
  obtain ⟨i1, _, i3, i4, _, i6⟩ := reaches_counters hash_any PAGESIZE HDR r0 r K hfresh hreach
  refine ⟨by unfold splitsSince; rw [i6 hC]; omega, i3, i4, ?_⟩
  intro t r' res hadd
  have hthr : splitThreshold r = splitThreshold r0 := by unfold splitThreshold; rw [i1]
  obtain ⟨_, hs⟩ := addToRelation_split_step hash_any PAGESIZE HDR r r' t res hadd
  rw [hthr] at hs
  unfold splitsSince
  rcases hs with ⟨hnone, _, s3, s4, s5⟩ | ⟨hne, _, _, ⟨hm, s3, s4, s5⟩ | ⟨hm, s3, s4, s5⟩⟩
  · have hcond : ¬ (res ≠ none ∧ (r.ntups + 1) % splitThreshold r0 = 0) := fun h => h.1 hnone
    exact ⟨by rw [if_neg hcond, s3]; omega, fun h => absurd h hcond, fun _ => ⟨s4, s5⟩⟩
  · have hcond : res ≠ none ∧ (r.ntups + 1) % splitThreshold r0 = 0 := ⟨hne, hm⟩
    exact ⟨by rw [if_pos hcond, s3]; omega, fun _ => ⟨s4, s5⟩, fun h => absurd hcond h⟩
  · have hcond : ¬ (res ≠ none ∧ (r.ntups + 1) % splitThreshold r0 = 0) := fun h => hm h.2
    exact ⟨by rw [if_neg hcond, s3]; omega, fun h => absurd h hcond, fun _ => ⟨s4, s5⟩⟩

theorem split_schedule_witness :
    ∃ r34 r68, Reaches exHash 128 12 exReln3 34 r34 ∧ Reaches exHash 128 12 exReln3 68 r68 ∧
      splitThreshold exReln3 = 34 ∧
      splitsSince exReln3 r34 = 1 ∧ r34.sp = 1 ∧ r34.depth = 2 ∧ r34.npages = 5 ∧
      splitsSince exReln3 r68 = 2 ∧ r68.sp = 2 ∧ r68.depth = 2 ∧ r68.npages = 6 := by
  obtain ⟨r34, r68, h34, h68⟩ := exReln3_runs
  have hfresh : Fresh exReln3 := ⟨rfl, rfl, rfl, rfl, rfl⟩
  have hC : splitThreshold exReln3 = 34 := by decide
  have hr34 : Reaches exHash 128 12 exReln3 34 r34 := by
    have := reaches_insertAll exHash 128 12 exReln3 _ exReln3 r34 0 Reaches.start h34
    simpa using this
  have hr68 : Reaches exHash 128 12 exReln3 68 r68 := by
    have := reaches_insertAll exHash 128 12 exReln3 _ r34 r68 34 hr34 h68
    simpa using this
  obtain ⟨a1, a2, a3, _⟩ :=
    split_schedule exHash 128 12 exReln3 r34 34 hfresh (by rw [hC]; decide) hr34
  obtain ⟨b1, b2, b3, _⟩ :=
    split_schedule exHash 128 12 exReln3 r68 68 hfresh (by rw [hC]; decide) hr68
  rw [hC] at a1 b1
  have hn34 : r34.npages = 5 := by
    have : exReln3.npages = 4 := rfl
    unfold splitsSince at a1
    have := (reaches_counters exHash 128 12 exReln3 r34 34 hfresh hr34).2.2.2.2.1
    omega
  have hn68 : r68.npages = 6 := by
    have : exReln3.npages = 4 := rfl
    unfold splitsSince at b1
    have := (reaches_counters exHash 128 12 exReln3 r68 68 hfresh hr68).2.2.2.2.1
    omega
  obtain ⟨d34, s34⟩ := counters_unique r34.depth r34.sp r34.npages 2 a2 a3
    (by rw [hn34]; decide) (by rw [hn34]; decide)
  obtain ⟨d68, s68⟩ := counters_unique r68.depth r68.sp r68.npages 2 b2 b3
    (by rw [hn68]; decide) (by rw [hn68]; decide)
  refine ⟨r34, r68, hr34, hr68, hC, a1, ?_, d34, hn34, b1, ?_, d68, hn68⟩
  · simp [s34, hn34]
  · simp [s68, hn68]

/-- When `insertTupleIntoPageChain` returns `NO_PAGE`, the tuple did not go
into a fresh page, and the data file has as many pages as before. -/
theorem insertTupleIntoPageChain_failed (PAGESIZE HDR : Nat) (r r1 : Reln) (p : Nat)
    (t : Tuple) (h : insertTupleIntoPageChain PAGESIZE HDR r p t = some (r1, none)) :
    addToPage PAGESIZE HDR newPage t = none ∧ r1.data.length = r.data.length := by
  have hnew : getPage (r.ovflow ++ [newPage]) r.ovflow.length = some newPage := by
    simp [getPage]
  unfold insertTupleIntoPageChain at h
  simp only [addPage, hnew] at h
  rcases hg : getPage r.data p with _ | pg
  · simp [hg] at h
  · have hp : p < r.data.length := by
      unfold getPage at hg
      exact (List.getElem?_eq_some.mp hg).1
    simp only [hg] at h
    rcases ha : addToPage PAGESIZE HDR pg t with _ | pg1
    · simp only [ha] at h
      rcases ho : pageOvflow pg with _ | ovp
      · simp only [ho, putPage_lt _ _ _ hp] at h
        rcases hn : addToPage PAGESIZE HDR newPage t with _ | n1
        · simp only [hn, Option.some.injEq, Prod.mk.injEq, and_true] at h
          subst h
          exact ⟨rfl, by simp⟩
        · simp only [hn] at h
          split at h <;> simp at h
      · simp only [ho] at h
        rcases hs : scanOvflow PAGESIZE HDR r.ovflow t (r.ovflow.length + 1) ovp
          with _ | ⟨ov1⟩ | ⟨prevp, prevpg⟩
        · simp [hs] at h
        · simp [hs] at h
        · simp only [hs] at h
          rcases hn : addToPage PAGESIZE HDR newPage t with _ | n1
          · simp only [hn, Option.some.injEq, Prod.mk.injEq, and_true] at h
            subst h
            exact ⟨rfl, rfl⟩
          · simp only [hn] at h
            repeat' split at h
            all_goals simp at h
    · simp only [ha] at h
      split at h <;> simp at h

/-- C13: a failed insert leaves the counters untouched.  When
`insertTupleIntoPageChain` returns `NO_PAGE` for the bucket of the tuple, the
tuple does not fit a fresh page, `addToRelation` returns `NO_PAGE` with the
state that `insertTupleIntoPageChain` left, no primary page was added, and
`nattrs`, `depth`, `sp`, `npages` and `ntups` are as before the call. -/
theorem failed_insert_keeps_counters (hash_any : Tuple → Nat) (PAGESIZE HDR : Nat)
    (r r1 : Reln) (t : Tuple) (h : Nat) (hh : tupleHash hash_any r t = some h)
    (hins : insertTupleIntoPageChain PAGESIZE HDR r (addToRelation_bucket r h) t =
      some (r1, none)) :
    addToRelation hash_any PAGESIZE HDR r t = some (r1, none) ∧
      addToPage PAGESIZE HDR newPage t = none ∧
      r1.nattrs = r.nattrs ∧ r1.depth = r.depth ∧ r1.sp = r.sp ∧ r1.npages = r.npages ∧
      r1.ntups = r.ntups ∧ r1.data.length = r.data.length := by
  obtain ⟨a1, a2⟩ := insertTupleIntoPageChain_failed PAGESIZE HDR r r1 _ t hins
  have hhd := insertTupleIntoPageChain_header PAGESIZE HDR r r1 _ _ t hins
  unfold SameHeader at hhd
  refine ⟨?_, a1, hhd.1, hhd.2.1, hhd.2.2.1, hhd.2.2.2.1, hhd.2.2.2.2.1, a2⟩
  simp only [addToRelation, hh, hins]

set_option maxRecDepth 100000 in

/-- The insertion of `exBigTuple` into `exReln` fails. -/
theorem exBigTuple_fails :
    tupleHash exHash exReln exBigTuple = some 21250068 ∧
      insertTupleIntoPageChain 128 12 exReln (addToRelation_bucket exReln 21250068) exBigTuple =
        some (exRelnFull, none) := by
  decide

theorem failed_insert_keeps_counters_witness :
    addToRelation exHash 128 12 exReln exBigTuple = some (exRelnFull, none) ∧
      addToPage 128 12 newPage exBigTuple = none ∧
      exRelnFull.nattrs = exReln.nattrs ∧ exRelnFull.depth = exReln.depth ∧
      exRelnFull.sp = exReln.sp ∧ exRelnFull.npages = exReln.npages ∧
      exRelnFull.ntups = exReln.ntups ∧ exRelnFull.data.length = exReln.data.length :=
  failed_insert_keeps_counters exHash 128 12 exReln exRelnFull exBigTuple 21250068
    exBigTuple_fails.1 exBigTuple_fails.2

/-- C12: split counter transition.  In a well-formed relation in which every
stored tuple is in the bucket of its hash, a call of `addToRelation` that
returns a page id and makes `ntups` a multiple of the threshold splits: it
yields `(depth, sp + 1, npages + 1)` when `sp + 1 < 2^depth` and
`(depth + 1, 0, npages + 1)` when `sp + 1 = 2^depth`, and the data file, which
had the pages `0 .. sp + 2^depth - 1`, has the new primary page `sp + 2^depth`
as its last page.  Such a call returns whenever the tuple has a hash and fits
an empty page. -/
theorem split_counter_transition (hash_any : Tuple → Nat) (PAGESIZE HDR : Nat) (r : Reln)
    (ch : Nat → List Nat) (t : Tuple) (hwf : WellFormed r ch)
    (hp : PlacedBy hash_any r ch (fun h => bucketAddr h r.depth r.sp))
    (hmul : (r.ntups + 1) % splitThreshold r = 0) :
    (∀ r' p, addToRelation hash_any PAGESIZE HDR r t = some (r', some p) →
      r'.npages = r.npages + 1 ∧
      (r.sp + 1 < 2 ^ r.depth → r'.depth = r.depth ∧ r'.sp = r.sp + 1) ∧
      (r.sp + 1 = 2 ^ r.depth → r'.depth = r.depth + 1 ∧ r'.sp = 0) ∧
      r.data.length = r.sp + 2 ^ r.depth ∧ r'.data.length = r.sp + 2 ^ r.depth + 1) ∧
    (∀ h, tupleHash hash_any r t = some h → t.length + 1 ≤ PAGESIZE - HDR →
      ∃ r' p, addToRelation hash_any PAGESIZE HDR r t = some (r', some p)) := by
  refine ⟨?_, ?_⟩
  · intro r' p hadd
    obtain ⟨_, hs⟩ := addToRelation_split_step hash_any PAGESIZE HDR r r' t (some p) hadd
    obtain ⟨ch', hwf', _⟩ := addToRelation_inv hash_any PAGESIZE HDR r r' ch t (some p) hwf hp hadd
    rcases hs with ⟨hnone, _⟩ | ⟨_, _, _, ⟨_, s3, s4, s5⟩ | ⟨hm, _⟩⟩
    · cases hnone
    · have hlen : r.data.length = r.sp + 2 ^ r.depth := by
        rw [hwf.data_len, hwf.npages_eq, Nat.add_comm]
      have hlen' : r'.data.length = r.sp + 2 ^ r.depth + 1 := by
        rw [hwf'.data_len, s3, hwf.npages_eq, Nat.add_comm (2 ^ r.depth)]
      refine ⟨s3, ?_, ?_, hlen, hlen'⟩
      · intro hlt
        have hne : ¬ (r.sp + 1 = 2 ^ r.depth) := by omega
        rw [s4, s5]
        simp [nextDepth, nextSp, hne]
      · intro heq
        rw [s4, s5]
        simp [nextDepth, nextSp, heq]
    · exact absurd hmul hm
  · intro h hh hfit
    have hc : splitThreshold r ≠ 0 := by
      intro h0
      rw [h0, Nat.mod_zero] at hmul
      omega
    obtain ⟨r', res, hadd⟩ := addToRelation_total hash_any PAGESIZE HDR r ch t h hwf hp hh hc
    obtain ⟨ch', _, _, _, _, _, hcase⟩ :=
      addToRelation_inv hash_any PAGESIZE HDR r r' ch t res hwf hp hadd
    rcases hcase with ⟨_, _, hnot, _⟩ | ⟨hne, _⟩
    · exact absurd hfit hnot
    · obtain ⟨p, hp'⟩ := Option.ne_none_iff_exists'.mp hne
      subst hp'
      exact ⟨r', p, hadd⟩

theorem split_counter_transition_witness :
    exReln1.npages = exReln.npages + 1 ∧
      (exReln.sp + 1 < 2 ^ exReln.depth → exReln1.depth = exReln.depth ∧
        exReln1.sp = exReln.sp + 1) ∧
      (exReln.sp + 1 = 2 ^ exReln.depth → exReln1.depth = exReln.depth + 1 ∧ exReln1.sp = 0) ∧
      exReln.data.length = exReln.sp + 2 ^ exReln.depth ∧
      exReln1.data.length = exReln.sp + 2 ^ exReln.depth + 1 :=
  (split_counter_transition exHash 128 12 exReln (fun _ => []) exTuple
    (invariant_fresh exHash 128 12 exReln ⟨rfl, rfl, rfl, rfl, rfl⟩).wf
    (invariant_fresh exHash 128 12 exReln ⟨rfl, rfl, rfl, rfl, rfl⟩).placed
    (by decide)).1 exReln1 0 (by decide)

theorem startSelection_candidates (hash_any : Tuple → Nat) (r : Reln) (q : Tuple)
    (s : Selection) (h : startSelection hash_any r q = some s) :
    s.candidates = mergeCandidates s.known s.unknown r.depth r.sp := by
  unfold startSelection at h
  rcases hm : maskLoop hash_any r.cv (queryVals (parseQuery r.nattrs q)) MAXBITS 0 0 0
    with _ | ⟨k, u⟩
  · simp [hm] at h
  · simp only [hm] at h
    rcases hc : mergeCandidates k u r.depth r.sp with _ | ⟨c0, rest⟩
    · simp only [hc, Option.some.injEq] at h
      subst h
      exact hc.symm
    · simp only [hc] at h
      rcases hg : getPage r.data c0 with _ | pg
      · simp [hg] at h
      · simp only [hg, Option.some.injEq] at h
        subst h
        exact hc.symm

/-- C16: the candidate list has no duplicates.  For all masks and counters,
the `depth`-bit candidates that are kept (ids `≥ sp`) and the `depth + 1`-bit
candidates that are kept (low `depth` bits `< sp`) are each free of duplicates
and have no id in common; the candidate list of `startSelection` is the first
list followed by the second, so no bucket id occurs twice in it. -/
theorem candidate_list_nodup (known unknown d sp : Nat) :
    ((genCandidates known unknown d).filter (fun x => sp ≤ x)).Nodup ∧
      ((genCandidates known unknown (d + 1)).filter (fun x => x &&& (2 ^ d - 1) < sp)).Nodup ∧
      (∀ x, x ∈ (genCandidates known unknown d).filter (fun x => sp ≤ x) →
        x ∉ (genCandidates known unknown (d + 1)).filter (fun x => x &&& (2 ^ d - 1) < sp)) ∧
      mergeCandidates known unknown d sp =
        (genCandidates known unknown d).filter (fun x => sp ≤ x) ++
          (genCandidates known unknown (d + 1)).filter (fun x => x &&& (2 ^ d - 1) < sp) ∧
      ∀ hash_any r q s, r.depth = d → r.sp = sp → startSelection hash_any r q = some s →
        s.candidates.Nodup := by
  refine ⟨(genCandidates_nodup _ _ _).filter _, (genCandidates_nodup _ _ _).filter _, ?_, rfl, ?_⟩
  · intro x h1 h2
    simp only [List.mem_filter, decide_eq_true_eq, Nat.and_pow_two_sub_one_eq_mod] at h1 h2
    have hx := ((mem_genCandidates _ _ _ _).mp h1.1).1
    rw [Nat.mod_eq_of_lt hx] at h2
    omega
  · intro hash_any r q s _ _ hs
    rw [startSelection_candidates hash_any r q s hs]
    exact mergeCandidates_nodup _ _ _ _

theorem candidate_list_nodup_witness :
    ∃ s, startSelection exHash exReln1 ['a'] = some s ∧ s.candidates.Nodup := by
  obtain ⟨s, _, _, hs, _⟩ := scan_from_start exHash exReln1 (fun _ => []) ['a'] exReln1_wf
    exReln1_placed (exCV_valid 52 1 0 2 1 _ _ (by decide))
  exact ⟨s, hs, (candidate_list_nodup s.known s.unknown 1 0).2.2.2.2 exHash exReln1 ['a'] s
    rfl rfl hs⟩

/-- With 103 or more attributes the threshold is 0, and no call of
`addToRelation` returns a page id: after a successful insertion the call
computes `ntups % 0`. -/
theorem degenerate_threshold (hash_any : Tuple → Nat) (PAGESIZE HDR : Nat) (r : Reln)
    (hn : 103 ≤ r.nattrs) :
    splitThreshold r = 0 ∧
      ∀ t r' p, addToRelation hash_any PAGESIZE HDR r t ≠ some (r', some p) := by
  have hC : splitThreshold r = 0 := by
    unfold splitThreshold
    exact Nat.div_eq_of_lt (by omega)
  refine ⟨hC, ?_⟩
  intro t r' p hadd
  obtain ⟨_, hs⟩ := addToRelation_split_step hash_any PAGESIZE HDR r r' t (some p) hadd
  rcases hs with ⟨hnone, _⟩ | ⟨_, _, hc, _⟩
  · cases hnone
  · exact hc hC

/-- C17: the degenerate threshold.  For the relation `exReln103` with 103
attributes the threshold is 0; the tuple `exTuple103` goes into bucket 0 (the
insertion into the page chain returns page 0), and `addToRelation` then does
not return: it divides `ntups` by the threshold 0 instead of splitting. -/
theorem degenerate_threshold_no_split :
    splitThreshold exReln103 = 0 ∧
      tupleHash exHash exReln103 exTuple103 = some 0 ∧
      insertTupleIntoPageChain 128 12 exReln103 (addToRelation_bucket exReln103 0) exTuple103 =
        some (⟨103, 0, 0, 1, 0, exCV, [⟨[exTuple103], none⟩], []⟩, some 0) ∧
      addToRelation exHash 128 12 exReln103 exTuple103 = none := by
  decide

theorem tupleHash_congr (hash_any : Tuple → Nat) (r r' : Reln) (t : Tuple)
    (h1 : r'.nattrs = r.nattrs) (h2 : r'.cv = r.cv) :
    tupleHash hash_any r' t = tupleHash hash_any r t := by
  simp [tupleHash, h1, h2]

theorem newRelationPages_eq : ∀ (n : Nat) (f : List Page),
    newRelationPages n f = f ++ List.replicate n newPage := by
  intro n
  induction n with
  | zero => intro f; simp [newRelationPages]
  | succ n ih =>
    intro f
    rw [newRelationPages, ih, addPage, List.replicate_succ]
    simp

/-- C19, amended: the return value of an insertion.  In a relation that
satisfies the invariants, a call of `addToRelation` that returns the page id
`p` returns the index of a primary data page (`p < npages`, before and after
the call), namely the bucket that the address rule gives for the hash of the
tuple under the counters before the call.  When the call returns, the tuple is
stored in the bucket that the address rule gives under the new counters; this
bucket is `p` whenever the call did not split or split another bucket than
`p`. -/
theorem addToRelation_return_value (hash_any : Tuple → Nat) (PAGESIZE HDR : Nat) (r r' : Reln)
    (ch : Nat → List Nat) (t : Tuple) (p : Nat)
    (hinv : Invariant hash_any PAGESIZE HDR r ch)
    (hadd : addToRelation hash_any PAGESIZE HDR r t = some (r', some p)) :
    p < r.npages ∧ p < r'.npages ∧
      ∃ h, tupleHash hash_any r t = some h ∧ p = bucketAddr h r.depth r.sp ∧
        ∃ ch', Invariant hash_any PAGESIZE HDR r' ch' ∧
          t ∈ bucketTuples r' ch' (bucketAddr h r'.depth r'.sp) ∧
          (r'.npages = r.npages ∨ p ≠ r.sp → bucketAddr h r'.depth r'.sp = p) := by
  obtain ⟨h, r1, hh, _⟩ := addToRelation_cases hash_any PAGESIZE HDR r r' t (some p) hadd
  have hp : p = bucketAddr h r.depth r.sp := by
    rw [addToRelation_result hash_any PAGESIZE HDR r r' t h p hh hadd,
      bucketAddr_eq_addToRelation_bucket r h hinv.wf.sp_lt]
  have hlt : p < r.npages := by
    rw [hp, hinv.wf.npages_eq]
    exact bucketAddr_lt _ _ _
  obtain ⟨_, hs⟩ := addToRelation_split_step hash_any PAGESIZE HDR r r' t (some p) hadd
  obtain ⟨ch', hinv', hna, hcv, hcase⟩ :=
    invariant_step hash_any PAGESIZE HDR r r' ch t (some p) hinv hadd
  have hperm : (storedTuples r' ch').Perm (t :: storedTuples r ch) := by
    rcases hcase with ⟨hnone, _⟩ | ⟨_, _, hperm⟩
    · cases hnone
    · exact hperm
  have hmem : t ∈ storedTuples r' ch' := hperm.symm.subset (List.mem_cons_self _ _)
  unfold storedTuples at hmem
  rw [List.mem_flatMap] at hmem
  obtain ⟨B, hB, htB⟩ := hmem
  obtain ⟨h', hh', hb⟩ := hinv'.placed B (List.mem_range.mp hB) t htB
  rw [tupleHash_congr hash_any r r' t hna hcv, hh] at hh'
  cases hh'
  simp only at hb
  have hcount : r'.npages = r.npages ∨ r'.npages = r.npages + 1 := by
    rcases hs with ⟨hnone, _⟩ | ⟨_, _, _, ⟨_, s3, _⟩ | ⟨_, s3, _⟩⟩
    · cases hnone
    · exact Or.inr s3
    · exact Or.inl s3
  refine ⟨hlt, by omega, h, hh, hp, ch', hinv', by rw [hb]; exact htB, ?_⟩
  intro hcond
  rcases hs with ⟨hnone, _⟩ | ⟨_, _, _, ⟨_, s3, s4, s5⟩ | ⟨_, _, s4, s5⟩⟩
  · cases hnone
  · rcases hcond with hsame | hne
    · omega
    · rw [s4, s5, hp]
      apply bucketAddr_next_other
      intro he
      apply hne
      rw [hp]
      unfold bucketAddr
      rw [he]
      simp
  · rw [s4, s5, hp]

/-- C19 as stated fails: the insertion of `exTuple` into `exReln` returns page
0 and splits bucket 0, after which `exTuple` is stored in bucket 1 and not in
bucket 0, whatever the overflow chains are taken to be. -/
theorem return_value_counterexample :
    addToRelation exHash 128 12 exReln exTuple = some (exReln1, some 0) ∧
      (∀ ch, exTuple ∉ bucketTuples exReln1 ch 0) ∧
      exTuple ∈ bucketTuples exReln1 (fun _ => []) 1 := by
  refine ⟨by decide, ?_, by decide⟩
  intro ch
  simp [bucketTuples, pageTuplesAt, chainTuples, exReln1, newPage]

theorem addToRelation_return_value_witness :
    0 < exReln.npages ∧ 0 < exReln1.npages ∧
      ∃ h, tupleHash exHash exReln exTuple = some h ∧ 0 = bucketAddr h exReln.depth exReln.sp ∧
        ∃ ch', Invariant exHash 128 12 exReln1 ch' ∧
          exTuple ∈ bucketTuples exReln1 ch' (bucketAddr h exReln1.depth exReln1.sp) ∧
          (exReln1.npages = exReln.npages ∨ 0 ≠ exReln.sp →
            bucketAddr h exReln1.depth exReln1.sp = 0) :=
  addToRelation_return_value exHash 128 12 exReln exReln1 (fun _ => []) exTuple 0
    (invariant_fresh exHash 128 12 exReln ⟨rfl, rfl, rfl, rfl, rfl⟩) (by decide)

/-- C20, amended: what `newRelation` creates.  When `newRelation` succeeds,
the relation it leaves has the counters it was given, `sp = 0`, `ntups = 0`,
exactly `npages` empty primary pages and no overflow page; it satisfies
`npages = 2^depth + sp` if and only if it was called with `npages = 2^d`, and
it is then a fresh relation. -/
theorem newRelation_creates (parseChVec : Reln → Tuple → Option (List ChVecItem))
    (nattrs npages d : Nat) (cv : Tuple) (r : Reln)
    (h : newRelation parseChVec nattrs npages d cv = some r) :
    r.nattrs = nattrs ∧ r.depth = d ∧ r.npages = npages ∧ r.sp = 0 ∧ r.ntups = 0 ∧
      r.data = List.replicate npages newPage ∧ r.data.length = npages ∧ r.ovflow = [] ∧
      (r.npages = 2 ^ r.depth + r.sp ↔ npages = 2 ^ d) ∧ (npages = 2 ^ d → Fresh r) := by
  unfold newRelation at h
  simp only at h
  rcases hc : parseChVec ⟨nattrs, d, 0, npages, 0, [], [], []⟩ cv with _ | cvv
  · simp [hc] at h
  · simp only [hc, Option.some.injEq] at h
    subst h
    simp only [newRelationPages_eq, List.nil_append, List.length_replicate, Nat.add_zero,
      true_and, Fresh]
    exact fun he => ⟨he, trivial⟩

/-- C20 as stated fails: `newRelation` called with 5 pages and depth 2
succeeds, and the relation it creates has `npages = 5` and `2^depth + sp = 4`. -/
theorem newRelation_counterexample :
    ∃ r, newRelation (fun _ _ => some exCV) 3 5 2 [] = some r ∧
      r.npages ≠ 2 ^ r.depth + r.sp :=
  ⟨_, rfl, by decide⟩

theorem newRelation_creates_witness :
    exReln3.nattrs = 3 ∧ exReln3.depth = 2 ∧ exReln3.npages = 4 ∧ exReln3.sp = 0 ∧
      exReln3.ntups = 0 ∧ exReln3.data = List.replicate 4 newPage ∧
      exReln3.data.length = 4 ∧ exReln3.ovflow = [] ∧
      (exReln3.npages = 2 ^ exReln3.depth + exReln3.sp ↔ 4 = 2 ^ 2) ∧
      (4 = 2 ^ 2 → Fresh exReln3) :=
  newRelation_creates (fun _ _ => some exCV) 3 4 2 [] exReln3 rfl

theorem tupleVals_ne_nil : ∀ (s : Tuple), tupleVals s ≠ [] := by
  intro s
  induction s with
  | nil => simp [tupleVals]
  | cons c cs ih =>
    rw [tupleVals]
    split
    · simp
    · split <;> simp

theorem tupleVals_append_comma : ∀ (a b : Tuple),
    tupleVals (a ++ ',' :: b) = tupleVals a ++ tupleVals b := by
  intro a b
  induction a with
  | nil => simp [tupleVals]
  | cons c cs ih =>
    by_cases hc : c = ','
    · subst hc
      simp [tupleVals, ih]
    · rcases hv : tupleVals cs with _ | ⟨f, fs⟩
      · exact absurd hv (tupleVals_ne_nil cs)
      · simp [tupleVals, hc, ih, hv]

theorem tupleVals_no_comma : ∀ (a : Tuple), ',' ∉ a → tupleVals a = [a] := by
  intro a
  induction a with
  | nil => intro _; rfl
  | cons c cs ih =>
    intro h
    have hc : c ≠ ',' := fun e => h (by rw [e]; exact List.mem_cons_self _ _)
    have hcs : ',' ∉ cs := fun e => h (List.mem_cons_of_mem _ e)
    simp [tupleVals, hc, ih hcs]

/-- Splitting the text of a non-empty list of comma-free terms gives back the
terms. -/
theorem tupleVals_joinComma : ∀ (terms : List Tuple), terms ≠ [] →
    (∀ tm ∈ terms, ',' ∉ tm) → tupleVals (joinComma terms) = terms := by
  intro terms
  induction terms with
  | nil => intro h; exact absurd rfl h
  | cons a rest ih =>
    intro _ hall
    cases rest with
    | nil => exact tupleVals_no_comma a (hall a (List.mem_cons_self _ _))
    | cons b rest =>
      rw [joinComma, tupleVals_append_comma,
        tupleVals_no_comma a (hall a (List.mem_cons_self _ _)),
        ih (by simp) (fun tm htm => hall tm (List.mem_cons_of_mem _ htm))]
      rfl

theorem strtokComma_joinComma (terms : List Tuple) (h : terms ≠ [])
    (hall : ∀ tm ∈ terms, tm ≠ [] ∧ ',' ∉ tm) : strtokComma (joinComma terms) = terms := by
  unfold strtokComma
  rw [tupleVals_joinComma terms h (fun tm htm => (hall tm htm).2), List.filter_eq_self]
  intro tm htm
  exact decide_eq_true (hall tm htm).1

theorem digit_toNat (k : Nat) (hk : k < 10) : (Char.ofNat (48 + k)).toNat = 48 + k := by
  interval_cases k <;> rfl

theorem decimalCore_append : ∀ (fuel n : Nat) (ds : List Char),
    decimalCore fuel n ds = decimalCore fuel n [] ++ ds := by
  intro fuel
  induction fuel with
  | zero => intro n ds; rfl
  | succ fuel ih =>
    intro n ds
    simp only [decimalCore]
    by_cases h : n / 10 = 0
    · simp [h]
    · simp only [h, if_false]
      rw [ih (n / 10) (_ :: ds), ih (n / 10) [_]]
      simp

theorem decimalCore_digits : ∀ (fuel n : Nat) (ds : List Char), IsDigits ds →
    IsDigits (decimalCore fuel n ds) := by
  intro fuel
  induction fuel with
  | zero => intro n ds h; exact h
  | succ fuel ih =>
    intro n ds h
    have hd : IsDigits (Char.ofNat (48 + n % 10) :: ds) := by
      intro c hc
      rcases List.mem_cons.mp hc with rfl | hc
      · rw [digit_toNat _ (Nat.mod_lt _ (by decide))]
        omega
      · exact h c hc
    simp only [decimalCore]
    by_cases h0 : n / 10 = 0
    · simpa [h0] using hd
    · simp only [h0, if_false]
      exact ih _ _ hd

theorem atoiDigits_eq_foldl : ∀ (l : List Char) (acc : Nat), IsDigits l →
    atoiDigits l acc = l.foldl (fun a c => a * 10 + (c.toNat - 48)) acc := by
  intro l
  induction l with
  | nil => intro acc _; rfl
  | cons c cs ih =>
    intro acc h
    have hc := h c (List.mem_cons_self _ _)
    rw [atoiDigits, if_pos hc, List.foldl_cons]
    exact ih _ (fun d hd => h d (List.mem_cons_of_mem _ hd))

theorem decimalCore_value : ∀ (fuel n : Nat), n < fuel →
    (decimalCore fuel n []).foldl (fun a c => a * 10 + (c.toNat - 48)) 0 = n := by
  intro fuel
  induction fuel with
  | zero => intro n h; omega
  | succ fuel ih =>
    intro n hn
    have hd : (Char.ofNat (48 + n % 10)).toNat - 48 = n % 10 := by
      rw [digit_toNat _ (Nat.mod_lt _ (by decide))]
      omega
    simp only [decimalCore]
    by_cases h0 : n / 10 = 0
    · simp only [h0, if_true, List.foldl_cons, List.foldl_nil, hd]
      omega
    · simp only [h0, if_false]
      rw [decimalCore_append, List.foldl_append, ih (n / 10) (by omega)]
      simp only [List.foldl_cons, List.foldl_nil, hd]
      omega

theorem decimal_digits (n : Nat) : IsDigits (decimal n) :=
  decimalCore_digits _ _ _ (fun _ h => absurd h (List.not_mem_nil _))

theorem decimal_ne_nil (n : Nat) : decimal n ≠ [] := by
  unfold decimal
  simp only [decimalCore]
  by_cases h0 : n / 10 = 0
  · simp [h0]
  · simp only [h0, if_false]
    rw [decimalCore_append]
    simp

/-- The function `atoi` reads a decimal numeral back. -/
theorem atoi_decimal (n : Nat) : atoi (decimal n) = (n : Int) := by
  have hdig := decimal_digits n
  have hval : atoiDigits (decimal n) 0 = n := by
    rw [atoiDigits_eq_foldl _ _ hdig]
    exact decimalCore_value _ _ (Nat.lt_succ_self n)
  rcases hd : decimal n with _ | ⟨c, cs⟩
  · exact absurd hd (decimal_ne_nil n)
  · rw [hd] at hdig hval
    have hc := hdig c (List.mem_cons_self _ _)
    have hsp : isspace c = false := by
      unfold isspace
      rw [decide_eq_false_iff_not]
      omega
    have hm : c ≠ '-' := by
      intro e
      rw [e] at hc
      revert hc
      decide
    have hp : c ≠ '+' := by
      intro e
      rw [e] at hc
      revert hc
      decide
    unfold atoi
    rw [List.dropWhile_cons_of_neg (by rw [hsp]; simp)]
    simp only [hm, hp, if_false, hval]

theorem joinComma_snoc : ∀ (pre : List Tuple) (v : Tuple), pre ≠ [] →
    joinComma (pre ++ [v]) = joinComma pre ++ ',' :: v := by
  intro pre
  induction pre with
  | nil => intro v h; exact absurd rfl h
  | cons a rest ih =>
    intro v _
    cases rest with
    | nil => rfl
    | cons b rest =>
      show a ++ ',' :: joinComma ((b :: rest) ++ [v]) =
        (a ++ ',' :: joinComma (b :: rest)) ++ ',' :: v
      rw [ih v (by simp)]
      simp

theorem joinComma_head (a : Tuple) (rest : List Tuple) (c : Char) (cs : Tuple)
    (h : a = c :: cs) : ∃ tl, joinComma (a :: rest) = c :: tl := by
  subst h
  cases rest with
  | nil => exact ⟨cs, rfl⟩
  | cons b rest => exact ⟨cs ++ ',' :: joinComma (b :: rest), rfl⟩

/-- The loop of `projectTuple` appends the fields named by the rest of the
index list, each after a comma unless it is the first. -/
theorem projectLoop_spec (values : List Tuple) :
    ∀ (post pre : List Nat) (buf : Tuple),
      (∀ i ∈ post, 1 ≤ i ∧ i ≤ values.length) →
      buf = joinComma (pre.map (fun i => values.getD (i - 1) [])) →
      projectLoop values ((pre ++ post).map (fun (i : Nat) => (i : Int) - 1)) post.length pre.length
          buf =
        some (joinComma ((pre ++ post).map (fun i => values.getD (i - 1) []))) := by
  intro post
  induction post with
  | nil =>
    intro pre buf _ hbuf
    simp only [List.append_nil, List.length_nil, projectLoop, hbuf]
  | cons j post ih =>
    intro pre buf hidx hbuf
    obtain ⟨hj1, hj2⟩ := hidx j (List.mem_cons_self _ _)
    have hget : ((pre ++ j :: post).map (fun (i : Nat) => (i : Int) - 1))[pre.length]? =
        some ((j : Int) - 1) := by
      rw [List.getElem?_map, List.getElem?_append_right (le_refl _)]
      simp
    have hnn : ¬ ((j : Int) - 1 < 0) := by omega
    have htn : ((j : Int) - 1).toNat = j - 1 := by omega
    have hv : values[j - 1]? = some (values.getD (j - 1) []) := by
      rw [List.getD_eq_getElem?_getD, List.getElem?_eq_getElem (by omega)]
      rfl
    have hstep : (if 0 < pre.length then buf ++ [','] else buf) ++ values.getD (j - 1) [] =
        joinComma ((pre ++ [j]).map (fun i => values.getD (i - 1) [])) := by
      cases pre with
      | nil => simp [hbuf, joinComma]
      | cons a pre =>
        rw [List.map_append, List.map_singleton, joinComma_snoc _ _ (by simp), hbuf]
        simp
    simp only [List.length_cons, projectLoop, hget, hnn, if_false, htn, hv]
    have := ih (pre ++ [j]) _ (fun i hi => hidx i (List.mem_cons_of_mem _ hi)) hstep
    simpa [List.append_assoc] using this

/-- C18: projection by an index list.  For a tuple with `nattrs` fields and a
specification that lists `k ≥ 1` indexes between 1 and `nattrs` as decimal
numerals separated by commas, `projectTuple` after `startProjection` produces
the fields with these indexes, in this order, separated by single commas; for
the specification `*` it produces the tuple unchanged. -/
theorem projectTuple_index_list (r : Reln) (t : Tuple) (idx : List Nat)
    (hfields : (tupleVals t).length = r.nattrs) (hne : idx ≠ [])
    (hidx : ∀ i ∈ idx, 1 ≤ i ∧ i ≤ r.nattrs) :
    projectTuple (startProjection r (joinComma (idx.map decimal))) t =
        some (joinComma (idx.map (fun i => (tupleVals t).getD (i - 1) []))) ∧
      projectTuple (startProjection r ['*']) t = some t := by
  refine ⟨?_, by simp [projectTuple, startProjection]⟩
  have hterms : ∀ tm ∈ idx.map decimal, tm ≠ [] ∧ ',' ∉ tm := by
    intro tm htm
    obtain ⟨i, _, rfl⟩ := List.mem_map.mp htm
    refine ⟨decimal_ne_nil i, fun hc => ?_⟩
    have := decimal_digits i _ hc
    revert this
    decide
  have hstar : joinComma (idx.map decimal) ≠ ['*'] := by
    cases idx with
    | nil => exact absurd rfl hne
    | cons i rest =>
      rcases hd : decimal i with _ | ⟨c, cs⟩
      · exact absurd hd (decimal_ne_nil i)
      · obtain ⟨tl, htl⟩ := joinComma_head (decimal i) (rest.map decimal) c cs hd
        rw [List.map_cons, htl]
        intro he
        have hc : c = '*' := (List.cons.inj he).1
        have := decimal_digits i c (by rw [hd]; exact List.mem_cons_self _ _)
        rw [hc] at this
        revert this
        decide
  have htoks : strtokComma (joinComma (idx.map decimal)) = idx.map decimal :=
    strtokComma_joinComma _ (by simpa using hne) hterms
  have hlist : (idx.map decimal).map (fun tok => atoi tok - 1) =
      idx.map (fun (i : Nat) => (i : Int) - 1) := by
    rw [List.map_map]
    apply List.map_congr_left
    intro i _
    simp [atoi_decimal]
  have hloop := projectLoop_spec (tupleVals t) idx [] []
    (fun i hi => by rw [hfields]; exact hidx i hi) rfl
  simp only [List.nil_append, List.length_nil] at hloop
  simp only [projectTuple, startProjection, if_neg hstar, htoks, hlist, List.length_map,
    hfields, if_true, hloop]
  simp

theorem projectTuple_index_list_witness :
    projectTuple (startProjection exReln2 (joinComma ([2, 1, 2].map decimal)))
        ['x', ',', 'y'] =
        some (joinComma ([2, 1, 2].map (fun i => (tupleVals ['x', ',', 'y']).getD (i - 1) []))) ∧
      projectTuple (startProjection exReln2 ['*']) ['x', ',', 'y'] = some ['x', ',', 'y'] :=
  projectTuple_index_list exReln2 ['x', ',', 'y'] [2, 1, 2] (by decide) (by decide) (by decide)

theorem countFields_eq : ∀ (s : List Char) (nf : Nat),
    countFields s (nf + 1) = nf + (tupleVals s).length := by
  intro s
  induction s with
  | nil => intro nf; simp [countFields, tupleVals]
  | cons c cs ih =>
    intro nf
    by_cases hc : c = ','
    · subst hc
      simp only [countFields, if_true, tupleVals, List.length_cons]
      rw [ih (nf + 1)]
      omega
    · rcases hv : tupleVals cs with _ | ⟨f, fs⟩
      · exact absurd hv (tupleVals_ne_nil cs)
      · simp only [countFields, hc, if_false, tupleVals, hv, List.length_cons]
        rw [ih nf, hv]
        rfl

theorem fgetsLoop_line : ∀ (text rest : List Char) (k : Nat),
    Char.ofNat 10 ∉ text → text.length + 1 ≤ k →
    fgetsLoop k (text ++ Char.ofNat 10 :: rest) = (text ++ [Char.ofNat 10], rest) := by
  intro text
  induction text with
  | nil =>
    intro rest k _ hk
    obtain ⟨k, rfl⟩ : ∃ j, k = j + 1 := ⟨k - 1, by simp at hk; omega⟩
    simp [fgetsLoop]
  | cons c cs ih =>
    intro rest k hnl hk
    obtain ⟨k, rfl⟩ : ∃ j, k = j + 1 := ⟨k - 1, by simp at hk; omega⟩
    have hc : c ≠ Char.ofNat 10 := fun e => hnl (by rw [e]; exact List.mem_cons_self _ _)
    have hcs : Char.ofNat 10 ∉ cs := fun e => hnl (List.mem_cons_of_mem _ e)
    have hrec := ih rest k hcs (by simp at hk; omega)
    show fgetsLoop (k + 1) (c :: (cs ++ Char.ofNat 10 :: rest)) = _
    rw [fgetsLoop, if_neg hc, hrec]
    rfl

/-- A line that ends with a newline and fits the buffer is read as the claim
says: the text without the newline is returned if it has `nattrs` fields, and
`NULL` otherwise. -/
theorem readTuple_newline (MAXTUPLEN : Nat) (r : Reln) (text rest : List Char)
    (hnl : Char.ofNat 10 ∉ text) (hlen : text.length + 1 ≤ MAXTUPLEN - 2) :
    readTuple MAXTUPLEN r (text ++ Char.ofNat 10 :: rest) =
      some (if (tupleVals text).length = r.nattrs then some text else none, rest) := by
  have hne : text ++ Char.ofNat 10 :: rest ≠ [] := by simp
  have hcount : countFields text 1 = (tupleVals text).length := by
    have := countFields_eq text 0
    simpa using this
  unfold readTuple fgets
  rw [if_neg hne, fgetsLoop_line text rest _ hnl (by omega)]
  simp only [List.dropLast_concat, hcount]
  by_cases hf : (tupleVals text).length = r.nattrs
  · simp [hf]
  · simp [hf]

/-- C21: `readTuple` drops the last character of a line that the end of the
input terminates.  For two attributes the input `a,b` without a newline is
read as the tuple `a,` (with a newline it is read as `a,b`), and for three
attributes the input `a,b,c` without a newline is read as `a,b,`. -/
theorem readTuple_drops_last_char :
    readTuple 200 exReln2 ['a', ',', 'b'] = some (some ['a', ','], []) ∧
      readTuple 200 exReln2 ['a', ',', 'b', Char.ofNat 10] = some (some ['a', ',', 'b'], []) ∧
      readTuple 200 exReln3 ['a', ',', 'b', ',', 'c'] =
        some (some ['a', ',', 'b', ','], []) := by
  decide

/-- C26: the target bucket is a live page.  For counters with `sp < 2^depth`
and `npages = 2^depth + sp` the bucket that `addToRelation` computes from a
hash is less than `npages`, so that `insertTupleIntoPageChain` reads a primary
page of the data file when the file has `npages` pages. -/
theorem target_bucket_live (r : Reln) (h : Nat) (hsp : r.sp < 2 ^ r.depth)
    (hnp : r.npages = 2 ^ r.depth + r.sp) :
    addToRelation_bucket r h < r.npages ∧
      (r.data.length = r.npages →
        ∃ pg, getPage r.data (addToRelation_bucket r h) = some pg) := by
  have hlt : addToRelation_bucket r h < r.npages := by
    rw [bucketAddr_eq_addToRelation_bucket r h hsp, hnp]
    exact bucketAddr_lt _ _ _
  refine ⟨hlt, fun hlen => ?_⟩
  unfold getPage
  exact ⟨_, List.getElem?_eq_getElem (by rw [hlen]; exact hlt)⟩

theorem target_bucket_live_witness :
    addToRelation_bucket exReln1 5121 < exReln1.npages ∧
      (exReln1.data.length = exReln1.npages →
        ∃ pg, getPage exReln1.data (addToRelation_bucket exReln1 5121) = some pg) :=
  target_bucket_live exReln1 5121 (by decide) (by decide)

/-- A literal in front of a pattern matches itself. -/
theorem wild_literal_append : ∀ (s p v : List Char), '%' ∉ s →
    (WildMatches (s ++ p) v ↔ ∃ t, v = s ++ t ∧ WildMatches p t) := by
  intro s
  induction s with
  | nil => intro p v _; simp
  | cons c cs ih =>
    intro p v hs
    have hc : c ≠ '%' := fun e => hs (by rw [e]; exact List.mem_cons_self _ _)
    have hcs : '%' ∉ cs := fun e => hs (List.mem_cons_of_mem _ e)
    rw [List.cons_append, wild_char c _ _ hc]
    constructor
    · rintro ⟨t, rfl, hm⟩
      obtain ⟨t2, rfl, hm2⟩ := (ih p t hcs).mp hm
      exact ⟨t2, rfl, hm2⟩
    · rintro ⟨t, rfl, hm⟩
      exact ⟨cs ++ t, rfl, (ih p _ hcs).mpr ⟨t, rfl, hm⟩⟩

/-- C25: the substring pattern.  For a literal `s` without `%`, the pattern
`%s%` matches the value `v` iff `s` occurs in `v` as a contiguous substring. -/
theorem matchPattern_substring (v s : List Char) (hs : '%' ∉ s) :
    matchPattern v ('%' :: (s ++ ['%'])) = true ↔ s <:+: v := by
  obtain ⟨b, h1, h2⟩ := matchLoop_start v ('%' :: (s ++ ['%']))
  have hq : '%' :: (s ++ ['%']) ≠ ['?'] := by simp
  have hmem : '%' ∈ '%' :: (s ++ ['%']) := List.mem_cons_self _ _
  have hm : matchPattern v ('%' :: (s ++ ['%'])) = true ↔
      WildMatches ('%' :: (s ++ ['%'])) v := by
    simp only [matchPattern, hq, hmem, if_true, if_false, h1]
    exact h2
  rw [hm, wild_percent]
  have hlast : ∀ t, WildMatches ['%'] t := fun t =>
    (wild_percent [] t).mpr ⟨t, [], by simp, (wild_nil []).mpr rfl⟩
  constructor
  · rintro ⟨a, t, rfl, hw⟩
    obtain ⟨b2, rfl, _⟩ := (wild_literal_append s ['%'] t hs).mp hw
    exact ⟨a, b2, by simp⟩
  · rintro ⟨a, b2, rfl⟩
    exact ⟨a, s ++ b2, by simp, (wild_literal_append s ['%'] _ hs).mpr ⟨b2, rfl, hlast b2⟩⟩

theorem matchPattern_substring_witness :
    matchPattern "alpha".toList "%a%".toList = true ∧
      matchPattern "a".toList "%a%".toList = true :=
  ⟨(matchPattern_substring "alpha".toList ['a'] (by decide)).mpr ⟨[], "lpha".toList, rfl⟩,
    (matchPattern_substring "a".toList ['a'] (by decide)).mpr ⟨[], [], rfl⟩⟩

theorem addToPage_room (PAGESIZE HDR : Nat) (pg : Page) (t : Tuple)
    (h : HasRoom PAGESIZE HDR pg t) :
    addToPage PAGESIZE HDR pg t = some ⟨pg.tuples ++ [t], pg.ovflow⟩ := by
  unfold HasRoom at h
  simp [addToPage, h]

theorem addToPage_no_room (PAGESIZE HDR : Nat) (pg : Page) (t : Tuple)
    (h : ¬ HasRoom PAGESIZE HDR pg t) : addToPage PAGESIZE HDR pg t = none := by
  unfold HasRoom at h
  simp [addToPage, h]

theorem isChain_append_start (ov : List Page) (pre : List Nat) (q : Nat) (post : List Nat)
    (s : Option Nat) (h : IsChain ov (pre ++ q :: post) s) : ∃ y, s = some y := by
  cases pre with
  | nil => exact ⟨q, ((isChain_cons _ _ _ _).mp h).1⟩
  | cons x pre => exact ⟨x, ((isChain_cons _ _ _ _).mp h).1⟩

/-- The scan loop passes the pages without room and puts the tuple into the
first page that has room. -/
theorem scanOvflow_first_fit (PAGESIZE HDR : Nat) (ov : List Page) (t : Tuple) (q : Nat)
    (post : List Nat) (pgq : Page) (hq : ov[q]? = some pgq)
    (hroom : HasRoom PAGESIZE HDR pgq t) :
    ∀ (pre : List Nat) (start fuel : Nat),
      IsChain ov (pre ++ q :: post) (some start) →
      (∀ x ∈ pre, ∀ px, ov[x]? = some px → ¬ HasRoom PAGESIZE HDR px t) →
      pre.length + 1 ≤ fuel →
      scanOvflow PAGESIZE HDR ov t fuel start =
        some (ScanResult.placed (ov.set q ⟨pgq.tuples ++ [t], pgq.ovflow⟩)) := by
  intro pre
  induction pre with
  | nil =>
    intro start fuel hc _ hf
    obtain ⟨fuel, rfl⟩ : ∃ k, fuel = k + 1 := ⟨fuel - 1, by simp at hf; omega⟩
    have hs : start = q := by
      have := ((isChain_cons _ _ _ _).mp hc).1
      exact (Option.some.inj this)
    subst hs
    have hlt : start < ov.length := (List.getElem?_eq_some.mp hq).1
    simp [scanOvflow, getPage, hq, addToPage_room _ _ _ _ hroom, putPage_lt _ _ _ hlt]
  | cons x pre ih =>
    intro start fuel hc hno hf
    obtain ⟨fuel, rfl⟩ : ∃ k, fuel = k + 1 := ⟨fuel - 1, by simp at hf; omega⟩
    rw [List.cons_append, isChain_cons] at hc
    obtain ⟨hs, px, hpx, hrest⟩ := hc
    have hs' : start = x := Option.some.inj hs
    subst hs'
    obtain ⟨y, hy⟩ := isChain_append_start _ _ _ _ _ hrest
    rw [hy] at hrest
    have hnone := addToPage_no_room _ _ _ _ (hno start (List.mem_cons_self _ _) px hpx)
    have hrec := ih y fuel hrest (fun z hz => hno z (List.mem_cons_of_mem _ hz))
      (by simp at hf; omega)
    simp only [scanOvflow, getPage, hpx, hnone, pageOvflow, hy]
    exact hrec

/-- The scan loop ends at the last page of the chain when no page has room. -/
theorem scanOvflow_all_full (PAGESIZE HDR : Nat) (ov : List Page) (t : Tuple) (last : Nat)
    (lastpg : Page) (hlast : ov[last]? = some lastpg) :
    ∀ (pre : List Nat) (start fuel : Nat),
      IsChain ov (pre ++ [last]) (some start) →
      (∀ x ∈ pre ++ [last], ∀ px, ov[x]? = some px → ¬ HasRoom PAGESIZE HDR px t) →
      pre.length + 1 ≤ fuel →
      scanOvflow PAGESIZE HDR ov t fuel start = some (ScanResult.full last lastpg) := by
  intro pre
  induction pre with
  | nil =>
    intro start fuel hc hno hf
    obtain ⟨fuel, rfl⟩ : ∃ k, fuel = k + 1 := ⟨fuel - 1, by simp at hf; omega⟩
    rw [List.nil_append, isChain_cons] at hc
    obtain ⟨hs, pg, hpg, hend⟩ := hc
    have hs' : start = last := Option.some.inj hs
    subst hs'
    rw [hlast] at hpg
    cases hpg
    rw [isChain_nil] at hend
    have hnone := addToPage_no_room _ _ _ _ (hno start (by simp) lastpg hlast)
    simp [scanOvflow, getPage, hlast, hnone, pageOvflow, hend]
  | cons x pre ih =>
    intro start fuel hc hno hf
    obtain ⟨fuel, rfl⟩ : ∃ k, fuel = k + 1 := ⟨fuel - 1, by simp at hf; omega⟩
    rw [List.cons_append, isChain_cons] at hc
    obtain ⟨hs, px, hpx, hrest⟩ := hc
    have hs' : start = x := Option.some.inj hs
    subst hs'
    obtain ⟨y, hy⟩ := isChain_append_start _ _ _ _ _ hrest
    rw [hy] at hrest
    have hnone := addToPage_no_room _ _ _ _ (hno start (List.mem_cons_self _ _) px hpx)
    have hrec := ih y fuel hrest (fun z hz => hno z (List.mem_cons_of_mem _ hz))
      (by simp at hf; omega)
    simp only [scanOvflow, getPage, hpx, hnone, pageOvflow, hy]
    exact hrec

theorem hasRoom_newPage (PAGESIZE HDR : Nat) (t : Tuple)
    (hfit : t.length + 1 ≤ PAGESIZE - HDR) : HasRoom PAGESIZE HDR newPage t := by
  unfold HasRoom pageFreeSpace pageUsed newPage
  simpa using hfit

/-- C22: first-fit chain insertion.  Let bucket `B` have the primary page `pg`
and the overflow chain `l`, and let the tuple fit an empty page.  Then
`insertTupleIntoPageChain` returns `B`, and the new state differs from the old
one as follows: if the primary page has room, the tuple is appended to it; else
if `q` is the first page of the chain with room, the tuple is appended to page
`q`; else a new overflow page holding only the tuple is appended to the
overflow file and linked from the primary page (empty chain) or from the last
page of the chain.  No other page changes. -/
theorem first_fit_insertion (PAGESIZE HDR : Nat) (r : Reln) (B : Nat) (pg : Page)
    (l : List Nat) (t : Tuple) (hB : r.data[B]? = some pg)
    (hch : IsChain r.ovflow l pg.ovflow) (hfit : t.length + 1 ≤ PAGESIZE - HDR) :
    (HasRoom PAGESIZE HDR pg t →
      insertTupleIntoPageChain PAGESIZE HDR r B t =
        some ({ r with data := r.data.set B ⟨pg.tuples ++ [t], pg.ovflow⟩ }, some B)) ∧
    (¬ HasRoom PAGESIZE HDR pg t → ∀ pre q post pgq, l = pre ++ q :: post →
      (∀ x ∈ pre, ∀ px, r.ovflow[x]? = some px → ¬ HasRoom PAGESIZE HDR px t) →
      r.ovflow[q]? = some pgq → HasRoom PAGESIZE HDR pgq t →
      insertTupleIntoPageChain PAGESIZE HDR r B t =
        some ({ r with ovflow := r.ovflow.set q ⟨pgq.tuples ++ [t], pgq.ovflow⟩ }, some B)) ∧
    (¬ HasRoom PAGESIZE HDR pg t →
      (∀ x ∈ l, ∀ px, r.ovflow[x]? = some px → ¬ HasRoom PAGESIZE HDR px t) →
      (l = [] →
        insertTupleIntoPageChain PAGESIZE HDR r B t =
          some ({ r with data := r.data.set B ⟨pg.tuples, some r.ovflow.length⟩,
                         ovflow := r.ovflow ++ [⟨[t], none⟩] }, some B)) ∧
      (∀ pre last lastpg, l = pre ++ [last] → r.ovflow[last]? = some lastpg →
        insertTupleIntoPageChain PAGESIZE HDR r B t =
          some ({ r with ovflow := (r.ovflow ++ [(⟨[t], none⟩ : Page)]).set last
                           ⟨lastpg.tuples, some r.ovflow.length⟩ }, some B))) := by
  have hBlt : B < r.data.length := (List.getElem?_eq_some.mp hB).1
  have hlen := isChain_length_le _ _ _ hch
  have hnew : getPage (r.ovflow ++ [newPage]) r.ovflow.length = some newPage := by
    simp [getPage]
  have haddnew := addToPage_room PAGESIZE HDR newPage t (hasRoom_newPage PAGESIZE HDR t hfit)
  have hgB : getPage r.data B = some pg := hB
  have hsetnew : (r.ovflow ++ [newPage]).set r.ovflow.length (⟨[t], none⟩ : Page) =
      r.ovflow ++ [(⟨[t], none⟩ : Page)] := by
    rw [List.set_append_right _ _ (le_refl _)]
    simp
  refine ⟨?_, ?_, ?_⟩
  · intro hroom
    simp [insertTupleIntoPageChain, getPage, hB, addToPage_room _ _ _ _ hroom,
      putPage_lt _ _ _ hBlt]
  · intro hno pre q post pgq hl hpre hq hroom
    subst hl
    obtain ⟨start, hstart⟩ := isChain_append_start _ _ _ _ _ hch
    rw [hstart] at hch
    have hscan := scanOvflow_first_fit PAGESIZE HDR r.ovflow t q post pgq hq hroom pre start
      (r.ovflow.length + 1) hch hpre (by simp at hlen; omega)
    simp [insertTupleIntoPageChain, getPage, hB, addToPage_no_room _ _ _ _ hno, pageOvflow,
      hstart, hscan]
  · intro hno hall
    refine ⟨?_, ?_⟩
    · intro hl
      subst hl
      rw [isChain_nil] at hch
      simp only [insertTupleIntoPageChain, hgB, addToPage_no_room _ _ _ _ hno,
        pageOvflow, hch, addPage, putPage_lt _ _ _ hBlt, hnew, haddnew]
      rw [putPage_lt _ _ _ (by simp)]
      simp [newPage, hsetnew, pageSetOvflow]
    · intro pre last lastpg hl hlast
      subst hl
      obtain ⟨start, hstart⟩ := isChain_append_start _ _ _ _ _ hch
      rw [hstart] at hch
      have hscan := scanOvflow_all_full PAGESIZE HDR r.ovflow t last lastpg hlast pre start
        (r.ovflow.length + 1) hch hall (by simp at hlen; omega)
      have hlastlt : last < r.ovflow.length := (List.getElem?_eq_some.mp hlast).1
      simp only [insertTupleIntoPageChain, hgB, addToPage_no_room _ _ _ _ hno,
        pageOvflow, hstart, hscan, addPage, hnew, haddnew]
      rw [putPage_lt _ _ _ (by simp)]
      simp only [newPage, hsetnew]
      rw [putPage_lt _ _ _ (by simp; omega)]
      simp [pageSetOvflow]

theorem first_fit_insertion_witness :
    insertTupleIntoPageChain 128 12 exReln 0 exTuple =
      some ({ exReln with data := exReln.data.set 0 ⟨newPage.tuples ++ [exTuple],
        newPage.ovflow⟩ }, some 0) :=
  (first_fit_insertion 128 12 exReln 0 newPage [] exTuple rfl
    ((isChain_nil _ _).mpr rfl) (by decide)).1 (by decide)

theorem tuplesFor_congr (hash_any : Tuple → Nat) (r r1 : Reln) (f : Nat → Nat) (B : Nat)
    (ts : List Tuple) (h : SameHeader r r1) :
    tuplesFor hash_any r1 f B ts = tuplesFor hash_any r f B ts := by
  unfold tuplesFor
  apply List.filter_congr
  intro u _
  rw [tupleHash_header hash_any r r1 h]

/-- Putting the tuples back, bucket by bucket: every bucket gains the tuples
that `f` sends to it, and a bucket that gains none keeps its tuples as they
are. -/
theorem reinsertTuples_buckets (hash_any : Tuple → Nat) (PAGESIZE HDR : Nat) (f : Nat → Nat) :
    ∀ (ts : List Tuple) (r : Reln) (ch : Nat → List Nat),
      ChainsOK r ch → PlacedBy hash_any r ch f →
      (∀ u ∈ ts, ∃ h, tupleHash hash_any r u = some h ∧ getLower h (r.depth + 1) = f h ∧
        f h < r.data.length) →
      (∀ u ∈ ts, u.length + 1 ≤ PAGESIZE - HDR) →
      ∃ r' ch', reinsertTuples hash_any PAGESIZE HDR r ts = some r' ∧ SameHeader r r' ∧
        r'.data.length = r.data.length ∧ ChainsOK r' ch' ∧ PlacedBy hash_any r' ch' f ∧
        ∀ B, B < r.data.length →
          (bucketTuples r' ch' B).Perm (tuplesFor hash_any r f B ts ++ bucketTuples r ch B) ∧
          (tuplesFor hash_any r f B ts = [] → bucketTuples r' ch' B = bucketTuples r ch B) := by
  intro ts
  induction ts with
  | nil =>
    intro r ch hok hp _ _
    exact ⟨r, ch, rfl, sameHeader_refl r, rfl, hok, hp,
      fun B _ => ⟨by simp [tuplesFor], fun _ => rfl⟩⟩
  | cons t ts ih =>
    intro r ch hok hp hts hfit
    obtain ⟨h, hh, hlow, hlt⟩ := hts t (List.mem_cons_self _ _)
    obtain ⟨r1, res, ch1, hins, hcase⟩ := insert_spec PAGESIZE HDR r ch (f h) t hok hlt
    have hs : BucketStep r ch r1 ch1 (f h) [t] := by
      rcases hcase with ⟨_, _, hs⟩ | ⟨_, hnf, _⟩
      · exact hs
      · exact absurd (hfit t (List.mem_cons_self _ _)) hnf
    have hp1 : PlacedBy hash_any r1 ch1 f :=
      placedBy_step hash_any r r1 ch ch1 (f h) [t] f hs hp
        (fun u hu => by rw [List.mem_singleton.mp hu]; exact ⟨h, hh, rfl⟩)
    have hdepth : r1.depth = r.depth := hs.header.2.1
    have hts1 : ∀ u ∈ ts, ∃ h, tupleHash hash_any r1 u = some h ∧
        getLower h (r1.depth + 1) = f h ∧ f h < r1.data.length := by
      intro u hu
      obtain ⟨h', a, b, c⟩ := hts u (List.mem_cons_of_mem _ hu)
      exact ⟨h', by rw [tupleHash_header hash_any r r1 hs.header]; exact a,
        by rw [hdepth]; exact b, by rw [hs.data_len]; exact c⟩
    obtain ⟨r2, ch2, hre, hhd, hlen, hok2, hp2, hbk⟩ := ih r1 ch1 hs.chains hp1 hts1
      (fun u hu => hfit u (List.mem_cons_of_mem _ hu))
    refine ⟨r2, ch2, ?_, sameHeader_trans _ _ _ hs.header hhd, hlen.trans hs.data_len, hok2,
      hp2, ?_⟩
    · simp only [reinsertTuples, hh, hlow, hins]
      exact hre
    · intro B hB
      obtain ⟨b1, b2⟩ := hbk B (by rw [hs.data_len]; exact hB)
      rw [tuplesFor_congr hash_any r r1 f B ts hs.header] at b1 b2
      by_cases hBf : f h = B
      · subst hBf
        have hcons : tuplesFor hash_any r f (f h) (t :: ts) =
            t :: tuplesFor hash_any r f (f h) ts := by
          simp [tuplesFor, hh]
        rw [hcons]
        refine ⟨?_, fun hnil => by cases hnil⟩
        refine b1.trans ?_
        refine (List.Perm.append_left _ hs.bucket).trans ?_
        simp only [List.singleton_append, List.cons_append]
        exact List.perm_middle
      · have hcons : tuplesFor hash_any r f B (t :: ts) = tuplesFor hash_any r f B ts := by
          simp [tuplesFor, hh, hBf]
        have hoth := hs.others B hB (fun e => hBf e.symm)
        rw [hcons]
        refine ⟨by rw [← hoth]; exact b1, fun hnil => ?_⟩
        rw [b2 hnil, hoth]

/-- What a split does bucket by bucket, in a well-formed relation in which
every tuple is in the bucket of its hash and the tuples of bucket `sp` fit an
empty page: the tuples of bucket `sp` are divided between the buckets `sp` and
`sp + 2^depth`, and every other bucket keeps its tuples as they are. -/
theorem splitBucket_buckets (hash_any : Tuple → Nat) (PAGESIZE HDR : Nat) (r : Reln)
    (ch : Nat → List Nat) (hwf : WellFormed r ch)
    (hp : PlacedBy hash_any r ch (fun h => bucketAddr h r.depth r.sp))
    (hfit : ∀ u ∈ bucketTuples r ch r.sp, u.length + 1 ≤ PAGESIZE - HDR) :
    ∃ r' ch', splitBucket hash_any PAGESIZE HDR r = some r' ∧ WellFormed r' ch' ∧
      PlacedBy hash_any r' ch' (fun h => bucketAddr h r'.depth r'.sp) ∧
      r'.nattrs = r.nattrs ∧ r'.cv = r.cv ∧ r'.npages = r.npages + 1 ∧
      r'.depth = nextDepth r.depth r.sp ∧ r'.sp = nextSp r.depth r.sp ∧
      (∀ B, B < r.data.length → B ≠ r.sp → bucketTuples r' ch' B = bucketTuples r ch B) ∧
      (bucketTuples r' ch' r.sp ++ bucketTuples r' ch' (r.sp + 2 ^ r.depth)).Perm
        (bucketTuples r ch r.sp) := by
  have hlen : r.data.length = r.sp + 2 ^ r.depth := by
    rw [hwf.data_len, hwf.npages_eq]; omega
  have hsp : r.sp < r.data.length := by have := hwf.sp_lt; omega
  obtain ⟨old, hold, hcold⟩ := hwf.chains.chain r.sp hsp
  have hfuel : (ch r.sp).length ≤ r.ovflow.length + 1 :=
    le_trans (isChain_length_le _ _ _ hcold) (Nat.le_succ _)
  obtain ⟨m, hcount⟩ := countOvflow_spec r.ovflow (ch r.sp) _ _ (pageNTuples old) hcold hfuel
  have hcollect := collectOvflow_spec r.ovflow (ch r.sp) _ _ old.tuples hcold hfuel
  obtain ⟨ov1, hreset, _, hz1, hz2⟩ := resetOvflow_spec (ch r.sp) r.ovflow _ _ hcold hfuel
  have heq := splitBucket_eq hash_any PAGESIZE HDR r old ov1 m _ hlen hold hcount hcollect
    hreset
  have hts : old.tuples ++ chainTuples r.ovflow (ch r.sp) = bucketTuples r ch r.sp := by
    simp [bucketTuples, pageTuplesAt, hold]
  rw [hts] at heq
  obtain ⟨mok, mlen, mbt, _, _⟩ := midState_spec r ch hwf old hold ov1 hz1 hz2
  let f : Nat → Nat := fun h => bucketAddr h (nextDepth r.depth r.sp) (nextSp r.depth r.sp)
  have mp : PlacedBy hash_any (midState r old ov1) (midChains r ch) f := by
    intro B hB u hu
    rw [mlen] at hB
    rw [mbt B hB] at hu
    by_cases hc : B = r.sp ∨ B = r.data.length
    · rw [if_pos hc] at hu; simp at hu
    · rw [if_neg hc] at hu
      obtain ⟨h, hh, ha⟩ := hp B (by omega) u hu
      refine ⟨h, hh, ?_⟩
      have hne : h % 2 ^ r.depth ≠ r.sp := by
        intro e
        apply hc; left
        rw [← ha]
        simp [bucketAddr, e]
      show bucketAddr h _ _ = B
      rw [bucketAddr_next_other h r.depth r.sp hne]
      exact ha
  -- where the tuples of the old bucket go
  have hgo : ∀ u ∈ bucketTuples r ch r.sp, ∃ h,
      tupleHash hash_any (midState r old ov1) u = some h ∧
      f h = h % 2 ^ (r.depth + 1) ∧ (f h = r.sp ∨ f h = r.sp + 2 ^ r.depth) := by
    intro u hu
    obtain ⟨h, hh, ha⟩ := hp r.sp hsp u hu
    have he := bucketAddr_eq_sp h r.depth r.sp hwf.sp_lt ha
    have hf : f h = h % 2 ^ (r.depth + 1) := bucketAddr_next_old h r.depth r.sp he
    refine ⟨h, hh, hf, ?_⟩
    rw [hf]
    rcases mod_two_pow_succ_cases h r.depth with e | e <;> rw [e, he]
    · exact Or.inl rfl
    · exact Or.inr rfl
  have mts : ∀ u ∈ bucketTuples r ch r.sp, ∃ h,
      tupleHash hash_any (midState r old ov1) u = some h ∧
      getLower h ((midState r old ov1).depth + 1) = f h ∧
      f h < (midState r old ov1).data.length := by
    intro u hu
    obtain ⟨h, hh, hf, hcase⟩ := hgo u hu
    refine ⟨h, hh, by rw [hf]; rfl, ?_⟩
    rw [mlen, hlen]
    rcases hcase with e | e <;> rw [e] <;> omega
  obtain ⟨r2, ch2, hre, hhd, hdl, hok2, hp2, hbk⟩ :=
    reinsertTuples_buckets hash_any PAGESIZE HDR f _ _ _ mok mp mts hfit
  rw [hre] at heq
  obtain ⟨f1, f2, _, f4, f5, f6, f7, f8⟩ := afterSplit_fields r2
  have hd2 : r2.depth = r.depth := hhd.2.1
  have hs2 : r2.sp = r.sp := hhd.2.2.1
  have hn2 : r2.npages = r.npages + 1 := hhd.2.2.2.1
  obtain ⟨c1, c2⟩ := next_counters r.depth r.sp hwf.sp_lt
  have e1 : ∀ B, bucketTuples (afterSplit r2) ch2 B = bucketTuples r2 ch2 B := by
    intro B
    simp [bucketTuples, f5, f6]
  -- a bucket that receives no tuple
  have hnone : ∀ B, B ≠ r.sp → B ≠ r.sp + 2 ^ r.depth →
      tuplesFor hash_any (midState r old ov1) f B (bucketTuples r ch r.sp) = [] := by
    intro B h1 h2
    unfold tuplesFor
    rw [List.filter_eq_nil_iff]
    intro u hu
    obtain ⟨h, hh, _, hcase⟩ := hgo u hu
    rw [hh]
    simp only [Option.map_some', Option.some.injEq, decide_eq_true_eq]
    rcases hcase with e | e <;> rw [e] <;> omega
  refine ⟨afterSplit r2, ch2, heq, ⟨?_, ?_, ?_, ?_⟩, ?_, f1.trans hhd.1, f2.trans hhd.2.2.2.2.2,
    f4.trans hn2, by rw [f7, hd2, hs2], by rw [f8, hd2, hs2], ?_, ?_⟩
  · rw [f7, f8, hd2, hs2]; exact c1
  · rw [f4, f7, f8, hd2, hs2, hn2, hwf.npages_eq]; exact c2
  · rw [f5, f4, hdl, mlen, hn2, hwf.data_len]
  · exact chainsOK_files r2 _ ch2 f5 f6 hok2
  · intro B hB u hu
    rw [f5] at hB
    rw [e1] at hu
    obtain ⟨h, hh, ha⟩ := hp2 B hB u hu
    refine ⟨h, ?_, ?_⟩
    · rw [← hh]; simp [tupleHash, f1, f2]
    · rw [f7, f8, hd2, hs2]; exact ha
  · intro B hB hne
    have hB1 : B < (midState r old ov1).data.length := by rw [mlen]; omega
    rw [e1, (hbk B hB1).2 (hnone B hne (by omega)), mbt B (by omega),
      if_neg (by intro hc; rcases hc with hc | hc <;> omega)]
  · have hA := (hbk r.sp (by rw [mlen]; omega)).1
    have hN := (hbk (r.sp + 2 ^ r.depth) (by rw [mlen]; omega)).1
    rw [mbt _ (by omega), if_pos (Or.inl rfl), List.append_nil] at hA
    rw [mbt _ (by omega), if_pos (Or.inr hlen.symm), List.append_nil] at hN
    rw [e1, e1]
    refine (List.Perm.append hA hN).trans ?_
    have hcomp : tuplesFor hash_any (midState r old ov1) f (r.sp + 2 ^ r.depth)
        (bucketTuples r ch r.sp) =
        (bucketTuples r ch r.sp).filter (fun u =>
          !decide ((tupleHash hash_any (midState r old ov1) u).map f = some r.sp)) := by
      unfold tuplesFor
      apply List.filter_congr
      intro u hu
      obtain ⟨h, hh, _, hcase⟩ := hgo u hu
      rw [hh]
      rcases hcase with e | e <;> simp [e]
    rw [hcomp]
    exact List.filter_append_perm _ _

theorem bucketTuples_subset_allTuples (r : Reln) (ch : Nat → List Nat) (B : Nat) (u : Tuple)
    (hu : u ∈ bucketTuples r ch B) : u ∈ allTuples r := by
  unfold bucketTuples at hu
  unfold allTuples
  rw [List.mem_flatMap]
  rcases List.mem_append.mp hu with h | h
  · unfold pageTuplesAt at h
    rcases hpg : r.data[B]? with _ | pg
    · rw [hpg] at h; cases h
    · rw [hpg] at h
      obtain ⟨hlt, heq⟩ := List.getElem?_eq_some.mp hpg
      exact ⟨pg, List.mem_append_left _ (heq ▸ List.getElem_mem hlt), h⟩
  · unfold chainTuples at h
    rw [List.mem_flatMap] at h
    obtain ⟨q, _, hq⟩ := h
    unfold pageTuplesAt at hq
    rcases hpg : r.ovflow[q]? with _ | pg
    · rw [hpg] at hq; cases hq
    · rw [hpg] at hq
      obtain ⟨hlt, heq⟩ := List.getElem?_eq_some.mp hpg
      exact ⟨pg, List.mem_append_right _ (heq ▸ List.getElem_mem hlt), hq⟩

/-- C23: a split redistributes without loss.  Let a call of `addToRelation` on
a state that satisfies the invariants return the page id `p` and make `ntups`
a multiple of the threshold.  Then the call inserts the tuple into bucket `p`,
which gives a well-formed state `r1`, and splits bucket `old = sp` of `r1` into
`new = sp + 2^depth`.  Every tuple that bucket `old` held when the split began
has low `depth + 1` hash bits equal to `old` or to `new` and is stored in that
bucket, and in no other, when the call returns; the tuples of the buckets `old`
and `new` after the split are, as a multiset, the tuples of bucket `old` before
it; every other bucket has the tuples it had, in the same order. -/
theorem split_redistributes (hash_any : Tuple → Nat) (PAGESIZE HDR : Nat) (r r' : Reln)
    (ch : Nat → List Nat) (t : Tuple) (p : Nat)
    (hinv : Invariant hash_any PAGESIZE HDR r ch)
    (hadd : addToRelation hash_any PAGESIZE HDR r t = some (r', some p))
    (hmul : (r.ntups + 1) % splitThreshold r = 0) :
    ∃ r1 ch1 ch', insertTupleIntoPageChain PAGESIZE HDR r p t = some (r1, some p) ∧
      splitBucket hash_any PAGESIZE HDR (bumpNtups r1) = some r' ∧
      WellFormed r1 ch1 ∧ r1.depth = r.depth ∧ r1.sp = r.sp ∧ WellFormed r' ch' ∧
      (∀ u ∈ bucketTuples r1 ch1 r.sp, ∃ h, tupleHash hash_any r u = some h ∧
        (getLower h (r.depth + 1) = r.sp ∨ getLower h (r.depth + 1) = r.sp + 2 ^ r.depth) ∧
        u ∈ bucketTuples r' ch' (getLower h (r.depth + 1)) ∧
        ∀ B, B < r'.npages → u ∈ bucketTuples r' ch' B → B = getLower h (r.depth + 1)) ∧
      (bucketTuples r' ch' r.sp ++ bucketTuples r' ch' (r.sp + 2 ^ r.depth)).Perm
        (bucketTuples r1 ch1 r.sp) ∧
      (∀ B, B < r.npages → B ≠ r.sp → bucketTuples r' ch' B = bucketTuples r1 ch1 B) := by
  obtain ⟨h, r1, hh, hcase⟩ := addToRelation_cases hash_any PAGESIZE HDR r r' t (some p) hadd
  have hpB : p = addToRelation_bucket r h :=
    addToRelation_result hash_any PAGESIZE HDR r r' t h p hh hadd
  have hBa : addToRelation_bucket r h = bucketAddr h r.depth r.sp :=
    bucketAddr_eq_addToRelation_bucket r h hinv.wf.sp_lt
  have hBlt : addToRelation_bucket r h < r.data.length := by
    rw [hBa, hinv.wf.data_len, hinv.wf.npages_eq]
    exact bucketAddr_lt _ _ _
  rcases hcase with ⟨_, hres, _⟩ | ⟨hins, _, _, hsplit⟩
  · cases hres
  have hhd := insertTupleIntoPageChain_header PAGESIZE HDR r r1 _ _ t hins
  have hthr : splitThreshold r1 = splitThreshold r := by unfold splitThreshold; rw [hhd.1]
  rw [hthr, hhd.2.2.2.2.1] at hsplit
  rcases hsplit with ⟨_, hsb⟩ | ⟨hm, _⟩
  swap
  · exact absurd hmul hm
  obtain ⟨r1', res, ch1, hins', hstep⟩ :=
    insert_spec PAGESIZE HDR r ch (addToRelation_bucket r h) t hinv.wf.chains hBlt
  rw [hins] at hins'
  obtain ⟨e1, e2⟩ := Prod.mk.inj (Option.some.inj hins')
  subst e1 e2
  rcases hstep with ⟨_, hfit, hs⟩ | ⟨hnone, _⟩
  swap
  · cases hnone
  have hd1 : r1.depth = r.depth := hhd.2.1
  have hs1 : r1.sp = r.sp := hhd.2.2.1
  have hn1 : r1.npages = r.npages := hhd.2.2.2.1
  have hwf1 : WellFormed r1 ch1 :=
    ⟨by rw [hd1, hs1]; exact hinv.wf.sp_lt, by rw [hn1, hd1, hs1]; exact hinv.wf.npages_eq,
      by rw [hs.data_len, hn1]; exact hinv.wf.data_len, hs.chains⟩
  have hp1 : PlacedBy hash_any r1 ch1 (fun h => bucketAddr h r1.depth r1.sp) := by
    rw [hd1, hs1]
    exact placedBy_step hash_any r r1 ch ch1 _ [t] _ hs hinv.placed
      (fun u hu => by rw [List.mem_singleton.mp hu]; exact ⟨h, hh, hBa.symm⟩)
  have hfits : ∀ u ∈ bucketTuples (bumpNtups r1) ch1 (bumpNtups r1).sp,
      u.length + 1 ≤ PAGESIZE - HDR := by
    intro u hu
    have hall := bucketTuples_subset_allTuples r1 ch1 _ u hu
    rcases List.mem_append.mp (hs.all.subset hall) with h1 | h1
    · rw [List.mem_singleton.mp h1]; exact hfit
    · exact hinv.fits u h1
  obtain ⟨r2, ch', hsb', hwf', hp', hna, hcv, hnp, hd', hsp', hoth, hperm⟩ :=
    splitBucket_buckets hash_any PAGESIZE HDR (bumpNtups r1) ch1 (wellFormed_bump r1 ch1 hwf1)
      (placedBy_bump hash_any r1 ch1 _ hp1) hfits
  rw [hsb] at hsb'
  obtain rfl : r' = r2 := Option.some.inj hsb'
  have hb : ∀ B, bucketTuples (bumpNtups r1) ch1 B = bucketTuples r1 ch1 B := fun _ => rfl
  have hbd : (bumpNtups r1).depth = r.depth := hd1
  have hbs : (bumpNtups r1).sp = r.sp := hs1
  rw [hbd, hbs] at hd' hsp' hperm
  rw [hbs] at hoth
  simp only [hb] at hoth hperm
  have hth : ∀ u, tupleHash hash_any r' u = tupleHash hash_any r u := by
    intro u
    exact tupleHash_congr hash_any r r' u (hna.trans hhd.1) (hcv.trans hhd.2.2.2.2.2)
  have hspd : r.sp < r'.data.length := by
    rw [hwf'.data_len, hnp]
    have := hinv.wf.sp_lt
    have h2 : (bumpNtups r1).npages = r.npages := hn1
    rw [h2, hinv.wf.npages_eq]
    omega
  have hnewd : r.sp + 2 ^ r.depth < r'.data.length := by
    rw [hwf'.data_len, hnp]
    have h2 : (bumpNtups r1).npages = r.npages := hn1
    rw [h2, hinv.wf.npages_eq]
    omega
  refine ⟨r1, ch1, ch', by rw [hpB]; exact hins, hsb, hwf1, hd1, hs1, hwf', ?_, hperm, ?_⟩
  · intro u hu
    have hsp1 : r.sp < r1.data.length := by
      rw [hwf1.data_len, hn1, hinv.wf.npages_eq]
      have := hinv.wf.sp_lt
      omega
    obtain ⟨hu1, hhu1, ha⟩ := hp1 r.sp hsp1 u hu
    rw [tupleHash_header hash_any r r1 hhd] at hhu1
    simp only [hd1, hs1] at ha
    have he := bucketAddr_eq_sp hu1 r.depth r.sp hinv.wf.sp_lt ha
    have haddr : bucketAddr hu1 r'.depth r'.sp = getLower hu1 (r.depth + 1) := by
      rw [hd', hsp']
      exact bucketAddr_next_old hu1 r.depth r.sp he
    have hwhere : ∀ B, B < r'.data.length → u ∈ bucketTuples r' ch' B →
        B = getLower hu1 (r.depth + 1) := by
      intro B hB hmem
      obtain ⟨h2, hh2, ha2⟩ := hp' B hB u hmem
      rw [hth u, hhu1] at hh2
      cases hh2
      rw [← haddr]
      exact ha2.symm
    have hlow : getLower hu1 (r.depth + 1) = r.sp ∨
        getLower hu1 (r.depth + 1) = r.sp + 2 ^ r.depth := by
      unfold getLower
      rcases mod_two_pow_succ_cases hu1 r.depth with e | e <;> rw [e, he]
      · exact Or.inl rfl
      · exact Or.inr rfl
    refine ⟨hu1, hhu1, hlow, ?_, fun B hB => hwhere B (by rw [hwf'.data_len]; exact hB)⟩
    rcases List.mem_append.mp (hperm.symm.subset hu) with hm | hm
    · rw [← hwhere r.sp hspd hm]; exact hm
    · rw [← hwhere _ hnewd hm]; exact hm
  · intro B hB hne
    exact hoth B (by
      have h2 : (bumpNtups r1).data.length = r1.data.length := rfl
      rw [h2, hwf1.data_len, hn1]; exact hB) hne

theorem split_redistributes_witness :
    ∃ r1 ch1 ch', insertTupleIntoPageChain 128 12 exReln 0 exTuple = some (r1, some 0) ∧
      splitBucket exHash 128 12 (bumpNtups r1) = some exReln1 ∧
      WellFormed r1 ch1 ∧ r1.depth = exReln.depth ∧ r1.sp = exReln.sp ∧
      WellFormed exReln1 ch' ∧
      (∀ u ∈ bucketTuples r1 ch1 exReln.sp, ∃ h, tupleHash exHash exReln u = some h ∧
        (getLower h (exReln.depth + 1) = exReln.sp ∨
          getLower h (exReln.depth + 1) = exReln.sp + 2 ^ exReln.depth) ∧
        u ∈ bucketTuples exReln1 ch' (getLower h (exReln.depth + 1)) ∧
        ∀ B, B < exReln1.npages → u ∈ bucketTuples exReln1 ch' B →
          B = getLower h (exReln.depth + 1)) ∧
      (bucketTuples exReln1 ch' exReln.sp ++
          bucketTuples exReln1 ch' (exReln.sp + 2 ^ exReln.depth)).Perm
        (bucketTuples r1 ch1 exReln.sp) ∧
      (∀ B, B < exReln.npages → B ≠ exReln.sp →
        bucketTuples exReln1 ch' B = bucketTuples r1 ch1 B) :=
  split_redistributes exHash 128 12 exReln exReln1 (fun _ => []) exTuple 0
    (invariant_fresh exHash 128 12 exReln ⟨rfl, rfl, rfl, rfl, rfl⟩) (by decide) (by decide)

theorem pagesOK_mono (n m : Nat) (f : List Page) (h : PagesOK n f) (hnm : n ≤ m) :
    PagesOK m f :=
  fun pg hpg q hq => lt_of_lt_of_le (h pg hpg q hq) hnm

theorem pagesOK_set (n : Nat) (f : List Page) (i : Nat) (x : Page) (h : PagesOK n f)
    (hx : ∀ q, x.ovflow = some q → q < n) : PagesOK n (f.set i x) := by
  intro pg hpg q hq
  rcases List.mem_or_eq_of_mem_set hpg with h1 | h1
  · exact h pg h1 q hq
  · subst h1; exact hx q hq

theorem pagesOK_concat (n : Nat) (f : List Page) (x : Page) (h : PagesOK n f)
    (hx : ∀ q, x.ovflow = some q → q < n) : PagesOK n (f ++ [x]) := by
  intro pg hpg q hq
  rcases List.mem_append.mp hpg with h1 | h1
  · exact h pg h1 q hq
  · rw [List.mem_singleton.mp h1] at hq; exact hx q hq

theorem pagesOK_get (n : Nat) (f : List Page) (i : Nat) (pg : Page) (h : PagesOK n f)
    (hi : f[i]? = some pg) : ∀ q, pg.ovflow = some q → q < n := by
  obtain ⟨hlt, heq⟩ := List.getElem?_eq_some.mp hi
  exact h pg (heq ▸ List.getElem_mem hlt)

theorem scanOvflow_placed (PAGESIZE HDR : Nat) (ov : List Page) (t : Tuple) (n : Nat)
    (hov : PagesOK n ov) :
    ∀ (fuel start : Nat) (ov1 : List Page),
      scanOvflow PAGESIZE HDR ov t fuel start = some (ScanResult.placed ov1) →
      ov1.length = ov.length ∧ PagesOK n ov1 := by
  intro fuel
  induction fuel with
  | zero => intro start ov1 h; simp [scanOvflow] at h
  | succ fuel ih =>
    intro start ov1 h
    simp only [scanOvflow] at h
    rcases hg : getPage ov start with _ | pg
    · simp [hg] at h
    · have hlt : start < ov.length := (List.getElem?_eq_some.mp hg).1
      simp only [hg] at h
      rcases ha : addToPage PAGESIZE HDR pg t with _ | pg1
      · simp only [ha] at h
        rcases ho : pageOvflow pg with _ | nxt
        · simp [ho] at h
        · simp only [ho] at h
          exact ih nxt ov1 h
      · simp only [ha, putPage_lt _ _ _ hlt, Option.some.injEq,
          ScanResult.placed.injEq] at h
        subst h
        refine ⟨List.length_set _ _ _, pagesOK_set n ov start pg1 hov ?_⟩
        rw [(addToPage_some _ _ _ _ _ ha).1]
        exact pagesOK_get n ov start pg hov hg

theorem scanOvflow_full (PAGESIZE HDR : Nat) (ov : List Page) (t : Tuple) :
    ∀ (fuel start prevp : Nat) (prevpg : Page),
      scanOvflow PAGESIZE HDR ov t fuel start = some (ScanResult.full prevp prevpg) →
      ov[prevp]? = some prevpg := by
  intro fuel
  induction fuel with
  | zero => intro start prevp prevpg h; simp [scanOvflow] at h
  | succ fuel ih =>
    intro start prevp prevpg h
    simp only [scanOvflow] at h
    rcases hg : getPage ov start with _ | pg
    · simp [hg] at h
    · have hlt : start < ov.length := (List.getElem?_eq_some.mp hg).1
      simp only [hg] at h
      rcases ha : addToPage PAGESIZE HDR pg t with _ | pg1
      · simp only [ha] at h
        rcases ho : pageOvflow pg with _ | nxt
        · simp only [ho, Option.some.injEq, ScanResult.full.injEq] at h
          obtain ⟨rfl, rfl⟩ := h
          exact hg
        · simp only [ho] at h
          exact ih nxt prevp prevpg h
      · simp [ha, putPage_lt _ _ _ hlt] at h

/-- The chain insertion keeps all overflow pointers valid. -/
theorem insertTupleIntoPageChain_ptrs (PAGESIZE HDR : Nat) (r r1 : Reln) (p : Nat)
    (res : Option Nat) (t : Tuple) (hok : PtrsOK r)
    (h : insertTupleIntoPageChain PAGESIZE HDR r p t = some (r1, res)) : PtrsOK r1 := by
  obtain ⟨hd, ho⟩ := hok
  have hnew : getPage (r.ovflow ++ [newPage]) r.ovflow.length = some newPage := by
    simp [getPage]
  have hnone : ∀ q, newPage.ovflow = some q → q < r.ovflow.length + 1 := by
    intro q hq; cases hq
  have hlink : ∀ (pg : Page) q, (pageSetOvflow pg (some r.ovflow.length)).ovflow = some q →
      q < r.ovflow.length + 1 := by
    intro pg q hq
    simp only [pageSetOvflow, Option.some.injEq] at hq
    omega
  have hd1 := pagesOK_mono _ (r.ovflow.length + 1) _ hd (Nat.le_succ _)
  have ho1 := pagesOK_concat _ _ newPage
    (pagesOK_mono _ (r.ovflow.length + 1) _ ho (Nat.le_succ _)) hnone
  unfold insertTupleIntoPageChain at h
  simp only [addPage, hnew] at h
  rcases hg : getPage r.data p with _ | pg
  · simp [hg] at h
  · have hp : p < r.data.length := (List.getElem?_eq_some.mp hg).1
    simp only [hg] at h
    rcases ha : addToPage PAGESIZE HDR pg t with _ | pg1
    · simp only [ha] at h
      rcases hov : pageOvflow pg with _ | ovp
      · simp only [hov, putPage_lt _ _ _ hp] at h
        rcases hn : addToPage PAGESIZE HDR newPage t with _ | n1
        · simp only [hn, Option.some.injEq, Prod.mk.injEq] at h
          obtain ⟨rfl, _⟩ := h
          exact ⟨by simpa using pagesOK_set _ _ p _ hd1 (hlink pg), by simpa using ho1⟩
        · simp only [hn, putPage_lt (r.ovflow ++ [newPage]) r.ovflow.length n1 (by simp),
            Option.some.injEq, Prod.mk.injEq] at h
          obtain ⟨rfl, _⟩ := h
          have hn1 : ∀ q, n1.ovflow = some q → q < r.ovflow.length + 1 := by
            rw [(addToPage_some _ _ _ _ _ hn).1]; exact hnone
          exact ⟨by simpa using pagesOK_set _ _ p _ hd1 (hlink pg),
            by simpa using pagesOK_set _ _ r.ovflow.length n1 ho1 hn1⟩
      · simp only [hov] at h
        rcases hs : scanOvflow PAGESIZE HDR r.ovflow t (r.ovflow.length + 1) ovp
          with _ | ⟨ov1⟩ | ⟨prevp, prevpg⟩
        · simp [hs] at h
        · simp only [hs, Option.some.injEq, Prod.mk.injEq] at h
          obtain ⟨rfl, _⟩ := h
          obtain ⟨hl, hok1⟩ := scanOvflow_placed PAGESIZE HDR r.ovflow t _ ho _ _ _ hs
          exact ⟨by simpa [hl] using hd, by simpa [hl] using hok1⟩
        · simp only [hs] at h
          have hprev := scanOvflow_full PAGESIZE HDR r.ovflow t _ _ _ _ hs
          have hplt : prevp < r.ovflow.length := (List.getElem?_eq_some.mp hprev).1
          rcases hn : addToPage PAGESIZE HDR newPage t with _ | n1
          · simp only [hn, Option.some.injEq, Prod.mk.injEq] at h
            obtain ⟨rfl, _⟩ := h
            exact ⟨by simpa using hd1, by simpa using ho1⟩
          · simp only [hn, putPage_lt (r.ovflow ++ [newPage]) r.ovflow.length n1 (by simp)]
              at h
            rw [putPage_lt _ prevp _ (by simp; omega)] at h
            simp only [Option.some.injEq, Prod.mk.injEq] at h
            obtain ⟨rfl, _⟩ := h
            have hn1 : ∀ q, n1.ovflow = some q → q < r.ovflow.length + 1 := by
              rw [(addToPage_some _ _ _ _ _ hn).1]; exact hnone
            have hfin := pagesOK_set _ _ prevp _
              (pagesOK_set _ _ r.ovflow.length n1 ho1 hn1) (hlink prevpg)
            exact ⟨by simpa using hd1, by simpa using hfin⟩
    · simp only [ha, putPage_lt _ _ _ hp, Option.some.injEq, Prod.mk.injEq] at h
      obtain ⟨rfl, _⟩ := h
      refine ⟨pagesOK_set _ _ p pg1 hd ?_, ho⟩
      rw [(addToPage_some _ _ _ _ _ ha).1]
      exact pagesOK_get _ _ p pg hd hg

theorem putPage_pagesOK (n : Nat) (f f1 : List Page) (id : Nat) (x : Page)
    (hf : PagesOK n f) (hx : ∀ q, x.ovflow = some q → q < n)
    (h : putPage f id x = some f1) : PagesOK n f1 := by
  unfold putPage at h
  by_cases h1 : id < f.length
  · simp only [h1, if_true, Option.some.injEq] at h
    subst h
    exact pagesOK_set n f id x hf hx
  · by_cases h2 : id = f.length
    · subst h2
      simp only [Nat.lt_irrefl, if_false, if_true, Option.some.injEq] at h
      subst h
      exact pagesOK_concat n f x hf hx
    · simp [h1, h2] at h

theorem resetOvflow_ptrs (n : Nat) :
    ∀ (fuel : Nat) (ov : List Page) (s : Option Nat) (ov1 : List Page),
      PagesOK n ov → resetOvflow fuel ov s = some ov1 →
      ov1.length = ov.length ∧ PagesOK n ov1 := by
  intro fuel
  induction fuel with
  | zero =>
    intro ov s ov1 hov h
    cases s with
    | none =>
      simp only [resetOvflow, Option.some.injEq] at h
      subst h
      exact ⟨rfl, hov⟩
    | some q => simp [resetOvflow] at h
  | succ fuel ih =>
    intro ov s ov1 hov h
    cases s with
    | none =>
      simp only [resetOvflow, Option.some.injEq] at h
      subst h
      exact ⟨rfl, hov⟩
    | some q =>
      simp only [resetOvflow] at h
      rcases hg : getPage ov q with _ | pg
      · simp [hg] at h
      · have hlt : q < ov.length := (List.getElem?_eq_some.mp hg).1
        simp only [hg, putPage_lt _ _ _ hlt] at h
        have hset : PagesOK n (ov.set q (pageSetOvflow newPage none)) :=
          pagesOK_set n ov q _ hov (fun x hx => by cases hx)
        obtain ⟨l1, l2⟩ := ih _ _ ov1 hset h
        exact ⟨by rw [l1, List.length_set], l2⟩

theorem reinsertTuples_ptrs (hash_any : Tuple → Nat) (PAGESIZE HDR : Nat) :
    ∀ (ts : List Tuple) (r r1 : Reln), PtrsOK r →
      reinsertTuples hash_any PAGESIZE HDR r ts = some r1 → PtrsOK r1 := by
  intro ts
  induction ts with
  | nil =>
    intro r r1 hok h
    simp only [reinsertTuples, Option.some.injEq] at h
    subst h
    exact hok
  | cons t ts ih =>
    intro r r1 hok h
    simp only [reinsertTuples] at h
    rcases hh : tupleHash hash_any r t with _ | hv
    · simp [hh] at h
    · simp only [hh] at h
      rcases hins : insertTupleIntoPageChain PAGESIZE HDR r (getLower hv (r.depth + 1)) t
        with _ | ⟨r2, res⟩
      · simp [hins] at h
      · simp only [hins] at h
        exact ih r2 r1 (insertTupleIntoPageChain_ptrs PAGESIZE HDR r r2 _ res t hok hins) h

/-- A split keeps all overflow pointers valid. -/
theorem splitBucket_ptrs (hash_any : Tuple → Nat) (PAGESIZE HDR : Nat) (r r' : Reln)
    (hok : PtrsOK r) (h : splitBucket hash_any PAGESIZE HDR r = some r') : PtrsOK r' := by
  obtain ⟨hd, ho⟩ := hok
  unfold splitBucket at h
  simp only at h
  rcases h1 : putPage r.data (r.sp + 2 ^ r.depth) newPage with _ | data1
  · simp [h1] at h
  simp only [h1] at h
  have hd1 : PagesOK r.ovflow.length data1 :=
    putPage_pagesOK _ _ _ _ _ hd (fun q hq => by cases hq) h1
  rcases h2 : getPage data1 r.sp with _ | old
  · simp [h2] at h
  simp only [h2] at h
  have hold := pagesOK_get _ _ _ _ hd1 h2
  rcases h3 : countOvflow r.ovflow (r.ovflow.length + 1) (pageOvflow old) (pageNTuples old)
    with _ | m
  · simp [h3] at h
  simp only [h3] at h
  rcases h4 : collectOvflow r.ovflow (r.ovflow.length + 1) (pageOvflow old) old.tuples
    with _ | tuples
  · simp [h4] at h
  simp only [h4] at h
  rcases h5 : putPage data1 r.sp (pageSetOvflow newPage (pageOvflow old)) with _ | data2
  · simp [h5] at h
  simp only [h5] at h
  have hd2 : PagesOK r.ovflow.length data2 :=
    putPage_pagesOK _ _ _ _ (pageSetOvflow newPage (pageOvflow old)) hd1
      (fun q hq => hold q hq) h5
  rcases h6 : resetOvflow (r.ovflow.length + 1) r.ovflow (pageOvflow old) with _ | ov1
  · simp [h6] at h
  simp only [h6] at h
  obtain ⟨hl, ho1⟩ := resetOvflow_ptrs _ _ _ _ _ ho h6
  rcases h7 : reinsertTuples hash_any PAGESIZE HDR
      { r with npages := r.npages + 1, data := data2, ovflow := ov1 } tuples with _ | r2
  · simp [h7] at h
  simp only [h7] at h
  have hmid : PtrsOK { r with npages := r.npages + 1, data := data2, ovflow := ov1 } :=
    ⟨by simpa [hl] using hd2, by simpa [hl] using ho1⟩
  have h2ok := reinsertTuples_ptrs hash_any PAGESIZE HDR _ _ _ hmid h7
  split at h
  · simp only [Option.some.injEq] at h
    subst h
    exact h2ok
  · simp only [Option.some.injEq] at h
    subst h
    exact h2ok

theorem addToRelation_ptrs (hash_any : Tuple → Nat) (PAGESIZE HDR : Nat) (r r' : Reln)
    (t : Tuple) (res : Option Nat) (hok : PtrsOK r)
    (hadd : addToRelation hash_any PAGESIZE HDR r t = some (r', res)) : PtrsOK r' := by
  obtain ⟨h, r1, _, hcase⟩ := addToRelation_cases hash_any PAGESIZE HDR r r' t res hadd
  rcases hcase with ⟨hins, _, rfl⟩ | ⟨hins, _, _, ⟨_, hsb⟩ | ⟨_, rfl⟩⟩
  · exact insertTupleIntoPageChain_ptrs PAGESIZE HDR r _ _ _ t hok hins
  · have h1 := insertTupleIntoPageChain_ptrs PAGESIZE HDR r r1 _ _ t hok hins
    exact splitBucket_ptrs hash_any PAGESIZE HDR (bumpNtups r1) r' h1 hsb
  · exact insertTupleIntoPageChain_ptrs PAGESIZE HDR r r1 _ _ t hok hins

theorem reaches_ptrs (hash_any : Tuple → Nat) (PAGESIZE HDR : Nat) (r0 r : Reln) (K : Nat)
    (hfresh : Fresh r0) (hreach : Reaches hash_any PAGESIZE HDR r0 K r) : PtrsOK r := by
  induction hreach with
  | start =>
    obtain ⟨_, _, _, hdata, hov⟩ := hfresh
    refine ⟨?_, ?_⟩
    · intro pg hpg q hq
      rw [hdata] at hpg
      rw [List.eq_of_mem_replicate hpg] at hq
      cases hq
    · intro pg hpg
      rw [hov] at hpg
      cases hpg
  | failed K r r' t _ hadd ih => exact addToRelation_ptrs hash_any PAGESIZE HDR r r' t none ih hadd
  | inserted K r r' t p _ hadd ih =>
    exact addToRelation_ptrs hash_any PAGESIZE HDR r r' t (some p) ih hadd

/-- C27: overflow chains stay well formed.  In every state reached from a
fresh relation by calls of `addToRelation`, there are lists `ch B` such that
for every bucket `B` the overflow pointers lead from its primary page through
the pages `ch B`, without repetition, to `NO_PAGE`; no overflow page is on the
lists of two buckets; and the overflow pointer of every primary page and of
every overflow page is `NO_PAGE` or the id of a page of the overflow file. -/
theorem chains_stay_well_formed (hash_any : Tuple → Nat) (PAGESIZE HDR : Nat) (r0 r : Reln)
    (K : Nat) (hfresh : Fresh r0) (hreach : Reaches hash_any PAGESIZE HDR r0 K r) :
    ∃ ch : Nat → List Nat,
      r.data.length = r.npages ∧
      (∀ B, B < r.npages → ∃ pg, r.data[B]? = some pg ∧ IsChain r.ovflow (ch B) pg.ovflow ∧
        (ch B).Nodup ∧ ∀ q ∈ ch B, q < r.ovflow.length) ∧
      (∀ B B', B < r.npages → B' < r.npages → B ≠ B' → ∀ q, q ∈ ch B → q ∉ ch B') ∧
      (∀ pg ∈ r.data ++ r.ovflow, pg.ovflow = none ∨
        ∃ q, pg.ovflow = some q ∧ q < r.ovflow.length) := by
  obtain ⟨ch, hinv, _⟩ := invariant_reaches hash_any PAGESIZE HDR r0 r K hfresh hreach
  obtain ⟨hd, ho⟩ := reaches_ptrs hash_any PAGESIZE HDR r0 r K hfresh hreach
  have hlen := hinv.wf.data_len
  refine ⟨ch, hlen, ?_, ?_, ?_⟩
  · intro B hB
    obtain ⟨pg, hpg, hc⟩ := hinv.wf.chains.chain B (by rw [hlen]; exact hB)
    exact ⟨pg, hpg, hc, isChain_nodup _ _ _ hc, isChain_lt _ _ _ hc⟩
  · intro B B' hB hB' hne
    exact hinv.wf.chains.disjoint B B' (by rw [hlen]; exact hB) (by rw [hlen]; exact hB') hne
  · intro pg hpg
    rcases hq : pg.ovflow with _ | q
    · exact Or.inl rfl
    · right
      rcases List.mem_append.mp hpg with h1 | h1
      · exact ⟨q, rfl, hd pg h1 q hq⟩
      · exact ⟨q, rfl, ho pg h1 q hq⟩

theorem chains_stay_well_formed_witness :
    ∃ ch : Nat → List Nat,
      exReln1.data.length = exReln1.npages ∧
      (∀ B, B < exReln1.npages → ∃ pg, exReln1.data[B]? = some pg ∧
        IsChain exReln1.ovflow (ch B) pg.ovflow ∧
        (ch B).Nodup ∧ ∀ q ∈ ch B, q < exReln1.ovflow.length) ∧
      (∀ B B', B < exReln1.npages → B' < exReln1.npages → B ≠ B' →
        ∀ q, q ∈ ch B → q ∉ ch B') ∧
      (∀ pg ∈ exReln1.data ++ exReln1.ovflow, pg.ovflow = none ∨
        ∃ q, pg.ovflow = some q ∧ q < exReln1.ovflow.length) :=
  chains_stay_well_formed exHash 128 12 exReln exReln1 1 ⟨rfl, rfl, rfl, rfl, rfl⟩
    (Reaches.inserted 0 exReln exReln1 exTuple 0 Reaches.start (by decide))

theorem unknownCount_le (unknown n : Nat) : unknownCount unknown n ≤ n := by
  unfold unknownCount
  exact le_trans (List.length_filter_le _ _) (by simp)

theorem unknownCount_mono (unknown n : Nat) :
    unknownCount unknown n ≤ unknownCount unknown (n + 1) := by
  unfold unknownCount
  rw [List.range_succ, List.filter_append, List.length_append]
  omega

theorem genCandidatesInt_lt (known unknown n : Nat) (h : unknownCount unknown n < 31) :
    genCandidatesInt known unknown n = some (genCandidates known unknown n) := by
  unfold unknownCount at h
  simp only [genCandidatesInt, genCandidates, h, if_true]

theorem mergeCandidatesInt_lt (known unknown d sp : Nat) (hd : d < 31)
    (hk : unknownCount unknown (d + 1) < 31) :
    mergeCandidatesInt known unknown d sp = some (mergeCandidates known unknown d sp) := by
  have hk0 : unknownCount unknown d < 31 := lt_of_le_of_lt (unknownCount_mono unknown d) hk
  simp only [mergeCandidatesInt, genCandidatesInt_lt _ _ _ hk0, genCandidatesInt_lt _ _ _ hk,
    hd, if_true, mergeCandidates]

/-- Below depth 30 the `int` arithmetic never overflows: the two functions
agree. -/
theorem startSelectionInt_eq (hash_any : Tuple → Nat) (r : Reln) (q : Tuple)
    (hd : r.depth < 30) : startSelectionInt hash_any r q = startSelection hash_any r q := by
  unfold startSelectionInt startSelection
  rcases hm : maskLoop hash_any r.cv (queryVals (parseQuery r.nattrs q)) MAXBITS 0 0 0
    with _ | ⟨k, u⟩
  · simp only [hm]
  · have hk : unknownCount u (r.depth + 1) < 31 :=
      lt_of_le_of_lt (unknownCount_le u (r.depth + 1)) (by omega)
    simp only [hm, mergeCandidatesInt_lt k u r.depth r.sp (by omega) hk]

end MALH
